import Mathlib

/-!
Shallow embedding of the image-to-SVG vectorizer (color quantization,
per-color masking, Moore-neighbor contour tracing, Ramer-Douglas-Peucker
path simplification, SVG emission) together with proofs about the
embedded functions.  JavaScript numbers are modelled as rationals, byte
buffers as lists of naturals, and the two tracer loops (the boundary
walk and the raster scan) as fuel-driven structural recursions; the fuel
is always large enough for the loops the source actually runs.
-/

namespace Vec

/-- A 2-D point with rational coordinates, embedding the vectorizer's
`Point` record. -/
structure Pt where
  x : ℚ
  y : ℚ
deriving DecidableEq, Repr, Inhabited

/-- Squared distance from `p` to the segment `p1`–`p2`, embedding
`getSquareSegmentDistance` inside `simplifyPath`: the foot of the
perpendicular is clamped to the segment. -/
def getSquareSegmentDistance (p p1 p2 : Pt) : ℚ :=
  let dx := p2.x - p1.x
  let dy := p2.y - p1.y
  let q :=
    if dx ≠ 0 ∨ dy ≠ 0 then
      let t := ((p.x - p1.x) * dx + (p.y - p1.y) * dy) / (dx * dx + dy * dy)
      if 1 < t then (p2.x, p2.y)
      else if 0 < t then (p1.x + dx * t, p1.y + dy * t)
      else (p1.x, p1.y)
    else (p1.x, p1.y)
  (p.x - q.1) * (p.x - q.1) + (p.y - q.2) * (p.y - q.2)

/-- The `maxDist` / `index` scan of `simplifyPath`: fold over the interior
points (paired with their indices, starting at `i`), keeping the first
point whose squared chord distance strictly exceeds the running maximum. -/
def maxDistScan (p1 p2 : Pt) : List Pt → Nat → ℚ × Nat → ℚ × Nat
  | [], _, acc => acc
  | p :: rest, i, acc =>
    let d := getSquareSegmentDistance p p1 p2
    maxDistScan p1 p2 rest (i + 1) (if acc.1 < d then (d, i) else acc)

/-- Fuel-driven body of `simplifyPath`.  The fuel only serves to make the
recursion structural; `simplifyPath` passes the length of the list, which
always suffices because both recursive calls strictly shrink the path. -/
def simplifyFuel : Nat → List Pt → ℚ → List Pt
  | 0, pts, _ => pts
  | fuel + 1, pts, epsilon =>
    if pts.length < 3 then pts
    else
      let p0 := pts.headI
      let plast := pts.getLastI
      let scan := maxDistScan p0 plast (pts.drop 1).dropLast 1 (0, 0)
      if epsilon * epsilon < scan.1 then
        let left := simplifyFuel fuel (pts.take (scan.2 + 1)) epsilon
        let right := simplifyFuel fuel (pts.drop scan.2) epsilon
        left.dropLast ++ right
      else [p0, plast]

/-- Ramer–Douglas–Peucker simplification, embedding `simplifyPath`. -/
def simplifyPath (pts : List Pt) (epsilon : ℚ) : List Pt :=
  simplifyFuel pts.length pts epsilon

/-- The chord-distance of the chord's first endpoint is zero. -/
theorem gssd_self_left (p1 p2 : Pt) : getSquareSegmentDistance p1 p1 p2 = 0 := by
  unfold getSquareSegmentDistance
  by_cases h : p2.x - p1.x ≠ 0 ∨ p2.y - p1.y ≠ 0
  · simp only [h, if_pos, sub_self, zero_mul, add_zero, zero_div]
    norm_num
  · simp only [h, if_neg, sub_self, zero_mul, add_zero]
    simp

/-- The chord-distance of the chord's second endpoint is zero. -/
theorem gssd_self_right (p1 p2 : Pt) : getSquareSegmentDistance p2 p1 p2 = 0 := by
  unfold getSquareSegmentDistance
  by_cases h : p2.x - p1.x ≠ 0 ∨ p2.y - p1.y ≠ 0
  · have hD : 0 < (p2.x - p1.x) * (p2.x - p1.x) + (p2.y - p1.y) * (p2.y - p1.y) := by
      rcases h with h | h
      · nlinarith [mul_self_nonneg (p2.y - p1.y), mul_self_pos.mpr h]
      · nlinarith [mul_self_nonneg (p2.x - p1.x), mul_self_pos.mpr h]
    simp only [h, if_pos]
    rw [div_self (ne_of_gt hD)]
    norm_num
  · push_neg at h
    simp only [if_neg, h, not_true_eq_false, false_or, or_self, ite_false]
    rw [sub_eq_zero] at h
    obtain ⟨hx, hy⟩ := h
    simp [hx, hy]

/-- Characterization of the `maxDist` / `index` scan: the result dominates
the accumulator and every scanned distance, and it is either the
accumulator itself or the first scanned point realizing the maximum. -/
theorem maxDistScan_spec (p1 p2 : Pt) : ∀ (l : List Pt) (i : Nat) (acc : ℚ × Nat),
    acc.1 ≤ (maxDistScan p1 p2 l i acc).1 ∧
    (∀ p ∈ l, getSquareSegmentDistance p p1 p2 ≤ (maxDistScan p1 p2 l i acc).1) ∧
    (maxDistScan p1 p2 l i acc = acc ∨
      ∃ j, ∃ hj : j < l.length,
        (maxDistScan p1 p2 l i acc).2 = i + j ∧
        (maxDistScan p1 p2 l i acc).1 = getSquareSegmentDistance (l.get ⟨j, hj⟩) p1 p2 ∧
        acc.1 < (maxDistScan p1 p2 l i acc).1 ∧
        ∀ j', ∀ hj' : j' < j,
          getSquareSegmentDistance (l.get ⟨j', Nat.lt_trans hj' hj⟩) p1 p2 <
            (maxDistScan p1 p2 l i acc).1) := by
  intro l
  induction l with
  | nil => intro i acc; refine ⟨le_refl _, by simp, Or.inl rfl⟩
  | cons p rest ih =>
    intro i acc
    by_cases hlt : acc.1 < getSquareSegmentDistance p p1 p2
    · have heq : maxDistScan p1 p2 (p :: rest) i acc =
          maxDistScan p1 p2 rest (i + 1) (getSquareSegmentDistance p p1 p2, i) := by
        simp only [maxDistScan, if_pos hlt]
      rw [heq]
      obtain ⟨h1, h2, h3⟩ := ih (i + 1) (getSquareSegmentDistance p p1 p2, i)
      refine ⟨le_trans (le_of_lt hlt) h1, ?_, ?_⟩
      · intro q hq
        rcases List.mem_cons.mp hq with hq | hq
        · subst hq; exact h1
        · exact h2 q hq
      · rcases h3 with h3 | ⟨j, hj, e2, e1, elt, hfirst⟩
        · right
          refine ⟨0, by simp, ?_, ?_, ?_, ?_⟩
          · rw [h3]; simp
          · rw [h3]; simp
          · rw [h3]; exact hlt
          · intro j' hj'; omega
        · right
          refine ⟨j + 1, by simpa using Nat.succ_lt_succ hj, ?_, ?_, ?_, ?_⟩
          · rw [e2]; omega
          · simpa using e1
          · exact lt_trans hlt elt
          · intro j' hj'
            cases j' with
            | zero => simpa using elt
            | succ j'' =>
              have := hfirst j'' (by omega)
              simpa using this
    · have heq : maxDistScan p1 p2 (p :: rest) i acc =
          maxDistScan p1 p2 rest (i + 1) acc := by
        simp only [maxDistScan, if_neg hlt]
      rw [heq]
      obtain ⟨h1, h2, h3⟩ := ih (i + 1) acc
      refine ⟨h1, ?_, ?_⟩
      · intro q hq
        rcases List.mem_cons.mp hq with hq | hq
        · subst hq; exact le_trans (le_of_not_lt hlt) h1
        · exact h2 q hq
      · rcases h3 with h3 | ⟨j, hj, e2, e1, elt, hfirst⟩
        · left; exact h3
        · right
          refine ⟨j + 1, by simpa using Nat.succ_lt_succ hj, ?_, ?_, elt, ?_⟩
          · rw [e2]; omega
          · simpa using e1
          · intro j' hj'
            cases j' with
            | zero =>
              simpa using lt_of_le_of_lt (le_of_not_lt hlt) elt
            | succ j'' =>
              have := hfirst j'' (by omega)
              simpa using this

/-- `headI` realizes `head?` on a nonempty list. -/
theorem head?_eq_some_headI (l : List Pt) (h : l ≠ []) : l.head? = some l.headI := by
  cases l with
  | nil => exact absurd rfl h
  | cons a t => rfl

/-- `getLastI` realizes `getLast?` on a nonempty list. -/
theorem getLast?_eq_some_getLastI (l : List Pt) (h : l ≠ []) :
    l.getLast? = some l.getLastI := by
  rw [List.getLastI_eq_getLast?]
  cases hx : l.getLast? with
  | none => exact absurd (List.getLast?_eq_none_iff.mp hx) h
  | some a => rfl

/-- The last element of a nonempty list is a member. -/
theorem getLastI_mem (l : List Pt) (h : l ≠ []) : l.getLastI ∈ l := by
  have h1 : l.getLastI ∈ l.getLast? := getLast?_eq_some_getLastI l h
  obtain ⟨hne, heq⟩ := List.mem_getLast?_eq_getLast h1
  rw [heq]
  exact List.getLast_mem hne

/-- `getLast?` is preserved by dropping fewer elements than the length. -/
theorem getLast?_drop_of_lt (l : List Pt) : ∀ k, k < l.length →
    (l.drop k).getLast? = l.getLast? := by
  induction l with
  | nil => intro k hk; simp at hk
  | cons a t ih =>
    intro k hk
    cases k with
    | zero => rfl
    | succ k' =>
      have ht : t ≠ [] := by
        intro h; rw [h] at hk; simp at hk
      rw [List.drop_succ_cons, ih k' (by simpa using hk)]
      cases t with
      | nil => exact absurd rfl ht
      | cons b u => simp [List.getLast?_cons_cons]

/-- `head?` is preserved by taking a positive number of elements. -/
theorem head?_take_pos (l : List Pt) (n : Nat) (h : 0 < n) :
    (l.take n).head? = l.head? := by
  cases l with
  | nil => simp
  | cons a t =>
    cases n with
    | zero => omega
    | succ n' => rfl

/-- A short path is returned unchanged at any fuel. -/
theorem simplifyFuel_short (f : Nat) (pts : List Pt) (epsilon : ℚ)
    (h : pts.length < 3) : simplifyFuel f pts epsilon = pts := by
  cases f with
  | zero => rfl
  | succ f' => simp [simplifyFuel, if_pos h]

/-- In the recursion branch, the scan index is a genuine interior index,
realizing the maximal chord distance first, and dominating all interior
distances. -/
theorem scan_branch_facts (pts : List Pt) (epsilon : ℚ) (h3 : 3 ≤ pts.length)
    (hrec : epsilon * epsilon <
      (maxDistScan pts.headI pts.getLastI ((pts.drop 1).dropLast) 1 (0, 0)).1) :
    1 ≤ (maxDistScan pts.headI pts.getLastI ((pts.drop 1).dropLast) 1 (0, 0)).2 ∧
    (maxDistScan pts.headI pts.getLastI ((pts.drop 1).dropLast) 1 (0, 0)).2 ≤ pts.length - 2 ∧
    0 < (maxDistScan pts.headI pts.getLastI ((pts.drop 1).dropLast) 1 (0, 0)).1 := by
  have hsq : 0 ≤ epsilon * epsilon := mul_self_nonneg epsilon
  obtain ⟨h1, h2, h3'⟩ :=
    maxDistScan_spec pts.headI pts.getLastI ((pts.drop 1).dropLast) 1 (0, 0)
  have hpos : 0 < (maxDistScan pts.headI pts.getLastI ((pts.drop 1).dropLast) 1 (0, 0)).1 :=
    lt_of_le_of_lt hsq hrec
  rcases h3' with hacc | ⟨j, hj, e2, _, _, _⟩
  · rw [hacc] at hpos; simp at hpos
  · have hlen : ((pts.drop 1).dropLast).length = pts.length - 2 := by
      rw [List.length_dropLast, List.length_drop]
      omega
    refine ⟨by omega, by omega, hpos⟩

/-- Output always keeps at least two points when the input has at least two. -/
theorem simplifyFuel_two_le (f : Nat) : ∀ (pts : List Pt) (epsilon : ℚ),
    2 ≤ pts.length → 2 ≤ (simplifyFuel f pts epsilon).length := by
  induction f with
  | zero => intro pts epsilon h; simpa [simplifyFuel] using h
  | succ f' ih =>
    intro pts epsilon h
    by_cases hs : pts.length < 3
    · rw [simplifyFuel_short _ _ _ hs]; exact h
    · push_neg at hs
      simp only [simplifyFuel, if_neg (not_lt.mpr hs)]
      by_cases hrec : epsilon * epsilon <
          (maxDistScan pts.headI pts.getLastI ((pts.drop 1).dropLast) 1 (0, 0)).1
      · rw [if_pos hrec]
        obtain ⟨hk1, hk2, _⟩ := scan_branch_facts pts epsilon hs hrec
        have hdroplen : 2 ≤ (pts.drop
            (maxDistScan pts.headI pts.getLastI ((pts.drop 1).dropLast) 1 (0, 0)).2).length := by
          rw [List.length_drop]; omega
        have := ih (pts.drop
            (maxDistScan pts.headI pts.getLastI ((pts.drop 1).dropLast) 1 (0, 0)).2)
          epsilon hdroplen
        rw [List.length_append]
        omega
      · rw [if_neg hrec]; simp

/-- Simplification never lengthens a path. -/
theorem simplifyFuel_length_le (f : Nat) : ∀ (pts : List Pt) (epsilon : ℚ),
    (simplifyFuel f pts epsilon).length ≤ pts.length := by
  induction f with
  | zero => intro pts epsilon; simp [simplifyFuel]
  | succ f' ih =>
    intro pts epsilon
    by_cases hs : pts.length < 3
    · rw [simplifyFuel_short _ _ _ hs]
    · push_neg at hs
      simp only [simplifyFuel, if_neg (not_lt.mpr hs)]
      by_cases hrec : epsilon * epsilon <
          (maxDistScan pts.headI pts.getLastI ((pts.drop 1).dropLast) 1 (0, 0)).1
      · rw [if_pos hrec]
        obtain ⟨hk1, hk2, _⟩ := scan_branch_facts pts epsilon hs hrec
        have hleft : (simplifyFuel f' (pts.take
            ((maxDistScan pts.headI pts.getLastI ((pts.drop 1).dropLast) 1 (0, 0)).2 + 1))
              epsilon).length ≤
            (maxDistScan pts.headI pts.getLastI ((pts.drop 1).dropLast) 1 (0, 0)).2 + 1 :=
          le_trans (ih _ epsilon) (List.length_take_le _ _)
        have hright := ih (pts.drop
            (maxDistScan pts.headI pts.getLastI ((pts.drop 1).dropLast) 1 (0, 0)).2) epsilon
        rw [List.length_append, List.length_dropLast]
        rw [List.length_drop] at hright
        omega
      · rw [if_neg hrec]
        simp only [List.length_cons, List.length_nil]
        omega

/-- The fuel does not matter once it reaches the length of the path. -/
theorem simplifyFuel_irrel (f1 : Nat) : ∀ (f2 : Nat) (pts : List Pt) (epsilon : ℚ),
    pts.length ≤ f1 → pts.length ≤ f2 →
    simplifyFuel f1 pts epsilon = simplifyFuel f2 pts epsilon := by
  induction f1 with
  | zero =>
    intro f2 pts epsilon h1 _
    have : pts = [] := List.eq_nil_of_length_eq_zero (by omega)
    subst this
    cases f2 <;> simp [simplifyFuel]
  | succ f1' ih =>
    intro f2 pts epsilon h1 h2
    cases f2 with
    | zero =>
      have : pts = [] := List.eq_nil_of_length_eq_zero (by omega)
      subst this
      simp [simplifyFuel]
    | succ f2' =>
      by_cases hs : pts.length < 3
      · rw [simplifyFuel_short _ _ _ hs, simplifyFuel_short _ _ _ hs]
      · push_neg at hs
        simp only [simplifyFuel, if_neg (not_lt.mpr hs)]
        by_cases hrec : epsilon * epsilon <
            (maxDistScan pts.headI pts.getLastI ((pts.drop 1).dropLast) 1 (0, 0)).1
        · rw [if_pos hrec, if_pos hrec]
          obtain ⟨hk1, hk2, _⟩ := scan_branch_facts pts epsilon hs hrec
          have el := ih f2' (pts.take
              ((maxDistScan pts.headI pts.getLastI ((pts.drop 1).dropLast) 1 (0, 0)).2 + 1))
            epsilon (by rw [List.length_take]; omega) (by rw [List.length_take]; omega)
          have er := ih f2' (pts.drop
              (maxDistScan pts.headI pts.getLastI ((pts.drop 1).dropLast) 1 (0, 0)).2)
            epsilon (by rw [List.length_drop]; omega) (by rw [List.length_drop]; omega)
          rw [el, er]
        · rw [if_neg hrec, if_neg hrec]

/-- Simplification preserves the first and last points (`head?` and
`getLast?` of the output agree with the input), at any fuel. -/
theorem simplifyFuel_endpoints (f : Nat) : ∀ (pts : List Pt) (epsilon : ℚ),
    (simplifyFuel f pts epsilon).head? = pts.head? ∧
    (simplifyFuel f pts epsilon).getLast? = pts.getLast? := by
  induction f with
  | zero => intro pts epsilon; exact ⟨rfl, rfl⟩
  | succ f' ih =>
    intro pts epsilon
    by_cases hs : pts.length < 3
    · rw [simplifyFuel_short _ _ _ hs]; exact ⟨rfl, rfl⟩
    · push_neg at hs
      have hne : pts ≠ [] := by
        intro h; rw [h] at hs; simp at hs
      simp only [simplifyFuel, if_neg (not_lt.mpr hs)]
      by_cases hrec : epsilon * epsilon <
          (maxDistScan pts.headI pts.getLastI ((pts.drop 1).dropLast) 1 (0, 0)).1
      · rw [if_pos hrec]
        obtain ⟨hk1, hk2, _⟩ := scan_branch_facts pts epsilon hs hrec
        obtain ⟨ihLh, ihLl⟩ := ih (pts.take
            ((maxDistScan pts.headI pts.getLastI ((pts.drop 1).dropLast) 1 (0, 0)).2 + 1)) epsilon
        obtain ⟨ihRh, ihRl⟩ := ih (pts.drop
            (maxDistScan pts.headI pts.getLastI ((pts.drop 1).dropLast) 1 (0, 0)).2) epsilon
        have hLlen : 2 ≤ (simplifyFuel f' (pts.take
            ((maxDistScan pts.headI pts.getLastI ((pts.drop 1).dropLast) 1 (0, 0)).2 + 1))
              epsilon).length :=
          simplifyFuel_two_le f' _ epsilon (by rw [List.length_take]; omega)
        have hRlen : 2 ≤ (simplifyFuel f' (pts.drop
            (maxDistScan pts.headI pts.getLastI ((pts.drop 1).dropLast) 1 (0, 0)).2)
              epsilon).length :=
          simplifyFuel_two_le f' _ epsilon (by rw [List.length_drop]; omega)
        constructor
        · rw [List.head?_append]
          have hdLh : (simplifyFuel f' (pts.take
              ((maxDistScan pts.headI pts.getLastI ((pts.drop 1).dropLast) 1 (0, 0)).2 + 1))
                epsilon).dropLast.head? = pts.head? := by
            rcases hL : simplifyFuel f' (pts.take
                ((maxDistScan pts.headI pts.getLastI ((pts.drop 1).dropLast) 1 (0, 0)).2 + 1))
                  epsilon with _ | ⟨a, _ | ⟨b, t⟩⟩
            · rw [hL] at hLlen; simp at hLlen
            · rw [hL] at hLlen; simp at hLlen
            · rw [hL] at ihLh
              rw [head?_take_pos pts _ (by omega)] at ihLh
              simp only [List.dropLast_cons₂, List.head?_cons]
              exact ihLh
          rw [hdLh]
          rcases hh : pts.head? with _ | a
          · exact absurd (List.head?_eq_none_iff.mp hh) hne
          · simp
        · rw [List.getLast?_append]
          have hfull : (simplifyFuel f' (pts.drop
              (maxDistScan pts.headI pts.getLastI ((pts.drop 1).dropLast) 1 (0, 0)).2)
                epsilon).getLast? = pts.getLast? := by
            rw [ihRl, getLast?_drop_of_lt pts _ (by omega)]
          rw [hfull]
          rcases hh : pts.getLast? with _ | a
          · exact absurd (List.getLast?_eq_none_iff.mp hh) hne
          · simp
      · rw [if_neg hrec]
        constructor
        · rw [head?_eq_some_headI pts hne]; rfl
        · rw [getLast?_eq_some_getLastI pts hne]
          simp [List.getLast?]

/-- The simplified path is a sublist of the input path. -/
theorem simplifyFuel_sublist (f : Nat) : ∀ (pts : List Pt) (epsilon : ℚ),
    (simplifyFuel f pts epsilon).Sublist pts := by
  induction f with
  | zero => intro pts epsilon; exact List.Sublist.refl _
  | succ f' ih =>
    intro pts epsilon
    by_cases hs : pts.length < 3
    · rw [simplifyFuel_short _ _ _ hs]
    · push_neg at hs
      have hne : pts ≠ [] := by
        intro h; rw [h] at hs; simp at hs
      simp only [simplifyFuel, if_neg (not_lt.mpr hs)]
      by_cases hrec : epsilon * epsilon <
          (maxDistScan pts.headI pts.getLastI ((pts.drop 1).dropLast) 1 (0, 0)).1
      · rw [if_pos hrec]
        obtain ⟨hk1, hk2, _⟩ := scan_branch_facts pts epsilon hs hrec
        have hL := ih (pts.take
            ((maxDistScan pts.headI pts.getLastI ((pts.drop 1).dropLast) 1 (0, 0)).2 + 1)) epsilon
        have hR := ih (pts.drop
            (maxDistScan pts.headI pts.getLastI ((pts.drop 1).dropLast) 1 (0, 0)).2) epsilon
        have hdropL : (simplifyFuel f' (pts.take
            ((maxDistScan pts.headI pts.getLastI ((pts.drop 1).dropLast) 1 (0, 0)).2 + 1))
              epsilon).dropLast.Sublist
            (pts.take (maxDistScan pts.headI pts.getLastI ((pts.drop 1).dropLast) 1 (0, 0)).2) := by
          have hklt : (maxDistScan pts.headI pts.getLastI
              ((pts.drop 1).dropLast) 1 (0, 0)).2 < pts.length := by omega
          have htake : pts.take
              ((maxDistScan pts.headI pts.getLastI ((pts.drop 1).dropLast) 1 (0, 0)).2 + 1) =
              pts.take (maxDistScan pts.headI pts.getLastI ((pts.drop 1).dropLast) 1 (0, 0)).2 ++
                [pts.get ⟨(maxDistScan pts.headI pts.getLastI
                  ((pts.drop 1).dropLast) 1 (0, 0)).2, hklt⟩] := by
            rw [List.take_succ]
            congr 1
            rw [List.getElem?_eq_getElem hklt]
            rfl
          nth_rewrite 2 [htake] at hL
          rcases List.sublist_append_iff.mp hL with ⟨l1, l2, heq, hs1, hs2⟩
          rcases List.sublist_singleton.mp hs2 with h2 | h2
          · subst h2
            rw [List.append_nil] at heq
            subst heq
            exact List.Sublist.trans (List.dropLast_sublist _) hs1
          · subst h2
            rw [heq, List.dropLast_concat]
            exact hs1
        have happ := List.Sublist.append hdropL hR
        rw [List.take_append_drop] at happ
        exact happ
      · rw [if_neg hrec]
        rcases pts with _ | ⟨a, rest⟩
        · simp at hs
        · have hrne : rest ≠ [] := by
            intro h; rw [h] at hs; simp at hs
          have hheadI : (a :: rest).headI = a := rfl
          have hlastI : (a :: rest).getLastI = rest.getLastI := by
            rw [List.getLastI_eq_getLast?, List.getLastI_eq_getLast?]
            rcases rest with _ | ⟨b, u⟩
            · exact absurd rfl hrne
            · rw [List.getLast?_cons_cons]
          rw [hheadI, hlastI]
          exact List.Sublist.cons₂ a
            (List.singleton_sublist.mpr (getLastI_mem rest hrne))

/-- `headI` of a nonempty list is its first element. -/
theorem headI_eq_getElem (l : List Pt) (h : l ≠ []) :
    l.headI = l.get ⟨0, List.length_pos.mpr h⟩ := by
  cases l with
  | nil => exact absurd rfl h
  | cons a t => rfl

/-- `getLastI` of a nonempty list is its last element. -/
theorem getLastI_eq_getElem (l : List Pt) (h : l ≠ []) :
    l.getLastI = l.get ⟨l.length - 1, by
      have := List.length_pos.mpr h
      omega⟩ := by
  have h1 : l.getLast? = some l.getLastI := getLast?_eq_some_getLastI l h
  rw [List.getLast?_eq_getElem? l] at h1
  have hlt : l.length - 1 < l.length := by
    have := List.length_pos.mpr h
    omega
  rw [List.getElem?_eq_getElem hlt] at h1
  simpa using h1.symm

/-- `dropLast` of the simplified `take (k+1)` prefix is a sublist of the
`take k` prefix. -/
theorem simplifyFuel_take_dropLast_sublist (f : Nat) (pts : List Pt) (epsilon : ℚ)
    (k : Nat) (hk : k < pts.length) :
    ((simplifyFuel f (pts.take (k + 1)) epsilon).dropLast).Sublist (pts.take k) := by
  have hL := simplifyFuel_sublist f (pts.take (k + 1)) epsilon
  have htake : pts.take (k + 1) = pts.take k ++ [pts.get ⟨k, hk⟩] := by
    rw [List.take_succ]
    congr 1
    rw [List.getElem?_eq_getElem hk]
    rfl
  nth_rewrite 2 [htake] at hL
  rcases List.sublist_append_iff.mp hL with ⟨l1, l2, heq, hs1, hs2⟩
  rcases List.sublist_singleton.mp hs2 with h2 | h2
  · subst h2
    rw [List.append_nil] at heq
    rw [heq]
    exact List.Sublist.trans (List.dropLast_sublist _) hs1
  · subst h2
    rw [heq, List.dropLast_concat]
    exact hs1

/-- Index congruence for list indexing. -/
theorem getElem_congr_idx (l : List Pt) (i j : Nat) (hi : i < l.length)
    (hj : j < l.length) (h : i = j) : l[i] = l[j] := by
  subst h
  rfl

/-- `headI` of a list with positive length is its entry at index 0. -/
theorem headI_eq_getElem0 (l : List Pt) (hlt : 0 < l.length) : l.headI = l[0] := by
  cases l with
  | nil => simp at hlt
  | cons a t => rfl

/-- `getLastI` of a list with positive length is its entry at the last index. -/
theorem getLastI_eq_getElem_last (l : List Pt) (hlt : 0 < l.length) :
    l.getLastI = l[l.length - 1] := by
  have h := getLastI_eq_getElem l (by intro hc; rw [hc] at hlt; simp at hlt)
  rw [h]
  rfl

/-- Value-level facts about the winning scan entry: the point at the scan
index realizes the maximal distance, all points strictly before it have
strictly smaller distance, and all points from it on have distance at
most the maximum. -/
theorem scan_value_facts (pts : List Pt) (epsilon : ℚ) (h3 : 3 ≤ pts.length)
    (hrec : epsilon * epsilon <
      (maxDistScan pts.headI pts.getLastI ((pts.drop 1).dropLast) 1 (0, 0)).1) :
    (∃ hK : (maxDistScan pts.headI pts.getLastI ((pts.drop 1).dropLast) 1 (0, 0)).2 < pts.length,
      getSquareSegmentDistance
        (pts.get ⟨(maxDistScan pts.headI pts.getLastI ((pts.drop 1).dropLast) 1 (0, 0)).2, hK⟩)
        pts.headI pts.getLastI =
        (maxDistScan pts.headI pts.getLastI ((pts.drop 1).dropLast) 1 (0, 0)).1) ∧
    (∀ p ∈ pts.take (maxDistScan pts.headI pts.getLastI ((pts.drop 1).dropLast) 1 (0, 0)).2,
      getSquareSegmentDistance p pts.headI pts.getLastI <
        (maxDistScan pts.headI pts.getLastI ((pts.drop 1).dropLast) 1 (0, 0)).1) ∧
    (∀ p ∈ pts.drop (maxDistScan pts.headI pts.getLastI ((pts.drop 1).dropLast) 1 (0, 0)).2,
      getSquareSegmentDistance p pts.headI pts.getLastI ≤
        (maxDistScan pts.headI pts.getLastI ((pts.drop 1).dropLast) 1 (0, 0)).1) := by
  obtain ⟨hk1, hk2, hMpos⟩ := scan_branch_facts pts epsilon h3 hrec
  obtain ⟨h1, h2, h3'⟩ :=
    maxDistScan_spec pts.headI pts.getLastI ((pts.drop 1).dropLast) 1 (0, 0)
  set scn := maxDistScan pts.headI pts.getLastI ((pts.drop 1).dropLast) 1 (0, 0) with hscn
  have hne : pts ≠ [] := by
    intro h; rw [h] at h3; simp at h3
  have hilen : ((pts.drop 1).dropLast).length = pts.length - 2 := by
    rw [List.length_dropLast, List.length_drop]; omega
  have higet : ∀ i, ∀ hi : i < ((pts.drop 1).dropLast).length,
      ((pts.drop 1).dropLast)[i] = pts[i + 1] := by
    intro i hi
    rw [List.getElem_dropLast, List.getElem_drop]
    exact getElem_congr_idx pts (1 + i) (i + 1) (by omega) (by omega) (by omega)
  rcases h3' with hacc | ⟨j, hj, e2, e1, _, hfirst⟩
  · rw [hacc] at hMpos; simp at hMpos
  · simp only [List.get_eq_getElem] at e1 hfirst
    refine ⟨⟨by omega, ?_⟩, ?_, ?_⟩
    · simp only [List.get_eq_getElem]
      rw [e1, higet j hj]
      have hq : scn.2 < pts.length := by omega
      have hpe : pts[scn.2] = pts[j + 1] :=
        getElem_congr_idx pts scn.2 (j + 1) hq (by omega) (by omega)
      rw [hpe]
    · intro p hp
      rcases List.mem_take_iff_getElem.mp hp with ⟨i, hm, rfl⟩
      have hilt : i < pts.length := by omega
      rcases Nat.eq_zero_or_pos i with hi0 | hipos
      · subst hi0
        rw [← headI_eq_getElem0 pts (by omega), gssd_self_left]
        exact hMpos
      · have hj' : i - 1 < j := by omega
        have hlt2 := hfirst (i - 1) hj'
        rw [higet (i - 1) (Nat.lt_trans hj' hj)] at hlt2
        have he : pts[i - 1 + 1] = pts[i] :=
          getElem_congr_idx pts (i - 1 + 1) i (by omega) hilt (by omega)
        rw [he] at hlt2
        exact hlt2
    · intro p hp
      rcases List.mem_drop_iff_getElem.mp hp with ⟨i, hm, rfl⟩
      have hKi : scn.2 + i < pts.length := by omega
      by_cases hlast : scn.2 + i = pts.length - 1
      · have e7 : pts[scn.2 + i] = pts.getLastI := by
          rw [getLastI_eq_getElem_last pts (by omega)]
          exact getElem_congr_idx pts (scn.2 + i) (pts.length - 1) hKi (by omega) hlast
        rw [e7, gssd_self_right]
        exact le_of_lt hMpos
      · have hint : scn.2 + i - 1 < ((pts.drop 1).dropLast).length := by omega
        have hmem : pts[scn.2 + i] ∈ (pts.drop 1).dropLast := by
          have e5 := higet (scn.2 + i - 1) hint
          have e6 : pts[scn.2 + i - 1 + 1] = pts[scn.2 + i] :=
            getElem_congr_idx pts (scn.2 + i - 1 + 1) (scn.2 + i) (by omega) hKi (by omega)
          rw [e6] at e5
          rw [← e5]
          exact List.getElem_mem hint
        exact h2 _ hmem

/-- If a list has a distinguished element of maximal distance `M`, with all
earlier elements strictly below `M` and all later ones at most `M`, the
scan starting at index 1 returns exactly `(M, 1 + position)`. -/
theorem maxDistScan_determined (p1 p2 : Pt) (A B : List Pt) (v : Pt) (M : ℚ)
    (hM : 0 < M) (hv : getSquareSegmentDistance v p1 p2 = M)
    (hA : ∀ p ∈ A, getSquareSegmentDistance p p1 p2 < M)
    (hB : ∀ p ∈ B, getSquareSegmentDistance p p1 p2 ≤ M) :
    maxDistScan p1 p2 (A ++ v :: B) 1 (0, 0) = (M, 1 + A.length) := by
  obtain ⟨h1, h2, h3⟩ := maxDistScan_spec p1 p2 (A ++ v :: B) 1 (0, 0)
  have hvmem : v ∈ A ++ v :: B := by simp
  have hub : ∀ p ∈ A ++ v :: B, getSquareSegmentDistance p p1 p2 ≤ M := by
    intro p hp
    rcases List.mem_append.mp hp with hp | hp
    · exact le_of_lt (hA p hp)
    · rcases List.mem_cons.mp hp with hp | hp
      · rw [hp, hv]
      · exact hB p hp
  have hge : M ≤ (maxDistScan p1 p2 (A ++ v :: B) 1 (0, 0)).1 := by
    rw [← hv]; exact h2 v hvmem
  rcases h3 with hacc | ⟨j, hj, e2, e1, _, hfirst⟩
  · rw [hacc] at hge
    simp only at hge
    linarith
  · have hle : (maxDistScan p1 p2 (A ++ v :: B) 1 (0, 0)).1 ≤ M := by
      rw [e1]
      exact hub _ (List.get_mem _ _ _)
    have hMeq : (maxDistScan p1 p2 (A ++ v :: B) 1 (0, 0)).1 = M := le_antisymm hle hge
    have hjA : j = A.length := by
      rcases Nat.lt_trichotomy j A.length with hlt | heqj | hgt
      · exfalso
        have hjmem : (A ++ v :: B).get ⟨j, hj⟩ ∈ A := by
          have e3 : (A ++ v :: B).get ⟨j, hj⟩ = (A ++ v :: B)[j] := rfl
          rw [e3, List.getElem_append_left hlt]
          exact List.getElem_mem hlt
        have := hA _ hjmem
        rw [← e1, hMeq] at this
        exact lt_irrefl _ this
      · exact heqj
      · exfalso
        have hAlt : A.length < (A ++ v :: B).length := by
          rw [List.length_append]; simp
        have := hfirst A.length hgt
        have e4 : (A ++ v :: B).get ⟨A.length, Nat.lt_trans hgt hj⟩ = v := by
          have e3 : (A ++ v :: B).get ⟨A.length, Nat.lt_trans hgt hj⟩ =
              (A ++ v :: B)[A.length] := rfl
          rw [e3, List.getElem_append_right (le_refl A.length)]
          simp
        rw [e4, hv, hMeq] at this
        exact lt_irrefl _ this
    have hsnd : (maxDistScan p1 p2 (A ++ v :: B) 1 (0, 0)).2 = 1 + A.length := by
      rw [e2, hjA]
    rw [← hMeq, ← hsnd]

/-- Monotonicity at every fuel: a larger tolerance never yields more
points, because the scan (hence the split index) does not depend on the
tolerance, which only decides whether to recurse or collapse. -/
theorem simplifyFuel_mono (f : Nat) : ∀ (pts : List Pt) (eps1 eps2 : ℚ),
    0 ≤ eps1 → eps1 ≤ eps2 →
    (simplifyFuel f pts eps2).length ≤ (simplifyFuel f pts eps1).length := by
  induction f with
  | zero => intro pts eps1 eps2 _ _; exact le_refl _
  | succ f' ih =>
    intro pts eps1 eps2 h0 h12
    have hsq : eps1 * eps1 ≤ eps2 * eps2 := mul_self_le_mul_self h0 h12
    by_cases hs : pts.length < 3
    · rw [simplifyFuel_short _ _ _ hs, simplifyFuel_short _ _ _ hs]
    · push_neg at hs
      simp only [simplifyFuel, if_neg (not_lt.mpr hs)]
      by_cases hrec2 : eps2 * eps2 <
          (maxDistScan pts.headI pts.getLastI ((pts.drop 1).dropLast) 1 (0, 0)).1
      · have hrec1 : eps1 * eps1 <
            (maxDistScan pts.headI pts.getLastI ((pts.drop 1).dropLast) 1 (0, 0)).1 :=
          lt_of_le_of_lt hsq hrec2
        rw [if_pos hrec2, if_pos hrec1]
        obtain ⟨hk1, hk2, _⟩ := scan_branch_facts pts eps2 hs hrec2
        have hmL := ih (pts.take
            ((maxDistScan pts.headI pts.getLastI ((pts.drop 1).dropLast) 1 (0, 0)).2 + 1))
          eps1 eps2 h0 h12
        have hmR := ih (pts.drop
            (maxDistScan pts.headI pts.getLastI ((pts.drop 1).dropLast) 1 (0, 0)).2)
          eps1 eps2 h0 h12
        have h2L := simplifyFuel_two_le f' (pts.take
            ((maxDistScan pts.headI pts.getLastI ((pts.drop 1).dropLast) 1 (0, 0)).2 + 1))
          eps2 (by rw [List.length_take]; omega)
        rw [List.length_append, List.length_append, List.length_dropLast, List.length_dropLast]
        omega
      · rw [if_neg hrec2]
        by_cases hrec1 : eps1 * eps1 <
            (maxDistScan pts.headI pts.getLastI ((pts.drop 1).dropLast) 1 (0, 0)).1
        · rw [if_pos hrec1]
          have := simplifyFuel_two_le (f' + 1) pts eps1 (by omega)
          rw [simplifyFuel] at this
          simp only [if_neg (not_lt.mpr hs), if_pos hrec1] at this
          simpa using this
        · rw [if_neg hrec1]

/-- Auxiliary form of idempotence, by strong induction on an upper bound
of the path length. -/
theorem simplifyPath_idem_aux : ∀ (n : Nat) (pts : List Pt) (epsilon : ℚ),
    pts.length ≤ n →
    simplifyPath (simplifyPath pts epsilon) epsilon = simplifyPath pts epsilon := by
  intro n
  induction n with
  | zero =>
    intro pts epsilon hn
    have : pts = [] := List.eq_nil_of_length_eq_zero (by omega)
    subst this
    rfl
  | succ n' ih =>
    intro pts epsilon hn
    by_cases hs : pts.length < 3
    · rw [show simplifyPath pts epsilon = pts from simplifyFuel_short _ _ _ hs,
        show simplifyPath pts epsilon = pts from simplifyFuel_short _ _ _ hs]
    · push_neg at hs
      have hne : pts ≠ [] := by
        intro h; rw [h] at hs; simp at hs
      obtain ⟨hf, hpts⟩ : ∃ hf, pts.length = hf + 1 := ⟨pts.length - 1, by omega⟩
      have hunfold : simplifyPath pts epsilon = simplifyFuel (hf + 1) pts epsilon := by
        rw [simplifyPath, hpts]
      by_cases hrec : epsilon * epsilon <
          (maxDistScan pts.headI pts.getLastI ((pts.drop 1).dropLast) 1 (0, 0)).1
      · obtain ⟨hk1, hk2, hMpos⟩ := scan_branch_facts pts epsilon hs hrec
        obtain ⟨⟨hKlt, hKdist⟩, htakeDist, hdropDist⟩ := scan_value_facts pts epsilon hs hrec
        set K := (maxDistScan pts.headI pts.getLastI ((pts.drop 1).dropLast) 1 (0, 0)).2
          with hKdef
        set M := (maxDistScan pts.headI pts.getLastI ((pts.drop 1).dropLast) 1 (0, 0)).1
          with hMdef
        have hout : simplifyPath pts epsilon =
            (simplifyFuel hf (pts.take (K + 1)) epsilon).dropLast ++
              simplifyFuel hf (pts.drop K) epsilon := by
          rw [hunfold]
          simp only [simplifyFuel, if_neg (not_lt.mpr hs)]
          rw [if_pos hrec]
        have hlfuel : (pts.take (K + 1)).length ≤ hf := by
          rw [List.length_take]; omega
        have hrfuel : (pts.drop K).length ≤ hf := by
          rw [List.length_drop]; omega
        have hlift : simplifyFuel hf (pts.take (K + 1)) epsilon =
            simplifyPath (pts.take (K + 1)) epsilon :=
          simplifyFuel_irrel hf (pts.take (K + 1)).length _ epsilon hlfuel (le_refl _)
        have hrift : simplifyFuel hf (pts.drop K) epsilon =
            simplifyPath (pts.drop K) epsilon :=
          simplifyFuel_irrel hf (pts.drop K).length _ epsilon hrfuel (le_refl _)
        set lft := simplifyPath (pts.take (K + 1)) epsilon with hlft
        set rgt := simplifyPath (pts.drop K) epsilon with hrgt
        have hout2 : simplifyPath pts epsilon = lft.dropLast ++ rgt := by
          rw [hout, hlift, hrift]
        -- basic lengths
        have hlftlen2 : 2 ≤ lft.length := by
          rw [hlft, simplifyPath]
          exact simplifyFuel_two_le _ _ _ (by rw [List.length_take]; omega)
        have hrgtlen2 : 2 ≤ rgt.length := by
          rw [hrgt, simplifyPath]
          exact simplifyFuel_two_le _ _ _ (by rw [List.length_drop]; omega)
        have hlftne : lft ≠ [] := by
          intro h; rw [h] at hlftlen2; simp at hlftlen2
        have hrgtne : rgt ≠ [] := by
          intro h; rw [h] at hrgtlen2; simp at hrgtlen2
        have hdlne : lft.dropLast ≠ [] := by
          have : lft.dropLast.length = lft.length - 1 := List.length_dropLast lft
          intro h; rw [h] at this; simp at this; omega
        -- endpoints of the two halves
        have hlfth : lft.head? = pts.head? := by
          rw [hlft, simplifyPath]
          obtain ⟨hh, _⟩ := simplifyFuel_endpoints (pts.take (K + 1)).length (pts.take (K + 1))
            epsilon
          rw [hh, head?_take_pos pts _ (by omega)]
        have hlftl : lft.getLast? = some (pts.get ⟨K, hKlt⟩) := by
          rw [hlft, simplifyPath]
          obtain ⟨_, hl⟩ := simplifyFuel_endpoints (pts.take (K + 1)).length (pts.take (K + 1))
            epsilon
          rw [hl]
          have htake : pts.take (K + 1) = pts.take K ++ [pts.get ⟨K, hKlt⟩] := by
            rw [List.take_succ]
            congr 1
            rw [List.getElem?_eq_getElem hKlt]
            rfl
          rw [htake, List.getLast?_append]
          rfl
        have hrgth : rgt.head? = some (pts.get ⟨K, hKlt⟩) := by
          rw [hrgt, simplifyPath]
          obtain ⟨hh, _⟩ := simplifyFuel_endpoints (pts.drop K).length (pts.drop K) epsilon
          rw [hh, List.head?_drop, List.getElem?_eq_getElem hKlt]
          rfl
        have hrgtl : rgt.getLast? = pts.getLast? := by
          rw [hrgt, simplifyPath]
          obtain ⟨_, hl⟩ := simplifyFuel_endpoints (pts.drop K).length (pts.drop K) epsilon
          rw [hl, getLast?_drop_of_lt pts _ (by omega)]
        -- membership bounds for the two halves
        have hlmemb : ∀ p ∈ lft.dropLast, getSquareSegmentDistance p pts.headI pts.getLastI
            < M := by
          intro p hp
          have hsub : (lft.dropLast).Sublist (pts.take K) := by
            rw [hlft, simplifyPath]
            exact simplifyFuel_take_dropLast_sublist _ pts epsilon K hKlt
          exact htakeDist p (hsub.subset hp)
        have hrmemb : ∀ p ∈ rgt, getSquareSegmentDistance p pts.headI pts.getLastI ≤ M := by
          intro p hp
          have hsub : rgt.Sublist (pts.drop K) := by
            rw [hrgt, simplifyPath]
            exact simplifyFuel_sublist _ _ _
          exact hdropDist p (hsub.subset hp)
        -- decompose rgt as its head followed by a tail
        rcases hrgtc : rgt with _ | ⟨rh, rtail⟩
        · exact absurd hrgtc hrgtne
        have hrh : rh = pts.get ⟨K, hKlt⟩ := by
          rw [hrgtc] at hrgth
          simpa using hrgth
        have hrtailne : rtail ≠ [] := by
          intro h
          rw [hrgtc, h] at hrgtlen2
          simp at hrgtlen2
        -- the simplified output and its interior decomposition
        set out := simplifyPath pts epsilon with houtdef
        have houtlen3 : 3 ≤ out.length := by
          rw [hout2, hrgtc, List.length_append, List.length_dropLast]
          rcases rtail with _ | ⟨x, xs⟩
          · exact absurd rfl hrtailne
          · simp only [List.length_cons]
            omega
        have houtne : out ≠ [] := by
          intro h; rw [h] at houtlen3; simp at houtlen3
        -- the endpoints of out are those of pts
        have houth : out.head? = pts.head? := by
          rw [houtdef, simplifyPath]
          exact (simplifyFuel_endpoints pts.length pts epsilon).1
        have houtl : out.getLast? = pts.getLast? := by
          rw [houtdef, simplifyPath]
          exact (simplifyFuel_endpoints pts.length pts epsilon).2
        have houthI : out.headI = pts.headI := by
          have h1 := head?_eq_some_headI out houtne
          have h2 := head?_eq_some_headI pts hne
          rw [h1, h2] at houth
          exact Option.some_injective _ houth
        have houtlI : out.getLastI = pts.getLastI := by
          have h1 := getLast?_eq_some_getLastI out houtne
          have h2 := getLast?_eq_some_getLastI pts hne
          rw [h1, h2] at houtl
          exact Option.some_injective _ houtl
        -- interior of out
        have hinterior : (out.drop 1).dropLast = lft.dropLast.drop 1 ++
            (pts.get ⟨K, hKlt⟩ :: rtail.dropLast) := by
          rw [hout2, hrgtc]
          rw [List.drop_append_of_le_length (by
            have h5 := List.length_dropLast lft
            omega)]
          rw [List.dropLast_append_of_ne_nil _ (by simp)]
          rw [List.dropLast_cons_of_ne_nil hrtailne, hrh]
        -- the second scan lands on the same split point with the same maximum
        have hscan2 : maxDistScan out.headI out.getLastI ((out.drop 1).dropLast) 1 (0, 0) =
            (M, 1 + (lft.dropLast.drop 1).length) := by
          rw [houthI, houtlI, hinterior]
          refine maxDistScan_determined pts.headI pts.getLastI _ _ _ M hMpos hKdist ?_ ?_
          · intro p hp
            exact hlmemb p (List.drop_subset 1 _ hp)
          · intro p hp
            refine hrmemb p ?_
            rw [hrgtc]
            exact List.mem_cons_of_mem rh ((List.dropLast_sublist rtail).subset hp)
        -- length accounting for the output
        have houtlen : out.length = lft.length - 1 + rgt.length := by
          rw [hout2, List.length_append, List.length_dropLast]
        have hXlen : 1 + (lft.dropLast.drop 1).length = lft.dropLast.length := by
          rw [List.length_drop]
          have h5 := List.length_dropLast lft
          omega
        obtain ⟨g, hg⟩ : ∃ g, out.length = g + 1 := ⟨out.length - 1, by omega⟩
        have hunfold2 : simplifyPath out epsilon = simplifyFuel (g + 1) out epsilon := by
          rw [simplifyPath, hg]
        -- the two recursive inputs of the second pass
        have htake2 : out.take (1 + (lft.dropLast.drop 1).length + 1) = lft := by
          rw [hout2, hXlen]
          rw [show lft.dropLast.length + 1 = lft.dropLast.length + 1 from rfl]
          rw [List.take_append 1, hrgtc]
          simp only [List.take_succ_cons, List.take_zero]
          refine List.dropLast_append_getLast? rh ?_
          rw [hlftl, hrh]
          rfl
        have hdrop2 : out.drop (1 + (lft.dropLast.drop 1).length) = rgt := by
          rw [hout2, hXlen]
          exact List.drop_left _ _
        -- resimplifying each half is the identity, by the induction hypothesis
        have hlpath : simplifyFuel g lft epsilon = lft := by
          have h6 : lft.length ≤ g := by omega
          rw [simplifyFuel_irrel g lft.length lft epsilon h6 (le_refl _)]
          have h7 : simplifyFuel lft.length lft epsilon = simplifyPath lft epsilon := rfl
          rw [h7, hlft]
          exact ih (pts.take (K + 1)) epsilon (by rw [List.length_take]; omega)
        have hrpath : simplifyFuel g rgt epsilon = rgt := by
          have h6 : rgt.length ≤ g := by omega
          rw [simplifyFuel_irrel g rgt.length rgt epsilon h6 (le_refl _)]
          have h7 : simplifyFuel rgt.length rgt epsilon = simplifyPath rgt epsilon := rfl
          rw [h7, hrgt]
          exact ih (pts.drop K) epsilon (by rw [List.length_drop]; omega)
        -- assemble
        rw [hunfold2]
        simp only [simplifyFuel, if_neg (not_lt.mpr houtlen3)]
        simp only [hscan2]
        rw [if_pos (show epsilon * epsilon < M from hrec)]
        rw [htake2, hdrop2, hlpath, hrpath]
        rw [hout2]
      · -- collapse: the output has two points, so resimplification is the identity
        have hout : simplifyPath pts epsilon = [pts.headI, pts.getLastI] := by
          rw [hunfold]
          simp only [simplifyFuel, if_neg (not_lt.mpr hs)]
          rw [if_neg hrec]
        rw [hout]
        exact simplifyFuel_short _ _ _ (by simp)

/-- C4: For every fixed input path and all tolerances 0 ≤ epsilon1 ≤ epsilon2,
the number of points returned by `simplifyPath` with epsilon2 is at most the
number returned with epsilon1: increasing the tolerance never increases the
output point count. -/
theorem simplifyPath_mono (pts : List Pt) (eps1 eps2 : ℚ)
    (h0 : 0 ≤ eps1) (h12 : eps1 ≤ eps2) :
    (simplifyPath pts eps2).length ≤ (simplifyPath pts eps1).length :=
  simplifyFuel_mono pts.length pts eps1 eps2 h0 h12

/-- Witness for C4 at a concrete zig-zag path and tolerances 1/2 ≤ 1. -/
theorem simplifyPath_mono_witness :
    (0 : ℚ) ≤ 1 / 2 ∧ (1 / 2 : ℚ) ≤ 1 ∧
    (simplifyPath [⟨0, 0⟩, ⟨1, 1⟩, ⟨2, 0⟩, ⟨3, 1⟩, ⟨4, 0⟩] 1).length ≤
      (simplifyPath [⟨0, 0⟩, ⟨1, 1⟩, ⟨2, 0⟩, ⟨3, 1⟩, ⟨4, 0⟩] (1 / 2)).length :=
  ⟨by norm_num, by norm_num,
    simplifyPath_mono [⟨0, 0⟩, ⟨1, 1⟩, ⟨2, 0⟩, ⟨3, 1⟩, ⟨4, 0⟩] (1 / 2) 1
      (by norm_num) (by norm_num)⟩

/-- C5: `simplifyPath` is idempotent: resimplifying its output with the same
tolerance returns the identical list of points. -/
theorem simplifyPath_idem (pts : List Pt) (epsilon : ℚ) (h0 : 0 ≤ epsilon) :
    simplifyPath (simplifyPath pts epsilon) epsilon = simplifyPath pts epsilon :=
  simplifyPath_idem_aux pts.length pts epsilon (le_refl _)

/-- Witness for C5 at a concrete zig-zag path and tolerance 1/2. -/
theorem simplifyPath_idem_witness :
    (0 : ℚ) ≤ 1 / 2 ∧
    simplifyPath (simplifyPath [⟨0, 0⟩, ⟨1, 1⟩, ⟨2, 0⟩, ⟨3, 1⟩, ⟨4, 0⟩] (1 / 2)) (1 / 2) =
      simplifyPath [⟨0, 0⟩, ⟨1, 1⟩, ⟨2, 0⟩, ⟨3, 1⟩, ⟨4, 0⟩] (1 / 2) :=
  ⟨by norm_num,
    simplifyPath_idem [⟨0, 0⟩, ⟨1, 1⟩, ⟨2, 0⟩, ⟨3, 1⟩, ⟨4, 0⟩] (1 / 2) (by norm_num)⟩

/-- C8: for every nonempty input path and tolerance ≥ 0, the output of
`simplifyPath` starts with the input's first point, ends with the input's
last point, and both points are members of the output. -/
theorem simplifyPath_endpoints (pts : List Pt) (epsilon : ℚ)
    (hne : pts ≠ []) (h0 : 0 ≤ epsilon) :
    (simplifyPath pts epsilon).head? = pts.head? ∧
    (simplifyPath pts epsilon).getLast? = pts.getLast? ∧
    pts.headI ∈ simplifyPath pts epsilon ∧
    pts.getLastI ∈ simplifyPath pts epsilon := by
  obtain ⟨h1, h2⟩ := simplifyFuel_endpoints pts.length pts epsilon
  refine ⟨h1, h2, ?_, ?_⟩
  · have hh : (simplifyPath pts epsilon).head? = some pts.headI := by
      rw [simplifyPath] at *
      rw [h1, head?_eq_some_headI pts hne]
    exact List.mem_of_mem_head? hh
  · have hl : (simplifyPath pts epsilon).getLast? = some pts.getLastI := by
      rw [simplifyPath] at *
      rw [h2, getLast?_eq_some_getLastI pts hne]
    have hmem : pts.getLastI ∈ (simplifyPath pts epsilon).getLast? := hl
    obtain ⟨hne2, heq⟩ := List.mem_getLast?_eq_getLast hmem
    rw [heq]
    exact List.getLast_mem hne2

/-- Witness for C8 at a concrete zig-zag path and tolerance 1. -/
theorem simplifyPath_endpoints_witness :
    ([⟨0, 0⟩, ⟨1, 1⟩, ⟨2, 0⟩, ⟨3, 1⟩, ⟨4, 0⟩] : List Pt) ≠ [] ∧ (0 : ℚ) ≤ 1 ∧
    ((simplifyPath [⟨0, 0⟩, ⟨1, 1⟩, ⟨2, 0⟩, ⟨3, 1⟩, ⟨4, 0⟩] 1).head? =
        ([⟨0, 0⟩, ⟨1, 1⟩, ⟨2, 0⟩, ⟨3, 1⟩, ⟨4, 0⟩] : List Pt).head? ∧
      (simplifyPath [⟨0, 0⟩, ⟨1, 1⟩, ⟨2, 0⟩, ⟨3, 1⟩, ⟨4, 0⟩] 1).getLast? =
        ([⟨0, 0⟩, ⟨1, 1⟩, ⟨2, 0⟩, ⟨3, 1⟩, ⟨4, 0⟩] : List Pt).getLast? ∧
      ([⟨0, 0⟩, ⟨1, 1⟩, ⟨2, 0⟩, ⟨3, 1⟩, ⟨4, 0⟩] : List Pt).headI ∈
        simplifyPath [⟨0, 0⟩, ⟨1, 1⟩, ⟨2, 0⟩, ⟨3, 1⟩, ⟨4, 0⟩] 1 ∧
      ([⟨0, 0⟩, ⟨1, 1⟩, ⟨2, 0⟩, ⟨3, 1⟩, ⟨4, 0⟩] : List Pt).getLastI ∈
        simplifyPath [⟨0, 0⟩, ⟨1, 1⟩, ⟨2, 0⟩, ⟨3, 1⟩, ⟨4, 0⟩] 1) :=
  ⟨by simp, by norm_num,
    simplifyPath_endpoints [⟨0, 0⟩, ⟨1, 1⟩, ⟨2, 0⟩, ⟨3, 1⟩, ⟨4, 0⟩] 1
      (by simp) (by norm_num)⟩

/-- An RGBA pixel buffer: width, height and row-major byte data (4 bytes
per pixel), embedding the `ImageData` objects the vectorizer manipulates. -/
structure ImageData where
  width : Nat
  height : Nat
  data : List Nat
deriving DecidableEq, Repr

/-- An RGBA color, embedding `Color`. -/
structure Color where
  r : Nat
  g : Nat
  b : Nat
  a : Nat
deriving DecidableEq, Repr

/-- A quantized color together with its pixel count, embedding the
`Color & {count: number}` records returned by `quantizeAndGetColors`. -/
structure QuantColor extends Color where
  count : Nat
deriving DecidableEq, Repr

/-- The RGBA quadruple read by the stride-4 pixel loops at pixel index `i`;
reads past the end of the buffer yield 0 (JavaScript `undefined` compares
false against every threshold, which coincides with 0 here). -/
def pixelAt (img : ImageData) (i : Nat) : Nat × Nat × Nat × Nat :=
  (img.data.getD (4 * i) 0, img.data.getD (4 * i + 1) 0,
    img.data.getD (4 * i + 2) 0, img.data.getD (4 * i + 3) 0)

/-- Number of iterations of the stride-4 loops (`for i = 0; i < len; i += 4`). -/
def numPixels (img : ImageData) : Nat :=
  (img.data.length + 3) / 4

/-- The pixel quadruples in loop order. -/
def pixels (img : ImageData) : List (Nat × Nat × Nat × Nat) :=
  (List.range (numPixels img)).map (pixelAt img)

/-- Alpha channel of a pixel quadruple. -/
def pxAlpha (px : Nat × Nat × Nat × Nat) : Nat := px.2.2.2

/-- `Math.floor(c / Q) * Q` channel quantization, with `Q = 16`. -/
def qChan (c : Nat) : Nat := c / 16 * 16

/-- `Math.floor(a / (Q*2)) * (Q*2)` alpha quantization, with `Q = 16`. -/
def qAlpha (a : Nat) : Nat := a / 32 * 32

/-- `a >= OPAQUE_THRESHOLD ? 255 : a` with `OPAQUE_THRESHOLD = 240`: collapse
of nearly-opaque quantized alphas onto the canonical opaque bucket key. -/
def effAlpha (a : Nat) : Nat := if 240 ≤ a then 255 else a

/-- The quantization-bucket key `r,g,b,effectiveA` a visible pixel
contributes to. -/
def pxKey (px : Nat × Nat × Nat × Nat) : Nat × Nat × Nat × Nat :=
  (qChan px.1, qChan px.2.1, qChan px.2.2.1, effAlpha (qAlpha px.2.2.2))

/-- The representative color stored for a bucket (pre-collapse alpha). -/
def pxColor (px : Nat × Nat × Nat × Nat) : Color :=
  ⟨qChan px.1, qChan px.2.1, qChan px.2.2.1, qAlpha px.2.2.2⟩

/-- One `colorMap` update: find the entry with the given key and increment
its count, or append a fresh entry with count 1 (`entry.count++` after the
`colorMap.set` of a fresh `{..., count: 0}`). -/
def bump : List ((Nat × Nat × Nat × Nat) × QuantColor) →
    (Nat × Nat × Nat × Nat) → Color → List ((Nat × Nat × Nat × Nat) × QuantColor)
  | [], k, c => [(k, ⟨c, 1⟩)]
  | (k0, e) :: rest, k, c =>
    if k0 = k then (k0, ⟨e.toColor, e.count + 1⟩) :: rest
    else (k0, e) :: bump rest k c

/-- One iteration of the quantization loop: skip invisible pixels
(`data[i+3] > ALPHA_THRESHOLD` with threshold 10), otherwise update the
insertion-ordered color map. -/
def quantStep (m : List ((Nat × Nat × Nat × Nat) × QuantColor))
    (px : Nat × Nat × Nat × Nat) : List ((Nat × Nat × Nat × Nat) × QuantColor) :=
  if 10 < pxAlpha px then bump m (pxKey px) (pxColor px) else m

/-- Embedding of `quantizeAndGetColors`: fold the pixel loop over an
insertion-ordered map, then keep the values whose count reaches
`MIN_PIXEL_COUNT = 4`. -/
def quantizeAndGetColors (img : ImageData) : List QuantColor :=
  (((pixels img).foldl quantStep []).map Prod.snd).filter fun c => 4 ≤ c.count

/-- Whether pixel `i` matches `targetColor` in `createColorMask`: the pixel
must be visible, agree on the quantized RGB channels, and either both the
target and the pixel are in the opaque bucket or the quantized alphas agree
exactly. -/
def maskMatchB (img : ImageData) (targetColor : Color) (i : Nat) : Bool :=
  let px := pixelAt img i
  if 10 < pxAlpha px then
    let r := qChan px.1
    let g := qChan px.2.1
    let b := qChan px.2.2.1
    let a := qAlpha px.2.2.2
    if r = targetColor.r ∧ g = targetColor.g ∧ b = targetColor.b then
      if 240 ≤ targetColor.a ∧ 240 ≤ a then true
      else if a = targetColor.a then true
      else false
    else false
  else false

/-- Embedding of `createColorMask`: a fresh zero buffer of the same size,
with alpha byte 255 exactly at the matching pixels. -/
def createColorMask (img : ImageData) (targetColor : Color) : ImageData :=
  ⟨img.width, img.height,
    (List.range img.data.length).map fun j =>
      if j % 4 = 3 ∧ maskMatchB img targetColor (j / 4) then 255 else 0⟩

/-- Alpha byte of pixel `i` of a buffer. -/
def alphaAt (img : ImageData) (i : Nat) : Nat :=
  img.data.getD (4 * i + 3) 0

/-- The bucket key pixel `i` quantizes to. -/
def quantKey (img : ImageData) (i : Nat) : Nat × Nat × Nat × Nat :=
  pxKey (pixelAt img i)

/-- Number of visible pixels quantizing to bucket key `k`. -/
def bucketCount (img : ImageData) (k : Nat × Nat × Nat × Nat) : Nat :=
  (pixels img).countP fun px => decide (10 < pxAlpha px ∧ pxKey px = k)

/-- Pixel `i` is marked opaque in the mask for `c`. -/
def maskOpaqueAt (img : ImageData) (c : Color) (i : Nat) : Prop :=
  alphaAt (createColorMask img c) i = 255

/-- Reading inside a `range`-mapped buffer. -/
theorem getD_map_range (len j : Nat) (f : Nat → Nat) (hj : j < len) :
    (((List.range len).map f).getD j 0) = f j := by
  rw [List.getD_eq_getElem?_getD]
  rw [List.getElem?_map, List.getElem?_range hj]
  rfl

/-- Reading past the end of a `range`-mapped buffer. -/
theorem getD_map_range_oob (len j : Nat) (f : Nat → Nat) (hj : len ≤ j) :
    (((List.range len).map f).getD j 0) = 0 := by
  rw [List.getD_eq_getElem?_getD]
  rw [List.getElem?_map]
  have : (List.range len)[j]? = none := by
    rw [List.getElem?_eq_none]
    simpa using hj
  rw [this]
  rfl

/-- The mask marks pixel `i` opaque exactly when the matcher accepts it. -/
theorem maskOpaqueAt_iff (img : ImageData) (c : Color) (i : Nat) :
    maskOpaqueAt img c i ↔ maskMatchB img c i = true := by
  unfold maskOpaqueAt alphaAt createColorMask
  simp only
  by_cases hj : 4 * i + 3 < img.data.length
  · rw [getD_map_range _ _ _ hj]
    have hmod : (4 * i + 3) % 4 = 3 := by omega
    have hdiv : (4 * i + 3) / 4 = i := by omega
    rw [hdiv]
    by_cases hm : maskMatchB img c i = true
    · simp [hm, hmod]
    · simp [hm, hmod]
  · rw [getD_map_range_oob _ _ _ (by omega)]
    constructor
    · intro h; omega
    · intro hm
      exfalso
      have hvis : 10 < pxAlpha (pixelAt img i) := by
        by_contra hv
        unfold maskMatchB at hm
        simp only [if_neg hv] at hm
        exact Bool.false_ne_true hm
      have : pxAlpha (pixelAt img i) = 0 := by
        unfold pixelAt pxAlpha
        simp only
        rw [List.getD_eq_getElem?_getD, List.getElem?_eq_none (by omega)]
        rfl
      omega

/-- Keys of the map after a `bump`: unchanged when the key was present,
appended at the end when fresh (insertion order of the JavaScript `Map`). -/
theorem bump_keys (m : List ((Nat × Nat × Nat × Nat) × QuantColor))
    (k : Nat × Nat × Nat × Nat) (c : Color) :
    (bump m k c).map Prod.fst =
      if ∃ e ∈ m, e.1 = k then m.map Prod.fst else m.map Prod.fst ++ [k] := by
  induction m with
  | nil => simp [bump]
  | cons e0 rest ih =>
    obtain ⟨k0, v0⟩ := e0
    by_cases hk : k0 = k
    · subst hk
      have hcond : ∃ e ∈ (k0, v0) :: rest, e.1 = k0 :=
        ⟨(k0, v0), List.mem_cons_self _ _, rfl⟩
      rw [if_pos hcond]
      simp [bump]
    · simp only [bump, if_neg hk, List.map_cons, ih]
      by_cases hex : ∃ e ∈ rest, e.1 = k
      · rw [if_pos hex, if_pos]
        obtain ⟨e, he, hek⟩ := hex
        exact ⟨e, List.mem_cons_of_mem _ he, hek⟩
      · rw [if_neg hex, if_neg]
        · simp
        · rintro ⟨e, he, hek⟩
          rcases List.mem_cons.mp he with he | he
          · subst he; exact hk hek
          · exact hex ⟨e, he, hek⟩

/-- Case analysis of the entries after a `bump` under key uniqueness. -/
theorem bump_cases (m : List ((Nat × Nat × Nat × Nat) × QuantColor))
    (k : Nat × Nat × Nat × Nat) (c : Color)
    (hnd : (m.map Prod.fst).Nodup) :
    ∀ e ∈ bump m k c,
      (e ∈ m ∧ e.1 ≠ k) ∨
      (e.1 = k ∧ (∀ e0 ∈ m, e0.1 ≠ k) ∧ e.2.toColor = c ∧ e.2.count = 1) ∨
      (∃ e0 ∈ m, e0.1 = k ∧ e.1 = k ∧ e.2.toColor = e0.2.toColor ∧
        e.2.count = e0.2.count + 1) := by
  induction m with
  | nil =>
    intro e he
    simp only [bump, List.mem_singleton] at he
    subst he
    exact Or.inr (Or.inl ⟨rfl, by simp, rfl, rfl⟩)
  | cons e0 rest ih =>
    obtain ⟨k0, v0⟩ := e0
    simp only [List.map_cons, List.nodup_cons] at hnd
    obtain ⟨hk0nm, hndr⟩ := hnd
    intro e he
    by_cases hk : k0 = k
    · subst hk
      simp only [bump, if_pos rfl] at he
      rcases List.mem_cons.mp he with he | he
      · subst he
        exact Or.inr (Or.inr ⟨(k0, v0), List.mem_cons_self _ _, rfl, rfl, rfl, rfl⟩)
      · left
        refine ⟨List.mem_cons_of_mem _ he, ?_⟩
        intro hek
        exact hk0nm (by
          rw [← hek]
          exact List.mem_map_of_mem Prod.fst he)
    · simp only [bump, if_neg hk] at he
      rcases List.mem_cons.mp he with he | he
      · subst he
        exact Or.inl ⟨List.mem_cons_self _ _, hk⟩
      · rcases ih hndr e he with ⟨hem, hek⟩ | ⟨hek, hall, hcol, hcnt⟩ |
          ⟨ew, hew, hewk, hek, hcol, hcnt⟩
        · exact Or.inl ⟨List.mem_cons_of_mem _ hem, hek⟩
        · refine Or.inr (Or.inl ⟨hek, ?_, hcol, hcnt⟩)
          intro e1 he1
          rcases List.mem_cons.mp he1 with he1 | he1
          · subst he1; exact hk
          · exact hall e1 he1
        · exact Or.inr (Or.inr ⟨ew, List.mem_cons_of_mem _ hew, hewk, hek, hcol, hcnt⟩)

/-- Entries of `m` whose key differs from `k` survive a `bump` unchanged. -/
theorem bump_preserves (m : List ((Nat × Nat × Nat × Nat) × QuantColor))
    (k : Nat × Nat × Nat × Nat) (c : Color) :
    ∀ e ∈ m, e.1 ≠ k → e ∈ bump m k c := by
  induction m with
  | nil => intro e he; simp at he
  | cons e0 rest ih =>
    obtain ⟨k0, v0⟩ := e0
    intro e he hek
    by_cases hk : k0 = k
    · subst hk
      simp only [bump, if_pos rfl]
      rcases List.mem_cons.mp he with he | he
      · subst he; exact absurd rfl hek
      · exact List.mem_cons_of_mem _ he
    · simp only [bump, if_neg hk]
      rcases List.mem_cons.mp he with he | he
      · subst he; exact List.mem_cons_self _ _
      · exact List.mem_cons_of_mem _ (ih e he hek)

/-- If an entry with key `k` is present (keys unique), the bumped map
contains it with an incremented count and the same stored color. -/
theorem bump_increments (m : List ((Nat × Nat × Nat × Nat) × QuantColor))
    (k : Nat × Nat × Nat × Nat) (c : Color) (hnd : (m.map Prod.fst).Nodup) :
    ∀ e ∈ m, e.1 = k → (k, ⟨e.2.toColor, e.2.count + 1⟩) ∈ bump m k c := by
  induction m with
  | nil => intro e he; simp at he
  | cons e0 rest ih =>
    obtain ⟨k0, v0⟩ := e0
    simp only [List.map_cons, List.nodup_cons] at hnd
    obtain ⟨hk0nm, hndr⟩ := hnd
    intro e he hek
    by_cases hk : k0 = k
    · subst hk
      have hb : bump ((k0, v0) :: rest) k0 c =
          (k0, (⟨v0.toColor, v0.count + 1⟩ : QuantColor)) :: rest := by
        simp [bump]
      rw [hb]
      rcases List.mem_cons.mp he with he | he
      · subst he
        exact List.mem_cons_self _ _
      · exfalso
        apply hk0nm
        rw [← hek]
        exact List.mem_map_of_mem Prod.fst he
    · have hb : bump ((k0, v0) :: rest) k c = (k0, v0) :: bump rest k c := by
        simp [bump, hk]
      rw [hb]
      rcases List.mem_cons.mp he with he | he
      · exfalso
        apply hk
        rw [← hek, he]
      · exact List.mem_cons_of_mem _ (ih hndr e he hek)

/-- A fresh key lands at the end of the bumped map with count 1. -/
theorem bump_fresh (m : List ((Nat × Nat × Nat × Nat) × QuantColor))
    (k : Nat × Nat × Nat × Nat) (c : Color)
    (hfresh : ∀ e ∈ m, e.1 ≠ k) : (k, (⟨c, 1⟩ : QuantColor)) ∈ bump m k c := by
  induction m with
  | nil => simp [bump]
  | cons e0 rest ih =>
    obtain ⟨k0, v0⟩ := e0
    have hk : k0 ≠ k := hfresh (k0, v0) (List.mem_cons_self _ _)
    simp only [bump, if_neg hk]
    exact List.mem_cons_of_mem _ (ih fun e he => hfresh e (List.mem_cons_of_mem _ he))

/-- `countP` of a singleton, false case. -/
theorem countP_singleton_false (f : (Nat × Nat × Nat × Nat) → Bool)
    (px : Nat × Nat × Nat × Nat) (h : f px = false) : List.countP f [px] = 0 := by
  simp [List.countP_cons, h]

/-- `countP` of a singleton, true case. -/
theorem countP_singleton_true (f : (Nat × Nat × Nat × Nat) → Bool)
    (px : Nat × Nat × Nat × Nat) (h : f px = true) : List.countP f [px] = 1 := by
  simp [List.countP_cons, h]

/-- Invariant of the quantization fold: keys are unique; every entry's key
is determined by its stored color through the opaque collapse; stored
alphas stay below the opaque threshold (for byte-valued buffers); every
entry's count is the number of visible processed pixels with its key; and
an entry exists for a key exactly when a visible processed pixel has it. -/
theorem quantFold_inv (done : List (Nat × Nat × Nat × Nat))
    (hwf : ∀ px ∈ done, pxAlpha px ≤ 255) :
    ((done.foldl quantStep []).map Prod.fst).Nodup ∧
    (∀ e ∈ done.foldl quantStep [],
      e.1 = (e.2.r, e.2.g, e.2.b, effAlpha e.2.a) ∧ e.2.a < 240 ∧
      e.2.count = done.countP fun px => decide (10 < pxAlpha px ∧ pxKey px = e.1)) ∧
    (∀ k, (∃ e ∈ done.foldl quantStep [], e.1 = k) ↔
      ∃ px ∈ done, 10 < pxAlpha px ∧ pxKey px = k) := by
  induction done using List.reverseRecOn with
  | nil => refine ⟨by simp, by simp, by simp⟩
  | append_singleton done px ih =>
    have hwfd : ∀ q ∈ done, pxAlpha q ≤ 255 := fun q hq =>
      hwf q (List.mem_append_left _ hq)
    have hwfp : pxAlpha px ≤ 255 := hwf px (List.mem_append_right _ (List.mem_singleton.mpr rfl))
    obtain ⟨ihnd, ihent, ihpres⟩ := ih hwfd
    have hfold : (done ++ [px]).foldl quantStep [] =
        quantStep (done.foldl quantStep []) px := by
      rw [List.foldl_append]
      rfl
    by_cases hvis : 10 < pxAlpha px
    · have hstep : quantStep (done.foldl quantStep []) px =
          bump (done.foldl quantStep []) (pxKey px) (pxColor px) := by
        rw [quantStep, if_pos hvis]
      rw [hfold, hstep]
      have hkeys := bump_keys (done.foldl quantStep []) (pxKey px) (pxColor px)
      refine ⟨?_, ?_, ?_⟩
      · -- keys stay nodup
        rw [hkeys]
        by_cases hex : ∃ e ∈ done.foldl quantStep [], e.1 = pxKey px
        · rw [if_pos hex]; exact ihnd
        · rw [if_neg hex]
          rw [List.nodup_append]
          refine ⟨ihnd, List.nodup_singleton _, ?_⟩
          intro k1 hk1 hk2
          rcases List.mem_map.mp hk1 with ⟨e, he, hek⟩
          rw [List.mem_singleton] at hk2
          exact hex ⟨e, he, by rw [hek, hk2]⟩
      · -- entry facts
        intro e he
        rcases bump_cases (done.foldl quantStep []) (pxKey px) (pxColor px) ihnd e he with
          ⟨hem, hek⟩ | ⟨hek, hall, hcol, hcnt⟩ | ⟨e0, he0, he0k, hek, hcol, hcnt⟩
        · obtain ⟨hf1, hf2, hf3⟩ := ihent e hem
          refine ⟨hf1, hf2, ?_⟩
          rw [List.countP_append, countP_singleton_false _ px (by
            simp only [decide_eq_false_iff_not]
            rintro ⟨_, hkk⟩
            exact hek hkk.symm), hf3]
          omega
        · have hca : e.2.a = qAlpha (pxAlpha px) := by
            have : e.2.toColor = pxColor px := hcol
            have h5 : e.2.a = (pxColor px).a := by rw [this]
            simpa [pxColor, pxAlpha] using h5
          have halpha : e.2.a < 240 := by
            rw [hca]
            have h9 : pxAlpha px ≤ 255 := hwfp
            unfold qAlpha
            omega
          refine ⟨?_, halpha, ?_⟩
          · -- key formula for a fresh entry
            have hc1 : e.2.r = (pxColor px).r := by rw [show e.2.toColor = pxColor px from hcol]
            have hc2 : e.2.g = (pxColor px).g := by rw [show e.2.toColor = pxColor px from hcol]
            have hc3 : e.2.b = (pxColor px).b := by rw [show e.2.toColor = pxColor px from hcol]
            rw [hek, hc1, hc2, hc3, hca]
            rfl
          · -- fresh count is 1
            have hzero : done.countP (fun q => decide (10 < pxAlpha q ∧ pxKey q = e.1)) = 0 := by
              rw [List.countP_eq_zero]
              intro q hq
              simp only [decide_eq_true_eq, not_and]
              intro hv hkk
              have : ∃ e1 ∈ done.foldl quantStep [], e1.1 = pxKey px :=
                (ihpres (pxKey px)).mpr ⟨q, hq, hv, by rw [hkk, hek]⟩
              obtain ⟨e1, he1, he1k⟩ := this
              exact hall e1 he1 he1k
            rw [List.countP_append, hzero, hcnt,
              countP_singleton_true _ px (by
                simp only [decide_eq_true_eq]
                exact ⟨hvis, by rw [hek]⟩)]
        · obtain ⟨hf1, hf2, hf3⟩ := ihent e0 he0
          have hcr : e.2.r = e0.2.r := by rw [show e.2.toColor = e0.2.toColor from hcol]
          have hcg : e.2.g = e0.2.g := by rw [show e.2.toColor = e0.2.toColor from hcol]
          have hcb : e.2.b = e0.2.b := by rw [show e.2.toColor = e0.2.toColor from hcol]
          have hca : e.2.a = e0.2.a := by rw [show e.2.toColor = e0.2.toColor from hcol]
          refine ⟨?_, by rw [hca]; exact hf2, ?_⟩
          · rw [hek, ← he0k, hf1, hcr, hcg, hcb, hca]
          · rw [List.countP_append, hek, ← he0k, ← hf3, hcnt,
              countP_singleton_true _ px (by
                simp only [decide_eq_true_eq]
                exact ⟨hvis, he0k.symm⟩)]
      · -- presence
        intro k
        constructor
        · rintro ⟨e, he, hek⟩
          rcases bump_cases (done.foldl quantStep []) (pxKey px) (pxColor px) ihnd e he with
            ⟨hem, _⟩ | ⟨hek2, _, _, _⟩ | ⟨e0, he0, he0k, hek2, _, _⟩
          · obtain ⟨q, hq, hqv, hqk⟩ := (ihpres k).mp ⟨e, hem, hek⟩
            exact ⟨q, List.mem_append_left _ hq, hqv, hqk⟩
          · refine ⟨px, List.mem_append_right _ (List.mem_singleton.mpr rfl), hvis, ?_⟩
            rw [← hek, hek2]
          · refine ⟨px, List.mem_append_right _ (List.mem_singleton.mpr rfl), hvis, ?_⟩
            rw [← hek, hek2]
        · rintro ⟨q, hq, hqv, hqk⟩
          rcases List.mem_append.mp hq with hq | hq
          · obtain ⟨e, he, hek⟩ := (ihpres k).mpr ⟨q, hq, hqv, hqk⟩
            by_cases hkk : e.1 = pxKey px
            · -- the key exists, so it gets bumped; exhibit the bumped entry
              have := bump_increments (done.foldl quantStep []) (pxKey px) (pxColor px)
                ihnd e he hkk
              exact ⟨(pxKey px, ⟨e.2.toColor, e.2.count + 1⟩), this, by rw [← hkk, hek]⟩
            · exact ⟨e, bump_preserves _ _ _ e he hkk, hek⟩
          · rw [List.mem_singleton] at hq
            subst hq
            by_cases hex : ∃ e ∈ done.foldl quantStep [], e.1 = pxKey q
            · obtain ⟨e, he, hek⟩ := hex
              have := bump_increments (done.foldl quantStep []) (pxKey q) (pxColor q)
                ihnd e he hek
              exact ⟨(pxKey q, ⟨e.2.toColor, e.2.count + 1⟩), this, hqk⟩
            · have hfresh : ∀ e ∈ done.foldl quantStep [], e.1 ≠ pxKey q := by
                intro e he hek
                exact hex ⟨e, he, hek⟩
              exact ⟨(pxKey q, ⟨pxColor q, 1⟩),
                bump_fresh _ _ _ hfresh, hqk⟩
    · -- invisible pixel: the fold is unchanged
      have hstep : quantStep (done.foldl quantStep []) px = done.foldl quantStep [] := by
        rw [quantStep, if_neg hvis]
      rw [hfold, hstep]
      refine ⟨ihnd, ?_, ?_⟩
      · intro e he
        obtain ⟨hf1, hf2, hf3⟩ := ihent e he
        refine ⟨hf1, hf2, ?_⟩
        rw [List.countP_append, countP_singleton_false _ px (by
          simp only [decide_eq_false_iff_not]
          rintro ⟨hv, _⟩
          exact hvis hv), hf3]
        omega
      · intro k
        rw [ihpres k]
        constructor
        · rintro ⟨q, hq, hqv, hqk⟩
          exact ⟨q, List.mem_append_left _ hq, hqv, hqk⟩
        · rintro ⟨q, hq, hqv, hqk⟩
          rcases List.mem_append.mp hq with hq | hq
          · exact ⟨q, hq, hqv, hqk⟩
          · rw [List.mem_singleton] at hq
            subst hq
            exact absurd hqv hvis

/-- Unfolding of the mask matcher as a proposition. -/
theorem maskMatchB_iff (img : ImageData) (c : Color) (i : Nat) :
    maskMatchB img c i = true ↔
    (10 < pxAlpha (pixelAt img i) ∧
      qChan (pixelAt img i).1 = c.r ∧ qChan (pixelAt img i).2.1 = c.g ∧
      qChan (pixelAt img i).2.2.1 = c.b ∧
      ((240 ≤ c.a ∧ 240 ≤ qAlpha (pixelAt img i).2.2.2) ∨
        qAlpha (pixelAt img i).2.2.2 = c.a)) := by
  unfold maskMatchB
  by_cases h1 : 10 < pxAlpha (pixelAt img i)
  · simp only [if_pos h1]
    split_ifs with h2 h3 h4
    · simp only [true_iff]
      exact ⟨h1, h2.1, h2.2.1, h2.2.2, Or.inl ⟨h3.1, h3.2⟩⟩
    · simp only [true_iff]
      exact ⟨h1, h2.1, h2.2.1, h2.2.2, Or.inr h4⟩
    · simp only [Bool.false_eq_true, false_iff, not_and]
      intro _ hr hg hb
      rintro (hop | hal)
      · exact h3 ⟨hop.1, hop.2⟩
      · exact h4 hal
    · simp only [Bool.false_eq_true, false_iff, not_and]
      intro _ hr hg hb _
      exact h2 ⟨hr, hg, hb⟩
  · simp only [if_neg h1, Bool.false_eq_true, false_iff, not_and]
    intro hv
    exact absurd hv h1

/-- Entries of a key-unique association list with equal keys are equal. -/
theorem eq_of_fst_eq_of_nodup_keys (m : List ((Nat × Nat × Nat × Nat) × QuantColor))
    (hnd : (m.map Prod.fst).Nodup) :
    ∀ e1 ∈ m, ∀ e2 ∈ m, e1.1 = e2.1 → e1 = e2 := by
  induction m with
  | nil => intro e1 he1; simp at he1
  | cons e0 rest ih =>
    simp only [List.map_cons, List.nodup_cons] at hnd
    obtain ⟨hk0nm, hndr⟩ := hnd
    intro e1 he1 e2 he2 hk
    rcases List.mem_cons.mp he1 with he1 | he1 <;>
      rcases List.mem_cons.mp he2 with he2 | he2
    · rw [he1, he2]
    · exfalso
      apply hk0nm
      rw [he1] at hk
      rw [hk]
      exact List.mem_map_of_mem Prod.fst he2
    · exfalso
      apply hk0nm
      rw [he2] at hk
      rw [← hk]
      exact List.mem_map_of_mem Prod.fst he1
    · exact ih hndr e1 he1 e2 he2 hk

/-- Bytes of a well-formed buffer bound every pixel's alpha. -/
theorem pxAlpha_le_of_wf (img : ImageData) (hwf : ∀ b ∈ img.data, b ≤ 255) (i : Nat) :
    pxAlpha (pixelAt img i) ≤ 255 := by
  unfold pxAlpha pixelAt
  simp only
  by_cases h : 4 * i + 3 < img.data.length
  · rw [List.getD_eq_getElem?_getD, List.getElem?_eq_getElem h]
    exact hwf _ (List.getElem_mem h)
  · rw [List.getD_eq_getElem?_getD, List.getElem?_eq_none (by omega)]
    simp

/-- Membership in `pixels`. -/
theorem pixelAt_mem_pixels (img : ImageData) (i : Nat) (hi : i < numPixels img) :
    pixelAt img i ∈ pixels img := by
  unfold pixels
  exact List.mem_map_of_mem _ (List.mem_range.mpr hi)

/-- Retained colors are exactly the map values whose count reaches 4. -/
theorem mem_quantize_iff (img : ImageData) (qc : QuantColor) :
    qc ∈ quantizeAndGetColors img ↔
    (∃ e ∈ (pixels img).foldl quantStep [], e.2 = qc) ∧ 4 ≤ qc.count := by
  unfold quantizeAndGetColors
  rw [List.mem_filter]
  simp only [List.mem_map, decide_eq_true_eq]

/-- C2: pixel-level partition of the image by the per-color masks.  For a
byte-valued buffer and any pixel index in range: some retained quantized
color's mask marks the pixel opaque exactly when the pixel passes the
alpha-visibility threshold and its quantization bucket survives the
minimum-count filter; and no pixel is marked opaque by the masks of two
distinct retained colors. -/
theorem mask_partition (img : ImageData) (hwf : ∀ b ∈ img.data, b ≤ 255)
    (i : Nat) (hi : i < numPixels img) :
    ((∃ qc ∈ quantizeAndGetColors img, maskOpaqueAt img qc.toColor i) ↔
      (10 < alphaAt img i ∧ 4 ≤ bucketCount img (quantKey img i))) ∧
    (∀ qc1 ∈ quantizeAndGetColors img, ∀ qc2 ∈ quantizeAndGetColors img,
      maskOpaqueAt img qc1.toColor i → maskOpaqueAt img qc2.toColor i → qc1 = qc2) := by
  have hpxwf : ∀ px ∈ pixels img, pxAlpha px ≤ 255 := by
    intro px hpx
    unfold pixels at hpx
    rcases List.mem_map.mp hpx with ⟨j, _, hj⟩
    rw [← hj]
    exact pxAlpha_le_of_wf img hwf j
  obtain ⟨hnd, hent, hpres⟩ := quantFold_inv (pixels img) hpxwf
  have hpix := pixelAt_mem_pixels img i hi
  have halphaAt : alphaAt img i = pxAlpha (pixelAt img i) := rfl
  have hqa240 : qAlpha (pxAlpha (pixelAt img i)) < 240 := by
    have h9 := pxAlpha_le_of_wf img hwf i
    unfold qAlpha
    omega
  -- common step: a retained color whose mask accepts pixel i determines the entry
  have hmask_entry : ∀ qc ∈ quantizeAndGetColors img, maskOpaqueAt img qc.toColor i →
      ∃ e ∈ (pixels img).foldl quantStep [], e.2 = qc ∧ e.1 = quantKey img i := by
    intro qc hqc hop
    obtain ⟨⟨e, he, he2⟩, hcnt4⟩ := (mem_quantize_iff img qc).mp hqc
    obtain ⟨hkey, ha240, hcount⟩ := hent e he
    rw [maskOpaqueAt_iff, maskMatchB_iff] at hop
    obtain ⟨hvis, hr, hg, hb, hbranch⟩ := hop
    have haeq : qAlpha (pixelAt img i).2.2.2 = qc.a := by
      rcases hbranch with ⟨hqa, _⟩ | hal
      · exfalso
        rw [← he2] at hqa
        omega
      · exact hal
    refine ⟨e, he, he2, ?_⟩
    rw [hkey, he2]
    unfold quantKey pxKey
    have hpa : (pixelAt img i).2.2.2 = pxAlpha (pixelAt img i) := rfl
    rw [hr, hg, hb, haeq]
  refine ⟨⟨?_, ?_⟩, ?_⟩
  · -- union, forward
    rintro ⟨qc, hqc, hop⟩
    obtain ⟨e, he, he2, hek⟩ := hmask_entry qc hqc hop
    obtain ⟨⟨_, _, _⟩, hcnt4⟩ := (mem_quantize_iff img qc).mp hqc
    obtain ⟨hkey, ha240, hcount⟩ := hent e he
    have hvis : 10 < alphaAt img i := by
      rw [maskOpaqueAt_iff, maskMatchB_iff] at hop
      rw [halphaAt]
      exact hop.1
    refine ⟨hvis, ?_⟩
    have : bucketCount img (quantKey img i) = e.2.count := by
      unfold bucketCount
      rw [hcount, hek]
    rw [this, he2]
    exact hcnt4
  · -- union, backward
    rintro ⟨hvis, hcnt⟩
    rw [halphaAt] at hvis
    obtain ⟨e, he, hek⟩ := (hpres (quantKey img i)).mpr
      ⟨pixelAt img i, hpix, hvis, rfl⟩
    obtain ⟨hkey, ha240, hcount⟩ := hent e he
    have hcnt' : 4 ≤ e.2.count := by
      rw [hcount, hek]
      exact hcnt
    refine ⟨e.2, (mem_quantize_iff img e.2).mpr ⟨⟨e, he, rfl⟩, hcnt'⟩, ?_⟩
    rw [maskOpaqueAt_iff, maskMatchB_iff]
    -- decompose the key equality into channel equalities
    have hkk : (qChan (pixelAt img i).1, qChan (pixelAt img i).2.1,
        qChan (pixelAt img i).2.2.1, effAlpha (qAlpha (pixelAt img i).2.2.2)) =
        (e.2.r, e.2.g, e.2.b, effAlpha e.2.a) := by
      rw [← hkey, hek]
      rfl
    have h1 := congrArg Prod.fst hkk
    have h2 := congrArg (fun q => q.2.1) hkk
    have h3 := congrArg (fun q => q.2.2.1) hkk
    have h4 := congrArg (fun q => q.2.2.2) hkk
    simp only at h1 h2 h3 h4
    have haeq : qAlpha (pixelAt img i).2.2.2 = e.2.a := by
      have hq1 : effAlpha (qAlpha (pixelAt img i).2.2.2) = qAlpha (pixelAt img i).2.2.2 := by
        unfold effAlpha
        rw [if_neg]
        have : (pixelAt img i).2.2.2 = pxAlpha (pixelAt img i) := rfl
        rw [this]
        omega
      have hq2 : effAlpha e.2.a = e.2.a := by
        unfold effAlpha
        rw [if_neg]
        omega
      rw [hq1, hq2] at h4
      exact h4
    exact ⟨hvis, h1, h2, h3, Or.inr haeq⟩
  · -- disjointness
    intro qc1 hqc1 qc2 hqc2 hop1 hop2
    obtain ⟨e1, he1, he12, he1k⟩ := hmask_entry qc1 hqc1 hop1
    obtain ⟨e2, he2, he22, he2k⟩ := hmask_entry qc2 hqc2 hop2
    have : e1 = e2 := eq_of_fst_eq_of_nodup_keys _ hnd e1 he1 e2 he2 (by rw [he1k, he2k])
    rw [← he12, ← he22, this]

/-- Tracer opaqueness test (`isOpaque` in `traceContours`): inside the
buffer and alpha strictly above 128.  Coordinates are integers so that the
neighbor arithmetic of the walk cannot wrap around zero. -/
def isOpaque (img : ImageData) (x y : Int) : Bool :=
  decide (0 ≤ x ∧ x < (img.width : Int) ∧ 0 ≤ y ∧ y < (img.height : Int) ∧
    128 < img.data.getD ((y * (img.width : Int) + x) * 4 + 3).toNat 0)

/-- The 8 Moore directions, in the source's fixed rotational order. -/
def moore : Nat → Int × Int
  | 0 => (0, -1)
  | 1 => (1, -1)
  | 2 => (1, 0)
  | 3 => (1, 1)
  | 4 => (0, 1)
  | 5 => (-1, 1)
  | 6 => (-1, 0)
  | _ => (-1, -1)

/-- Try one direction of the neighbor search. -/
def tryDir (O : Int → Int → Bool) (cur : Int × Int) (k : Nat) :
    Option (Nat × (Int × Int)) :=
  let np := (cur.1 + (moore k).1, cur.2 + (moore k).2)
  if O np.1 np.2 then some (k, np) else none

/-- The 8-direction neighbor search of the boundary walk, starting two
steps counter-clockwise from the reverse of the incoming direction
(`startSearchDir = (dir + 6) % 8`, then `(startSearchDir + i) % 8` for
`i = 0..7`), returning the first opaque neighbor with its direction. -/
def findStep (O : Int → Int → Bool) (cur : Int × Int) (d : Nat) :
    Option (Nat × (Int × Int)) :=
  (((((((tryDir O cur ((d + 6) % 8)).orElse fun _ =>
    tryDir O cur ((d + 7) % 8)).orElse fun _ =>
    tryDir O cur ((d + 8) % 8)).orElse fun _ =>
    tryDir O cur ((d + 9) % 8)).orElse fun _ =>
    tryDir O cur ((d + 10) % 8)).orElse fun _ =>
    tryDir O cur ((d + 11) % 8)).orElse fun _ =>
    tryDir O cur ((d + 12) % 8)).orElse fun _ =>
    tryDir O cur ((d + 13) % 8)

/-- The do-while boundary walk: push the current pixel, search for the next
opaque neighbor, stop on a dead end or on returning to the start pixel.
Fuel only bounds the number of iterations; the tracer always passes
enough for the loops the source terminates on. -/
def walkFrom (O : Int → Int → Bool) (start : Int × Int) :
    Nat → (Int × Int) → Nat → List (Int × Int)
  | 0, _, _ => []
  | fuel + 1, cur, d =>
    cur ::
      match findStep O cur d with
      | none => []
      | some (nd, np) => if np = start then [] else walkFrom O start fuel np nd

/-- The trace-candidate boundary test: on the image border, or an
orthogonal neighbor is transparent. -/
def boundaryB (w h : Nat) (O : Int → Int → Bool) (x y : Int) : Bool :=
  decide (x = 0 ∨ y = 0 ∨ x = (w : Int) - 1 ∨ y = (h : Int) - 1) ||
    !O (x + 1) y || !O (x - 1) y || !O x (y + 1) || !O x (y - 1)

/-- One iteration of the raster scan of `traceContours` at pixel index `i`
(row-major: `x = i % w`, `y = i / w`), carrying the `visited` set and the
list of kept paths. -/
def traceStep (w h : Nat) (O : Int → Int → Bool)
    (st : List (Int × Int) × List (List (Int × Int))) (i : Nat) :
    List (Int × Int) × List (List (Int × Int)) :=
  let x : Int := (i % w : Nat)
  let y : Int := (i / w : Nat)
  if (x, y) ∈ st.1 ∨ O x y = false then st
  else if boundaryB w h O x y = false then st
  else
    let path := walkFrom O (x, y) (8 * (w * h) + 8) (x, y) 0
    if 2 < path.length then (st.1 ++ path, st.2 ++ [path]) else st

/-- The raster scan over all pixels, in row-major order. -/
def traceCore (w h : Nat) (O : Int → Int → Bool) : List (List (Int × Int)) :=
  ((List.range (h * w)).foldl (traceStep w h O) ([], [])).2

/-- Embedding of `traceContours`. -/
def traceContours (img : ImageData) : List (List (Int × Int)) :=
  traceCore img.width img.height (isOpaque img)

/-- Embedding of `TracedShape`. -/
structure TracedShape where
  color : Color
  contours : List (List Pt)
  area : Nat
deriving DecidableEq, Repr

/-- Embedding of `TracedData`. -/
structure TracedData where
  width : Nat
  height : Nat
  shapes : List TracedShape
deriving DecidableEq, Repr

/-- Contour pixels as points. -/
def toPointPath (l : List (Int × Int)) : List Pt :=
  l.map fun q => ⟨(q.1 : ℚ), (q.2 : ℚ)⟩

/-- The stable descending-by-area sort of `allShapes.sort((a, b) => b.area -
a.area)` (JavaScript's sort is stable, so any stable sort with the same
comparator computes the same list). -/
def sortShapes (l : List TracedShape) : List TracedShape :=
  List.insertionSort (fun s t => t.area ≤ s.area) l

/-- The "no significant colors" error message. -/
def noColorsMsg : String :=
  "No significant colors found in the image. Try an image with a different background."

/-- The "no traceable paths" error message. -/
def noPathsMsg : String :=
  "Could not trace any vector paths from the image."

/-- The shape contributed by one quantized color: empty when no traced
contour has more than one point (`contours.some(c => c.length > 1)`). -/
def shapeOf (img : ImageData) (color : QuantColor) : List TracedShape :=
  let mask := createColorMask img color.toColor
  let contours := traceContours mask
  if contours.any fun c => 1 < c.length then
    [⟨color.toColor, contours.map toPointPath, color.count⟩]
  else []

/-- Embedding of `traceImage` at its default options (`tracingTolerance =
0`, so the optional blur/threshold denoiser between masking and tracing is
skipped, exactly as in a default call). -/
def traceImage (img : ImageData) : Except String TracedData :=
  let colors := quantizeAndGetColors img
  if colors.isEmpty then Except.error noColorsMsg
  else
    let allShapes := colors.foldl (fun acc color => acc ++ shapeOf img color) []
    if allShapes.isEmpty then Except.error noPathsMsg
    else Except.ok ⟨img.width, img.height, sortShapes allShapes⟩

/-- The per-color fold accumulates shapes in `flatMap` form. -/
theorem shapes_foldl_eq_flatMap (img : ImageData) :
    ∀ (cols : List QuantColor) (acc : List TracedShape),
    cols.foldl (fun acc color => acc ++ shapeOf img color) acc =
      acc ++ cols.flatMap (shapeOf img) := by
  intro cols
  induction cols with
  | nil => intro acc; simp
  | cons c rest ih =>
    intro acc
    rw [List.foldl_cons, ih, List.flatMap_cons, List.append_assoc]

/-- A color contributes no shape exactly when no traced contour has at
least two points. -/
theorem shapeOf_eq_nil_iff (img : ImageData) (c : QuantColor) :
    shapeOf img c = [] ↔
    ∀ p ∈ traceContours (createColorMask img c.toColor), p.length ≤ 1 := by
  unfold shapeOf
  by_cases h : (traceContours (createColorMask img c.toColor)).any fun p =>
      decide (1 < p.length)
  · rw [if_pos h]
    constructor
    · intro habs
      exact absurd habs (by simp)
    · intro hall
      exfalso
      rcases List.any_eq_true.mp h with ⟨p, hp, hlen⟩
      rw [decide_eq_true_eq] at hlen
      have := hall p hp
      omega
  · rw [if_neg h]
    simp only [true_iff]
    intro p hp
    by_contra hlen
    exact h (List.any_eq_true.mpr ⟨p, hp, by simp; omega⟩)

/-- The two error messages differ. -/
theorem msgs_ne : noColorsMsg ≠ noPathsMsg := by decide

/-- C3: `traceImage` raises the "no significant colors" error exactly when
quantization retains no color bucket; it raises the "no traceable paths"
error exactly when at least one bucket is retained but every retained
color's traced contour list is empty or degenerate (no contour with two or
more points); in every other case it returns a `TracedData` value. -/
theorem traceImage_errors (img : ImageData) :
    (traceImage img = Except.error noColorsMsg ↔ quantizeAndGetColors img = []) ∧
    (traceImage img = Except.error noPathsMsg ↔
      (quantizeAndGetColors img ≠ [] ∧
        ∀ c ∈ quantizeAndGetColors img,
          ∀ p ∈ traceContours (createColorMask img c.toColor), p.length ≤ 1)) ∧
    ((quantizeAndGetColors img ≠ [] ∧
        ¬ ∀ c ∈ quantizeAndGetColors img,
          ∀ p ∈ traceContours (createColorMask img c.toColor), p.length ≤ 1) →
      ∃ td, traceImage img = Except.ok td) := by
  by_cases hc : quantizeAndGetColors img = []
  · have hrun : traceImage img = Except.error noColorsMsg := by
      unfold traceImage
      rw [if_pos (by rw [hc]; rfl)]
    refine ⟨⟨fun _ => hc, fun _ => hrun⟩, ⟨?_, ?_⟩, ?_⟩
    · intro habs
      rw [hrun] at habs
      injection habs with hmsg
      exact absurd hmsg msgs_ne
    · rintro ⟨hne, _⟩
      exact absurd hc hne
    · rintro ⟨hne, _⟩
      exact absurd hc hne
  · have hcne : (quantizeAndGetColors img).isEmpty = false := by
      rw [List.isEmpty_eq_false_iff_exists_mem]
      rcases List.exists_mem_of_ne_nil _ hc with ⟨x, hx⟩
      exact ⟨x, hx⟩
    have hfold : (quantizeAndGetColors img).foldl
        (fun acc color => acc ++ shapeOf img color) [] =
        (quantizeAndGetColors img).flatMap (shapeOf img) := by
      rw [shapes_foldl_eq_flatMap]
      rfl
    by_cases hA : (quantizeAndGetColors img).flatMap (shapeOf img) = []
    · have hrun : traceImage img = Except.error noPathsMsg := by
        unfold traceImage
        rw [if_neg (by rw [hcne]; simp)]
        rw [hfold, hA]
        rfl
      have hall : ∀ c ∈ quantizeAndGetColors img,
          ∀ p ∈ traceContours (createColorMask img c.toColor), p.length ≤ 1 := by
        intro c hcm
        exact (shapeOf_eq_nil_iff img c).mp (List.flatMap_eq_nil_iff.mp hA c hcm)
      refine ⟨⟨?_, ?_⟩, ⟨fun _ => ⟨hc, hall⟩, fun _ => hrun⟩, ?_⟩
      · intro habs
        rw [hrun] at habs
        injection habs with hmsg
        exact absurd hmsg.symm msgs_ne
      · intro hceq
        exact absurd hceq hc
      · rintro ⟨_, hnall⟩
        exact absurd hall hnall
    · have hrun : ∃ td, traceImage img = Except.ok td := by
        refine ⟨⟨img.width, img.height,
          sortShapes ((quantizeAndGetColors img).flatMap (shapeOf img))⟩, ?_⟩
        unfold traceImage
        rw [if_neg (by rw [hcne]; simp)]
        rw [hfold]
        rw [if_neg (by
          rw [List.isEmpty_iff]
          exact hA)]
      obtain ⟨td, htd⟩ := hrun
      refine ⟨⟨?_, ?_⟩, ⟨?_, ?_⟩, fun _ => ⟨td, htd⟩⟩
      · intro habs
        rw [htd] at habs
        exact absurd habs (by simp)
      · intro hceq
        exact absurd hceq hc
      · intro habs
        rw [htd] at habs
        exact absurd habs (by simp)
      · rintro ⟨_, hall⟩
        exfalso
        apply hA
        rw [List.flatMap_eq_nil_iff]
        intro c hcm
        exact (shapeOf_eq_nil_iff img c).mpr (hall c hcm)

/-- The stable area sort produces a descending chain of areas. -/
theorem sortShapes_sorted (l : List TracedShape) :
    (sortShapes l).Chain' fun s t => t.area ≤ s.area := by
  haveI h1 : IsTotal TracedShape fun s t => t.area ≤ s.area :=
    ⟨fun a b => le_total b.area a.area⟩
  haveI h2 : IsTrans TracedShape fun s t => t.area ≤ s.area :=
    ⟨fun a b c hab hbc => le_trans hbc hab⟩
  exact (List.sorted_insertionSort _ l).chain'

/-- C9: the shape list of every successful `traceImage` result is sorted by
area in descending order: each adjacent pair satisfies
`shapes[i].area ≥ shapes[i+1].area`. -/
theorem traceImage_area_sorted (img : ImageData) (td : TracedData)
    (h : traceImage img = Except.ok td) :
    td.shapes.Chain' fun s t => t.area ≤ s.area := by
  unfold traceImage at h
  by_cases hc : (quantizeAndGetColors img).isEmpty
  · rw [if_pos hc] at h
    exact absurd h (by simp)
  · rw [if_neg hc] at h
    by_cases hA : ((quantizeAndGetColors img).foldl
        (fun acc color => acc ++ shapeOf img color) []).isEmpty
    · rw [if_pos hA] at h
      exact absurd h (by simp)
    · rw [if_neg hA] at h
      injection h with h2
      rw [← h2]
      exact sortShapes_sorted _

/-- Recover an `ok` equation from `toOption`. -/
theorem ok_of_toOption (e : Except String TracedData) (td : TracedData)
    (h : e.toOption = some td) : e = Except.ok td := by
  cases e with
  | error s => simp [Except.toOption] at h
  | ok a =>
    simp only [Except.toOption, Option.some.injEq] at h
    rw [h]

/-- C1 (code-bug evidence): in a 2×2 buffer of fully opaque black pixels
(raw alpha 255, at or above the opaque threshold 240), the quantizer keys
the single retained bucket with alpha 224, not the canonical opaque key
255: alpha is floored to a multiple of 32 (hence at most 224) before the
`>= 240` collapse test, so the collapse branch can never fire, and both
the bucket key and the stored representative color carry alpha 224. -/
theorem quantize_opaque_collapse_dead :
    alphaAt ⟨2, 2, [0, 0, 0, 255, 0, 0, 0, 255, 0, 0, 0, 255, 0, 0, 0, 255]⟩ 0 = 255 ∧
    quantKey ⟨2, 2, [0, 0, 0, 255, 0, 0, 0, 255, 0, 0, 0, 255, 0, 0, 0, 255]⟩ 0 =
      (0, 0, 0, 224) ∧
    quantKey ⟨2, 2, [0, 0, 0, 255, 0, 0, 0, 255, 0, 0, 0, 255, 0, 0, 0, 255]⟩ 0 ≠
      (0, 0, 0, 255) ∧
    (quantizeAndGetColors
        ⟨2, 2, [0, 0, 0, 255, 0, 0, 0, 255, 0, 0, 0, 255, 0, 0, 0, 255]⟩).map
      (fun c => (c.r, c.g, c.b, c.a, c.count)) = [(0, 0, 0, 224, 4)] := by
  refine ⟨by decide, by decide, by decide, by decide⟩

/-- Witness for C2 on a concrete 2×2 opaque black buffer at pixel 0. -/
theorem mask_partition_witness :
    (∀ b ∈ (⟨2, 2, [0, 0, 0, 255, 0, 0, 0, 255, 0, 0, 0, 255, 0, 0, 0, 255]⟩ :
      ImageData).data, b ≤ 255) ∧
    0 < numPixels ⟨2, 2, [0, 0, 0, 255, 0, 0, 0, 255, 0, 0, 0, 255, 0, 0, 0, 255]⟩ ∧
    ((∃ qc ∈ quantizeAndGetColors
        ⟨2, 2, [0, 0, 0, 255, 0, 0, 0, 255, 0, 0, 0, 255, 0, 0, 0, 255]⟩,
        maskOpaqueAt ⟨2, 2, [0, 0, 0, 255, 0, 0, 0, 255, 0, 0, 0, 255, 0, 0, 0, 255]⟩
          qc.toColor 0) ↔
      (10 < alphaAt ⟨2, 2, [0, 0, 0, 255, 0, 0, 0, 255, 0, 0, 0, 255, 0, 0, 0, 255]⟩ 0 ∧
        4 ≤ bucketCount ⟨2, 2, [0, 0, 0, 255, 0, 0, 0, 255, 0, 0, 0, 255, 0, 0, 0, 255]⟩
          (quantKey ⟨2, 2, [0, 0, 0, 255, 0, 0, 0, 255, 0, 0, 0, 255, 0, 0, 0, 255]⟩ 0))) :=
  ⟨by decide, by decide,
    (mask_partition ⟨2, 2, [0, 0, 0, 255, 0, 0, 0, 255, 0, 0, 0, 255, 0, 0, 0, 255]⟩
      (by decide) 0 (by decide)).1⟩

/-- Witness for C3: a fully transparent buffer raises the "no significant
colors" error, and a fully opaque black buffer returns a value. -/
theorem traceImage_errors_witness :
    traceImage ⟨2, 2, [0, 0, 0, 0, 0, 0, 0, 0, 0, 0, 0, 0, 0, 0, 0, 0]⟩ =
      Except.error noColorsMsg ∧
    (∃ td, traceImage ⟨2, 2, [0, 0, 0, 255, 0, 0, 0, 255, 0, 0, 0, 255, 0, 0, 0, 255]⟩ =
      Except.ok td) :=
  ⟨(traceImage_errors ⟨2, 2, [0, 0, 0, 0, 0, 0, 0, 0, 0, 0, 0, 0, 0, 0, 0, 0]⟩).1.mpr
      (by decide),
    (traceImage_errors
        ⟨2, 2, [0, 0, 0, 255, 0, 0, 0, 255, 0, 0, 0, 255, 0, 0, 0, 255]⟩).2.2
      (by refine ⟨by decide, ?_⟩
          intro hall
          have := hall ⟨⟨0, 0, 0, 224⟩, 4⟩ (by decide) [(0, 0), (1, 0), (1, 1), (0, 1)]
            (by decide)
          simp at this)⟩

/-- Witness for C9 on a concrete 2×2 opaque black buffer. -/
theorem traceImage_area_sorted_witness :
    ((⟨2, 2, [⟨⟨0, 0, 0, 224⟩, [[⟨0, 0⟩, ⟨1, 0⟩, ⟨1, 1⟩, ⟨0, 1⟩]], 4⟩]⟩ :
      TracedData)).shapes.Chain' (fun s t => t.area ≤ s.area) :=
  traceImage_area_sorted
    ⟨2, 2, [0, 0, 0, 255, 0, 0, 0, 255, 0, 0, 0, 255, 0, 0, 0, 255]⟩
    ⟨2, 2, [⟨⟨0, 0, 0, 224⟩, [[⟨0, 0⟩, ⟨1, 0⟩, ⟨1, 1⟩, ⟨0, 1⟩]], 4⟩]⟩
    (ok_of_toOption _ _ (of_decide_eq_true (by with_unfolding_all rfl)))

/-- Embedding of `GenerateSvgOptions`. -/
structure GenerateSvgOptions where
  simplification : ℚ
  strokeEnabled : Bool
  strokeColor : String
  strokeWidth : ℚ
deriving DecidableEq, Repr

/-- `c.toString(16).padStart(2, '0')`. -/
def toHex (c : Nat) : String :=
  let s := String.mk (Nat.toDigits 16 c)
  if s.length < 2 then "0" ++ s else s

/-- JavaScript `toFixed(1)`: one decimal digit, rounding the magnitude to
the nearest tenth with ties away from zero. -/
def toFixedOne (q : ℚ) : String :=
  let sign := if q < 0 then "-" else ""
  let x := if q < 0 then -q else q
  let n : Int := Int.floor (x * 10 + 1 / 2)
  sign ++ toString (n / 10) ++ "." ++ toString (n % 10)

/-- JavaScript `toFixed(2)`: two decimal digits. -/
def toFixedTwo (q : ℚ) : String :=
  let sign := if q < 0 then "-" else ""
  let x := if q < 0 then -q else q
  let n : Int := Int.floor (x * 100 + 1 / 2)
  let frac := n % 100
  sign ++ toString (n / 100) ++ "." ++ (if frac < 10 then "0" else "") ++ toString frac

/-- Embedding of `pathsToSvgData`: one `M`/`L`/`Z` string per contour,
degenerate contours (fewer than 2 points) serialize to the empty string,
subpaths are joined without separators. -/
def pathsToSvgData (paths : List (List Pt)) : String :=
  String.join (paths.map fun path =>
    if path.length < 2 then ""
    else
      let start := "M" ++ toFixedOne path.headI.x ++ " " ++ toFixedOne path.headI.y
      let lines := "L" ++ String.intercalate " "
        ((path.drop 1).map fun p => toFixedOne p.x ++ " " ++ toFixedOne p.y)
      start ++ lines ++ "Z")

/-- Embedding of `generateSvg`: simplify each shape's contours, serialize,
skip shapes whose path data trims to nothing, and wrap everything (or
nothing) in an `svg` container carrying the traced width and height. -/
def generateSvg (tracedData : TracedData) (options : GenerateSvgOptions) : String :=
  let pathElements := String.join (tracedData.shapes.map fun shape =>
    let simplifiedContours := shape.contours.map fun path =>
      simplifyPath path options.simplification
    let svgPathData := pathsToSvgData simplifiedContours
    if svgPathData.trim = "" then ""
    else
      let hexColor := "#" ++ toHex shape.color.r ++ toHex shape.color.g ++ toHex shape.color.b
      let opacity := toFixedTwo ((shape.color.a : ℚ) / 255)
      let strokeAttrs :=
        if options.strokeEnabled then
          " stroke=\"" ++ options.strokeColor ++ "\" stroke-width=\"" ++
            toFixedOne options.strokeWidth ++ "\" vector-effect=\"non-scaling-stroke\""
        else ""
      "<path fill=\"" ++ hexColor ++ "\" fill-opacity=\"" ++ opacity ++ "\"" ++
        strokeAttrs ++ " fill-rule=\"evenodd\" d=\"" ++ svgPathData ++ "\"/>")
  if pathElements = "" then
    "<svg xmlns=\"http://www.w3.org/2000/svg\" viewBox=\"0 0 " ++
      toString tracedData.width ++ " " ++ toString tracedData.height ++ "\"></svg>"
  else
    "<svg xmlns=\"http://www.w3.org/2000/svg\" viewBox=\"0 0 " ++
      toString tracedData.width ++ " " ++ toString tracedData.height ++ "\">" ++
      pathElements ++ "</svg>"

/-- Joining all-empty strings yields the empty string. -/
theorem join_eq_empty (l : List String) (h : ∀ s ∈ l, s = "") :
    String.join l = "" := by
  rw [String.join_eq]
  have hmap : l.map String.data = l.map fun _ => ([] : List Char) := by
    refine List.map_congr_left ?_
    intro s hs
    rw [h s hs]
  rw [hmap]
  have : (l.map fun _ => ([] : List Char)).flatten = [] := by
    rw [List.flatten_eq_nil_iff]
    intro xs hxs
    rcases List.mem_map.mp hxs with ⟨_, _, hx⟩
    exact hx.symm
  rw [this]

/-- C7: `generateSvg` (a total function: it never fails) returns the
container-only markup — carrying the traced width and height in the
viewBox and containing no drawable elements — whenever every shape of the
input serializes to empty path data; in particular whenever the shape list
is empty. -/
theorem generateSvg_empty (td : TracedData) (options : GenerateSvgOptions)
    (h : ∀ s ∈ td.shapes,
      (pathsToSvgData (s.contours.map fun path =>
        simplifyPath path options.simplification)).trim = "") :
    generateSvg td options =
      "<svg xmlns=\"http://www.w3.org/2000/svg\" viewBox=\"0 0 " ++
        toString td.width ++ " " ++ toString td.height ++ "\"></svg>" := by
  unfold generateSvg
  have hempty : String.join (td.shapes.map fun shape =>
      let simplifiedContours := shape.contours.map fun path =>
        simplifyPath path options.simplification
      let svgPathData := pathsToSvgData simplifiedContours
      if svgPathData.trim = "" then ""
      else
        let hexColor := "#" ++ toHex shape.color.r ++ toHex shape.color.g ++
          toHex shape.color.b
        let opacity := toFixedTwo ((shape.color.a : ℚ) / 255)
        let strokeAttrs :=
          if options.strokeEnabled then
            " stroke=\"" ++ options.strokeColor ++ "\" stroke-width=\"" ++
              toFixedOne options.strokeWidth ++ "\" vector-effect=\"non-scaling-stroke\""
          else ""
        "<path fill=\"" ++ hexColor ++ "\" fill-opacity=\"" ++ opacity ++ "\"" ++
          strokeAttrs ++ " fill-rule=\"evenodd\" d=\"" ++ svgPathData ++ "\"/>") = "" := by
    refine join_eq_empty _ ?_
    intro s hs
    rcases List.mem_map.mp hs with ⟨shape, hshape, hseq⟩
    rw [← hseq]
    simp only
    rw [if_pos (h shape hshape)]
  rw [hempty]
  rfl

/-- Witness for C7 on an empty shape list. -/
theorem generateSvg_empty_witness :
    (∀ s ∈ (⟨3, 5, []⟩ : TracedData).shapes,
      (pathsToSvgData (s.contours.map fun path => simplifyPath path 1)).trim = "") ∧
    generateSvg ⟨3, 5, []⟩ ⟨1, false, "#000000", 1⟩ =
      "<svg xmlns=\"http://www.w3.org/2000/svg\" viewBox=\"0 0 " ++
        toString (3 : Nat) ++ " " ++ toString (5 : Nat) ++ "\"></svg>" :=
  ⟨by simp, generateSvg_empty ⟨3, 5, []⟩ ⟨1, false, "#000000", 1⟩ (by simp)⟩

/-- The eight Moore neighbors of a pixel. -/
def mooreNeighbors (p : Int × Int) : List (Int × Int) :=
  (List.range 8).map fun k => (p.1 + (moore k).1, p.2 + (moore k).2)

/-- Unfolding a successful `tryDir`. -/
theorem tryDir_some (O : Int → Int → Bool) (cur : Int × Int) (k : Nat)
    (nd : Nat) (np : Int × Int) (h : tryDir O cur k = some (nd, np)) :
    nd = k ∧ np = (cur.1 + (moore k).1, cur.2 + (moore k).2) ∧ O np.1 np.2 = true := by
  unfold tryDir at h
  simp only at h
  split_ifs at h with ho
  · injection h with h2
    injection h2 with h3 h4
    subst h3
    subst h4
    exact ⟨rfl, rfl, ho⟩

/-- Case analysis of `Option.orElse`. -/
theorem orElse_some_elim {α : Type} (x : Option α) (f : Unit → Option α) (v : α)
    (h : x.orElse f = some v) : x = some v ∨ (x = none ∧ f () = some v) := by
  cases x with
  | none => right; exact ⟨rfl, h⟩
  | some a => left; exact h

/-- A successful `findStep` lands on an opaque Moore neighbor, with the
direction it was found in. -/
theorem findStep_some (O : Int → Int → Bool) (cur : Int × Int) (d : Nat)
    (nd : Nat) (np : Int × Int) (h : findStep O cur d = some (nd, np)) :
    O np.1 np.2 = true ∧
    ∃ k, k < 8 ∧ np = (cur.1 + (moore k).1, cur.2 + (moore k).2) := by
  have step : ∀ j : Nat, tryDir O cur ((d + j) % 8) = some (nd, np) →
      O np.1 np.2 = true ∧
      ∃ k, k < 8 ∧ np = (cur.1 + (moore k).1, cur.2 + (moore k).2) := by
    intro j hj
    obtain ⟨_, hnp, ho⟩ := tryDir_some O cur _ nd np hj
    exact ⟨ho, (d + j) % 8, Nat.mod_lt _ (by omega), hnp⟩
  unfold findStep at h
  rcases orElse_some_elim _ _ _ h with h | ⟨_, h1⟩
  · rcases orElse_some_elim _ _ _ h with h | ⟨_, h1⟩
    · rcases orElse_some_elim _ _ _ h with h | ⟨_, h1⟩
      · rcases orElse_some_elim _ _ _ h with h | ⟨_, h1⟩
        · rcases orElse_some_elim _ _ _ h with h | ⟨_, h1⟩
          · rcases orElse_some_elim _ _ _ h with h | ⟨_, h1⟩
            · rcases orElse_some_elim _ _ _ h with h | ⟨_, h1⟩
              · exact step 6 h
              · exact step 7 h1
            · exact step 8 h1
          · exact step 9 h1
        · exact step 10 h1
      · exact step 11 h1
    · exact step 12 h1
  · exact step 13 h1

/-- Every pixel pushed by the boundary walk is opaque. -/
theorem walkFrom_opaque (O : Int → Int → Bool) (start : Int × Int) :
    ∀ (fuel : Nat) (cur : Int × Int) (d : Nat), O cur.1 cur.2 = true →
    ∀ q ∈ walkFrom O start fuel cur d, O q.1 q.2 = true := by
  intro fuel
  induction fuel with
  | zero => intro cur d _ q hq; simp [walkFrom] at hq
  | succ fuel' ih =>
    intro cur d hcur q hq
    rw [walkFrom] at hq
    rcases List.mem_cons.mp hq with hq | hq
    · subst hq; exact hcur
    · cases hf : findStep O cur d with
      | none => rw [hf] at hq; simp at hq
      | some v =>
        obtain ⟨nd, np⟩ := v
        rw [hf] at hq
        obtain ⟨ho, _⟩ := findStep_some O cur d nd np hf
        by_cases hs : np = start
        · simp only [if_pos hs] at hq
          simp at hq
        · simp only [if_neg hs] at hq
          exact ih np nd ho q hq

/-- A fold that fixes the state leaves it unchanged. -/
theorem foldl_fixed {α β : Type} (f : α → β → α) (st : α) (l : List β)
    (h : ∀ i ∈ l, f st i = st) : l.foldl f st = st := by
  induction l with
  | nil => rfl
  | cons a rest ih =>
    rw [List.foldl_cons, h a (List.mem_cons_self _ _)]
    exact ih fun i hi => h i (List.mem_cons_of_mem _ hi)

/-- The raster scan preserves soundness of the accumulated paths. -/
theorem traceStep_sound (w h : Nat) (O : Int → Int → Bool)
    (st : List (Int × Int) × List (List (Int × Int))) (i : Nat)
    (hst : ∀ p ∈ st.2, 3 ≤ p.length ∧ ∀ q ∈ p, O q.1 q.2 = true) :
    ∀ p ∈ (traceStep w h O st i).2, 3 ≤ p.length ∧ ∀ q ∈ p, O q.1 q.2 = true := by
  intro p hp
  unfold traceStep at hp
  simp only at hp
  split_ifs at hp with h1 h2 h3
  · exact hst p hp
  · exact hst p hp
  · rcases List.mem_append.mp hp with hp | hp
    · exact hst p hp
    · rw [List.mem_singleton] at hp
      subst hp
      have hop : O ((i % w : Nat) : Int) ((i / w : Nat) : Int) = true := by
        push_neg at h1
        simpa using h1.2
      exact ⟨by omega, walkFrom_opaque O _ _ _ 0 hop⟩
  · exact hst p hp

/-- Soundness of the whole scan. -/
theorem traceCore_sound (w h : Nat) (O : Int → Int → Bool) :
    ∀ p ∈ traceCore w h O, 3 ≤ p.length ∧ ∀ q ∈ p, O q.1 q.2 = true := by
  unfold traceCore
  have hgen : ∀ (l : List Nat) (st : List (Int × Int) × List (List (Int × Int))),
      (∀ p ∈ st.2, 3 ≤ p.length ∧ ∀ q ∈ p, O q.1 q.2 = true) →
      ∀ p ∈ (l.foldl (traceStep w h O) st).2, 3 ≤ p.length ∧ ∀ q ∈ p, O q.1 q.2 = true := by
    intro l
    induction l with
    | nil => intro st hst; exact hst
    | cons a rest ih =>
      intro st hst
      rw [List.foldl_cons]
      exact ih _ (traceStep_sound w h O st a hst)
  exact hgen _ ([], []) (by simp)

/-- No Moore direction is the zero offset. -/
theorem moore_nonzero : ∀ k < 8, ¬((moore k).1 = 0 ∧ (moore k).2 = 0) := by decide

/-- Rotating a Moore direction by 4 negates the offset. -/
theorem moore_opp : ∀ k < 8,
    (moore ((k + 4) % 8)).1 = -(moore k).1 ∧
    (moore ((k + 4) % 8)).2 = -(moore k).2 := by decide

/-- One satisfying member gives a positive `countP`. -/
theorem one_le_countP {α : Type} (l : List α) (p : α → Bool) (a : α)
    (ha : a ∈ l) (hpa : p a = true) : 1 ≤ l.countP p := by
  induction l with
  | nil => cases ha
  | cons x t ih =>
    rw [List.countP_cons]
    rcases List.mem_cons.mp ha with rfl | h1
    · simp [hpa]
    · have := ih h1
      omega

/-- Two distinct satisfying members give `countP` at least two. -/
theorem two_le_countP {α : Type} (l : List α) (p : α → Bool) (a b : α)
    (ha : a ∈ l) (hb : b ∈ l) (hab : a ≠ b)
    (hpa : p a = true) (hpb : p b = true) : 2 ≤ l.countP p := by
  induction l with
  | nil => cases ha
  | cons x t ih =>
    rcases List.mem_cons.mp ha with rfl | h1
    · rcases List.mem_cons.mp hb with rfl | h2
      · exact absurd rfl hab
      · have h3 := one_le_countP t p b h2 hpb
        rw [List.countP_cons_of_pos p t hpa]
        omega
    · rcases List.mem_cons.mp hb with rfl | h2
      · have h3 := one_le_countP t p a h1 hpa
        rw [List.countP_cons_of_pos p t hpb]
        omega
      · have h3 := ih h1 h2
        rw [List.countP_cons]
        omega

/-- On a mask where every opaque pixel has at most one opaque Moore
neighbor, a boundary walk retraces its first step and stops: it never
produces more than two pixels. -/
theorem sparse_walk (O : Int → Int → Bool)
    (hs : ∀ q : Int × Int, O q.1 q.2 = true →
      ((mooreNeighbors q).countP fun r => O r.1 r.2) ≤ 1)
    (start : Int × Int) (hO : O start.1 start.2 = true) :
    ∀ (fuel d : Nat), (walkFrom O start fuel start d).length ≤ 2 := by
  intro fuel d
  cases fuel with
  | zero => simp [walkFrom]
  | succ f =>
    rw [walkFrom]
    cases hf : findStep O start d with
    | none => simp
    | some v =>
      obtain ⟨nd, np⟩ := v
      obtain ⟨hnpO, k, hk, hnp⟩ := findStep_some O start d nd np hf
      have hne : ¬(np = start) := by
        intro heq
        rw [hnp] at heq
        have h1 := congrArg Prod.fst heq
        have h2 := congrArg Prod.snd heq
        simp only at h1 h2
        exact moore_nonzero k hk ⟨by omega, by omega⟩
      show (start :: if np = start then [] else walkFrom O start f np nd).length ≤ 2
      rw [if_neg hne]
      simp only [List.length_cons]
      have htail : (walkFrom O start f np nd).length ≤ 1 := by
        cases f with
        | zero => simp [walkFrom]
        | succ f2 =>
          rw [walkFrom]
          cases hf2 : findStep O np nd with
          | none => simp
          | some v2 =>
            obtain ⟨nd2, np2⟩ := v2
            obtain ⟨hnp2O, k2, hk2, hnp2⟩ := findStep_some O np nd nd2 np2 hf2
            have heq : np2 = start := by
              by_contra hne2
              have hmem2 : np2 ∈ mooreNeighbors np := by
                rw [hnp2]
                exact List.mem_map.mpr ⟨k2, List.mem_range.mpr hk2, rfl⟩
              have hmems : start ∈ mooreNeighbors np := by
                obtain ⟨ho1, ho2⟩ := moore_opp k hk
                refine List.mem_map.mpr
                  ⟨(k + 4) % 8, List.mem_range.mpr (Nat.mod_lt _ (by omega)), ?_⟩
                rw [ho1, ho2, hnp]
                simp only
                have e1 : start.1 + (moore k).1 + -(moore k).1 = start.1 := by ring
                have e2 : start.2 + (moore k).2 + -(moore k).2 = start.2 := by ring
                rw [e1, e2]
              have hcount := two_le_countP (mooreNeighbors np)
                (fun r => O r.1 r.2) np2 start hmem2 hmems hne2 hnp2O hO
              have hle := hs np hnpO
              omega
            show ((np : Int × Int) ::
              if np2 = start then [] else walkFrom O start f2 np2 nd2).length ≤ 1
            rw [if_pos heq]
            simp
      omega

/-- On a sparse mask the raster scan keeps no path at all. -/
theorem traceCore_sparse (w h : Nat) (O : Int → Int → Bool)
    (hs : ∀ q : Int × Int, O q.1 q.2 = true →
      ((mooreNeighbors q).countP fun r => O r.1 r.2) ≤ 1) :
    traceCore w h O = [] := by
  unfold traceCore
  have hfix : (List.range (h * w)).foldl (traceStep w h O) ([], []) = ([], []) := by
    apply foldl_fixed
    intro i _
    unfold traceStep
    simp only
    split_ifs with h1 h2 h3
    · rfl
    · rfl
    · exfalso
      push_neg at h1
      have hop : O ((i % w : Nat) : Int) ((i / w : Nat) : Int) = true := by
        simpa using h1.2
      have hlen := sparse_walk O hs (((i % w : Nat) : Int), ((i / w : Nat) : Int))
        hop (8 * (w * h) + 8) 0
      omega
    · rfl
  rw [hfix]

/-- C10: every path returned by `traceContours` has at least 3 points, and
every point of every returned path lies in-bounds on a pixel the tracer
sees as opaque (alpha above 128); and on a mask whose opaque pixels each
have at most one opaque Moore neighbor — i.e. the opaque pixels form only
isolated single pixels or 2-pixel regions — `traceContours` returns the
empty path list. -/
theorem traceContours_sound (img : ImageData) :
    (∀ p ∈ traceContours img, 3 ≤ p.length ∧ ∀ q ∈ p,
      (0 ≤ q.1 ∧ q.1 < (img.width : Int) ∧ 0 ≤ q.2 ∧ q.2 < (img.height : Int)) ∧
      isOpaque img q.1 q.2 = true) ∧
    ((∀ q : Int × Int, isOpaque img q.1 q.2 = true →
        ((mooreNeighbors q).countP fun r => isOpaque img r.1 r.2) ≤ 1) →
      traceContours img = []) := by
  constructor
  · intro p hp
    have hsound := traceCore_sound img.width img.height (isOpaque img) p hp
    refine ⟨hsound.1, fun q hq => ?_⟩
    have hO := hsound.2 q hq
    refine ⟨?_, hO⟩
    have hO2 := hO
    unfold isOpaque at hO2
    have h2 := of_decide_eq_true hO2
    exact ⟨h2.1, h2.2.1, h2.2.2.1, h2.2.2.2.1⟩
  · intro hs
    unfold traceContours
    exact traceCore_sparse _ _ _ hs

/-- The C10 theorem at a 1×1 fully opaque image: sparse, so no contours. -/
theorem traceContours_sound_witness :
    traceContours ⟨1, 1, [0, 0, 0, 255]⟩ = [] := by
  have hs : ∀ q : Int × Int, isOpaque ⟨1, 1, [0, 0, 0, 255]⟩ q.1 q.2 = true →
      ((mooreNeighbors q).countP
        fun r => isOpaque ⟨1, 1, [0, 0, 0, 255]⟩ r.1 r.2) ≤ 1 := by
    intro q hq
    unfold isOpaque at hq
    have h2 := of_decide_eq_true hq
    obtain ⟨hb1, hb2, hb3, hb4, _⟩ := h2
    obtain ⟨qa, qb⟩ := q
    simp only at hb1 hb2 hb3 hb4
    have hx : qa = 0 := by omega
    have hy : qb = 0 := by omega
    subst hx
    subst hy
    decide
  exact (traceContours_sound ⟨1, 1, [0, 0, 0, 255]⟩).2 hs

/-- An axis-aligned one-color ring test image: an `n`×`n` fully opaque
black square (`n = m + 2a`) with a fully transparent `m`×`m` inner square
at offset `a` from every edge. -/
def ringImg (a m : Nat) : ImageData :=
  let n := m + 2 * a
  ⟨n, n, (List.range (4 * (n * n))).map fun j =>
    let i := j / 4
    let x := i % n
    let y := i / n
    if j % 4 = 3 ∧ ¬(a ≤ x ∧ x < a + m ∧ a ≤ y ∧ y < a + m) then 255 else 0⟩

/-- The opacity predicate of the ring: in bounds and not in the hole. -/
def ringO (a m : Nat) (x y : Int) : Bool :=
  decide (0 ≤ x ∧ x < ((m + 2 * a : Nat) : Int) ∧ 0 ≤ y ∧ y < ((m + 2 * a : Nat) : Int) ∧
    ¬((a : Int) ≤ x ∧ x < (a : Int) + (m : Int) ∧ (a : Int) ≤ y ∧ y < (a : Int) + (m : Int)))

theorem ringO_eq_false (a m : Nat) (x y : Int)
    (h : x < 0 ∨ ((m + 2 * a : Nat) : Int) ≤ x ∨ y < 0 ∨ ((m + 2 * a : Nat) : Int) ≤ y ∨
      ((a : Int) ≤ x ∧ x < (a : Int) + (m : Int) ∧ (a : Int) ≤ y ∧ y < (a : Int) + (m : Int))) :
    ringO a m x y = false := by
  unfold ringO
  rw [decide_eq_false_iff_not]
  omega

theorem ringO_eq_true (a m : Nat) (x y : Int)
    (h : 0 ≤ x ∧ x < ((m + 2 * a : Nat) : Int) ∧ 0 ≤ y ∧ y < ((m + 2 * a : Nat) : Int) ∧
      ¬((a : Int) ≤ x ∧ x < (a : Int) + (m : Int) ∧ (a : Int) ≤ y ∧ y < (a : Int) + (m : Int))) :
    ringO a m x y = true :=
  decide_eq_true h

/-- Pixel `t` of the clockwise perimeter walk of an `n`×`n` square. -/
def outerF (n : Nat) (t : Nat) : Int × Int :=
  if t < n then ((t : Int), 0)
  else if t < 2 * n - 1 then ((n : Int) - 1, (t : Int) - (n : Int) + 1)
  else if t < 3 * n - 2 then (3 * (n : Int) - 3 - (t : Int), (n : Int) - 1)
  else (0, 4 * (n : Int) - 4 - (t : Int))

/-- Direction entering pixel `t` of the perimeter walk. -/
def outerD (n : Nat) (t : Nat) : Nat :=
  if t = 0 then 0
  else if t < n then 2
  else if t < 2 * n - 1 then 4
  else if t < 3 * n - 2 then 6
  else 0

/-- Pixel `t` of the hole-boundary walk of the ring. -/
def innerF (a m : Nat) (t : Nat) : Int × Int :=
  if t = 0 then ((a : Int), (a : Int) - 1)
  else if t = 1 then ((a : Int) - 1, (a : Int) - 1)
  else if t < m + 2 then ((a : Int) - 1, (a : Int) + (t : Int) - 2)
  else if t = m + 2 then ((a : Int), (a : Int) + (m : Int))
  else if t < 2 * m + 2 then ((a : Int) + (t : Int) - (m : Int) - 2, (a : Int) + (m : Int))
  else if t = 2 * m + 2 then ((a : Int) + (m : Int), (a : Int) + (m : Int) - 1)
  else if t < 3 * m + 2 then ((a : Int) + (m : Int), (a : Int) + 3 * (m : Int) + 1 - (t : Int))
  else if t = 3 * m + 2 then ((a : Int) + (m : Int) - 1, (a : Int) - 1)
  else ((a : Int) + 4 * (m : Int) + 1 - (t : Int), (a : Int) - 1)

/-- Direction entering pixel `t` of the hole-boundary walk. -/
def innerD (m : Nat) (t : Nat) : Nat :=
  if t = 0 then 0
  else if t = 1 then 6
  else if t < m + 2 then 4
  else if t = m + 2 then 3
  else if t < 2 * m + 2 then 2
  else if t = 2 * m + 2 then 1
  else if t < 3 * m + 2 then 0
  else if t = 3 * m + 2 then 7
  else 6

/-- The full outer contour as a list. -/
def outerPathL (n : Nat) : List (Int × Int) :=
  (List.range (4 * n - 4)).map (outerF n)

/-- The full inner contour as a list. -/
def innerPathL (a m : Nat) : List (Int × Int) :=
  (List.range (4 * m + 1)).map (innerF a m)

theorem orElse_none_left {α : Type} (f : Unit → Option α) :
    (Option.none).orElse f = f () := rfl

theorem orElse_some_left {α : Type} (a : α) (f : Unit → Option α) :
    (Option.some a).orElse f = some a := rfl

theorem tryDir_eq_none (O : Int → Int → Bool) (cur : Int × Int) (k : Nat)
    (h : O (cur.1 + (moore k).1) (cur.2 + (moore k).2) = false) :
    tryDir O cur k = none := by
  simp [tryDir, h]

theorem tryDir_eq_some (O : Int → Int → Bool) (cur : Int × Int) (k : Nat)
    (h : O (cur.1 + (moore k).1) (cur.2 + (moore k).2) = true) :
    tryDir O cur k = some (k, (cur.1 + (moore k).1, cur.2 + (moore k).2)) := by
  simp [tryDir, h]

/-- `findStep` returns the first direction, in scan order, whose Moore
neighbor is opaque. -/
theorem findStep_eq_of (O : Int → Int → Bool) (cur : Int × Int) (d j : Nat)
    (hj : j < 8)
    (hbefore : ∀ i, i < j → O (cur.1 + (moore ((d + 6 + i) % 8)).1)
      (cur.2 + (moore ((d + 6 + i) % 8)).2) = false)
    (hhit : O (cur.1 + (moore ((d + 6 + j) % 8)).1)
      (cur.2 + (moore ((d + 6 + j) % 8)).2) = true) :
    findStep O cur d = some ((d + 6 + j) % 8,
      (cur.1 + (moore ((d + 6 + j) % 8)).1, cur.2 + (moore ((d + 6 + j) % 8)).2)) := by
  interval_cases j
  · have s0 := tryDir_eq_some O cur ((d + 6) % 8) hhit
    unfold findStep
    simp only [s0, orElse_some_left]
  · have t0 := tryDir_eq_none O cur ((d + 6) % 8) (hbefore 0 (by omega))
    have s1 := tryDir_eq_some O cur ((d + 7) % 8) hhit
    unfold findStep
    simp only [t0, s1, orElse_none_left, orElse_some_left]
  · have t0 := tryDir_eq_none O cur ((d + 6) % 8) (hbefore 0 (by omega))
    have t1 := tryDir_eq_none O cur ((d + 7) % 8) (hbefore 1 (by omega))
    have s2 := tryDir_eq_some O cur ((d + 8) % 8) hhit
    unfold findStep
    simp only [t0, t1, s2, orElse_none_left, orElse_some_left]
  · have t0 := tryDir_eq_none O cur ((d + 6) % 8) (hbefore 0 (by omega))
    have t1 := tryDir_eq_none O cur ((d + 7) % 8) (hbefore 1 (by omega))
    have t2 := tryDir_eq_none O cur ((d + 8) % 8) (hbefore 2 (by omega))
    have s3 := tryDir_eq_some O cur ((d + 9) % 8) hhit
    unfold findStep
    simp only [t0, t1, t2, s3, orElse_none_left, orElse_some_left]
  · have t0 := tryDir_eq_none O cur ((d + 6) % 8) (hbefore 0 (by omega))
    have t1 := tryDir_eq_none O cur ((d + 7) % 8) (hbefore 1 (by omega))
    have t2 := tryDir_eq_none O cur ((d + 8) % 8) (hbefore 2 (by omega))
    have t3 := tryDir_eq_none O cur ((d + 9) % 8) (hbefore 3 (by omega))
    have s4 := tryDir_eq_some O cur ((d + 10) % 8) hhit
    unfold findStep
    simp only [t0, t1, t2, t3, s4, orElse_none_left, orElse_some_left]
  · have t0 := tryDir_eq_none O cur ((d + 6) % 8) (hbefore 0 (by omega))
    have t1 := tryDir_eq_none O cur ((d + 7) % 8) (hbefore 1 (by omega))
    have t2 := tryDir_eq_none O cur ((d + 8) % 8) (hbefore 2 (by omega))
    have t3 := tryDir_eq_none O cur ((d + 9) % 8) (hbefore 3 (by omega))
    have t4 := tryDir_eq_none O cur ((d + 10) % 8) (hbefore 4 (by omega))
    have s5 := tryDir_eq_some O cur ((d + 11) % 8) hhit
    unfold findStep
    simp only [t0, t1, t2, t3, t4, s5, orElse_none_left, orElse_some_left]
  · have t0 := tryDir_eq_none O cur ((d + 6) % 8) (hbefore 0 (by omega))
    have t1 := tryDir_eq_none O cur ((d + 7) % 8) (hbefore 1 (by omega))
    have t2 := tryDir_eq_none O cur ((d + 8) % 8) (hbefore 2 (by omega))
    have t3 := tryDir_eq_none O cur ((d + 9) % 8) (hbefore 3 (by omega))
    have t4 := tryDir_eq_none O cur ((d + 10) % 8) (hbefore 4 (by omega))
    have t5 := tryDir_eq_none O cur ((d + 11) % 8) (hbefore 5 (by omega))
    have s6 := tryDir_eq_some O cur ((d + 12) % 8) hhit
    unfold findStep
    simp only [t0, t1, t2, t3, t4, t5, s6, orElse_none_left, orElse_some_left]
  · have t0 := tryDir_eq_none O cur ((d + 6) % 8) (hbefore 0 (by omega))
    have t1 := tryDir_eq_none O cur ((d + 7) % 8) (hbefore 1 (by omega))
    have t2 := tryDir_eq_none O cur ((d + 8) % 8) (hbefore 2 (by omega))
    have t3 := tryDir_eq_none O cur ((d + 9) % 8) (hbefore 3 (by omega))
    have t4 := tryDir_eq_none O cur ((d + 10) % 8) (hbefore 4 (by omega))
    have t5 := tryDir_eq_none O cur ((d + 11) % 8) (hbefore 5 (by omega))
    have t6 := tryDir_eq_none O cur ((d + 12) % 8) (hbefore 6 (by omega))
    have s7 := tryDir_eq_some O cur ((d + 13) % 8) hhit
    unfold findStep
    simp only [t0, t1, t2, t3, t4, t5, t6, s7, orElse_none_left, orElse_some_left]

/-- A boundary walk that follows a precomputed closed trajectory produces
exactly that trajectory. -/
theorem walk_seg (O : Int → Int → Bool) (start : Int × Int)
    (f : Nat → Int × Int) (ds : Nat → Nat) (L : Nat)
    (hstep : ∀ t, t + 1 < L → findStep O (f t) (ds t) = some (ds (t + 1), f (t + 1)))
    (hne : ∀ t, t < L → t ≠ 0 → f t ≠ start)
    (hlast : ∃ d2, findStep O (f (L - 1)) (ds (L - 1)) = some (d2, start)) :
    ∀ fuel t, t < L → L ≤ t + fuel →
      walkFrom O start fuel (f t) (ds t) =
        (List.range (L - t)).map (fun j => f (t + j)) := by
  intro fuel
  induction fuel with
  | zero => intro t ht hfl; omega
  | succ fl ih =>
    intro t ht hfl
    rw [walkFrom]
    by_cases hT : t + 1 < L
    · rw [hstep t hT]
      have hne1 : ¬(f (t + 1) = start) := hne (t + 1) hT (by omega)
      show f t :: (if f (t + 1) = start then []
        else walkFrom O start fl (f (t + 1)) (ds (t + 1))) = _
      rw [if_neg hne1, ih (t + 1) hT (by omega)]
      have hLt : L - t = (L - (t + 1)) + 1 := by omega
      rw [hLt, List.range_succ_eq_map, List.map_cons, List.map_map]
      congr 1
      apply List.map_congr_left
      intro j hj
      show f (t + 1 + j) = f (t + (j + 1))
      exact congrArg f (by omega)
    · have hteq : t = L - 1 := by omega
      obtain ⟨d2, hl⟩ := hlast
      rw [← hteq] at hl
      rw [hl]
      show f t :: (if start = start then []
        else walkFrom O start fl start d2) = _
      rw [if_pos rfl]
      have h1 : L - t = 1 := by omega
      rw [h1]
      rfl

/-- `if_pos` under a shorter local name, to keep rewrite chains compact. -/
theorem ifp {c : Prop} [Decidable c] {α : Type _} {t e : α} (h : c) :
    (if c then t else e) = t := if_pos h

/-- `if_neg` under a shorter local name, to keep rewrite chains compact. -/
theorem ifn {c : Prop} [Decidable c] {α : Type _} {t e : α} (h : ¬c) :
    (if c then t else e) = e := if_neg h

/-- Each step of the perimeter walk follows `outerF`/`outerD`. -/
theorem outer_step (a m n : Nat) (hn : n = m + 2 * a) (ha : 2 ≤ a) (hm : 3 ≤ m) :
    ∀ t, t + 1 < 4 * n - 4 →
      findStep (ringO a m) (outerF n t) (outerD n t) =
        some (outerD n (t + 1), outerF n (t + 1)) := by
  intro t ht
  have hreg : t = 0 ∨ (1 ≤ t ∧ t ≤ n - 2) ∨ t = n - 1 ∨ (n ≤ t ∧ t ≤ 2*n - 3) ∨
      t = 2*n - 2 ∨ (2*n - 1 ≤ t ∧ t ≤ 3*n - 4) ∨ t = 3*n - 3 ∨
      (3*n - 2 ≤ t ∧ t ≤ 4*n - 6) := by omega
  rcases hreg with h0 | ⟨h1, h2⟩ | h0 | ⟨h1, h2⟩ | h0 | ⟨h1, h2⟩ | h0 | ⟨h1, h2⟩
  · subst h0
    have hF : outerF n 0 = ((0 : Int), 0) := by
      unfold outerF; rw [ifp (by omega)]; norm_num
    have hD : outerD n 0 = 0 := by unfold outerD; rw [ifp rfl]
    have hF1 : outerF n 1 = (((1 : Nat) : Int), 0) := by unfold outerF; rw [ifp (by omega)]
    have hD1 : outerD n 1 = 2 := by
      unfold outerD; rw [ifn (by omega), ifp (by omega)]
    rw [hF, hD, hF1, hD1]
    have hfs := findStep_eq_of (ringO a m) ((0 : Int), (0 : Int)) 0 4 (by omega)
      (by intro i hi
          interval_cases i <;>
            (norm_num [moore]; exact ringO_eq_false a m _ _ (by omega)))
      (by norm_num [moore]; exact ringO_eq_true a m _ _ (by omega))
    rw [hfs]
    norm_num [moore, Prod.mk.injEq]
    all_goals omega
  · have hF : outerF n t = (((t : Nat) : Int), 0) := by unfold outerF; rw [ifp (by omega)]
    have hD : outerD n t = 2 := by unfold outerD; rw [ifn (by omega), ifp (by omega)]
    have hF1 : outerF n (t + 1) = (((t + 1 : Nat) : Int), 0) := by
      unfold outerF; rw [ifp (by omega)]
    have hD1 : outerD n (t + 1) = 2 := by
      unfold outerD; rw [ifn (by omega), ifp (by omega)]
    rw [hF, hD, hF1, hD1]
    have hfs := findStep_eq_of (ringO a m) (((t : Nat) : Int), (0 : Int)) 2 2 (by omega)
      (by intro i hi
          interval_cases i <;>
            (norm_num [moore]; exact ringO_eq_false a m _ _ (by omega)))
      (by norm_num [moore]; exact ringO_eq_true a m _ _ (by omega))
    rw [hfs]
    norm_num [moore, Prod.mk.injEq]
    all_goals omega
  · subst h0
    have hF : outerF n (n - 1) = (((n - 1 : Nat) : Int), 0) := by
      unfold outerF; rw [ifp (by omega)]
    have hD : outerD n (n - 1) = 2 := by
      unfold outerD; rw [ifn (by omega), ifp (by omega)]
    have hF1 : outerF n (n - 1 + 1) = ((n : Int) - 1, ((n - 1 + 1 : Nat) : Int) - (n : Int) + 1) := by
      unfold outerF; rw [ifn (by omega), ifp (by omega)]
    have hD1 : outerD n (n - 1 + 1) = 4 := by
      unfold outerD; rw [ifn (by omega), ifn (by omega), ifp (by omega)]
    rw [hF, hD, hF1, hD1]
    have hfs := findStep_eq_of (ringO a m) (((n - 1 : Nat) : Int), (0 : Int)) 2 4 (by omega)
      (by intro i hi
          interval_cases i <;>
            (norm_num [moore]; exact ringO_eq_false a m _ _ (by omega)))
      (by norm_num [moore]; exact ringO_eq_true a m _ _ (by omega))
    rw [hfs]
    norm_num [moore, Prod.mk.injEq]
    all_goals omega
  · have hF : outerF n t = ((n : Int) - 1, ((t : Nat) : Int) - (n : Int) + 1) := by
      unfold outerF; rw [ifn (by omega), ifp (by omega)]
    have hD : outerD n t = 4 := by
      unfold outerD; rw [ifn (by omega), ifn (by omega), ifp (by omega)]
    have hF1 : outerF n (t + 1) = ((n : Int) - 1, ((t + 1 : Nat) : Int) - (n : Int) + 1) := by
      unfold outerF; rw [ifn (by omega), ifp (by omega)]
    have hD1 : outerD n (t + 1) = 4 := by
      unfold outerD; rw [ifn (by omega), ifn (by omega), ifp (by omega)]
    rw [hF, hD, hF1, hD1]
    have hfs := findStep_eq_of (ringO a m) ((n : Int) - 1, ((t : Nat) : Int) - (n : Int) + 1)
      4 2 (by omega)
      (by intro i hi
          interval_cases i <;>
            (norm_num [moore]; exact ringO_eq_false a m _ _ (by omega)))
      (by norm_num [moore]; exact ringO_eq_true a m _ _ (by omega))
    rw [hfs]
    norm_num [moore, Prod.mk.injEq]
    all_goals omega
  · subst h0
    have hF : outerF n (2*n - 2) = ((n : Int) - 1, ((2*n - 2 : Nat) : Int) - (n : Int) + 1) := by
      unfold outerF; rw [ifn (by omega), ifp (by omega)]
    have hD : outerD n (2*n - 2) = 4 := by
      unfold outerD; rw [ifn (by omega), ifn (by omega), ifp (by omega)]
    have hF1 : outerF n (2*n - 2 + 1) = (3 * (n : Int) - 3 - ((2*n - 2 + 1 : Nat) : Int), (n : Int) - 1) := by
      unfold outerF; rw [ifn (by omega), ifn (by omega), ifp (by omega)]
    have hD1 : outerD n (2*n - 2 + 1) = 6 := by
      unfold outerD
      rw [ifn (by omega), ifn (by omega), ifn (by omega), ifp (by omega)]
    rw [hF, hD, hF1, hD1]
    have hfs := findStep_eq_of (ringO a m)
      ((n : Int) - 1, ((2*n - 2 : Nat) : Int) - (n : Int) + 1) 4 4 (by omega)
      (by intro i hi
          interval_cases i <;>
            (norm_num [moore]; exact ringO_eq_false a m _ _ (by omega)))
      (by norm_num [moore]; exact ringO_eq_true a m _ _ (by omega))
    rw [hfs]
    norm_num [moore, Prod.mk.injEq]
    all_goals omega
  · have hF : outerF n t = (3 * (n : Int) - 3 - ((t : Nat) : Int), (n : Int) - 1) := by
      unfold outerF; rw [ifn (by omega), ifn (by omega), ifp (by omega)]
    have hD : outerD n t = 6 := by
      unfold outerD
      rw [ifn (by omega), ifn (by omega), ifn (by omega), ifp (by omega)]
    have hF1 : outerF n (t + 1) = (3 * (n : Int) - 3 - ((t + 1 : Nat) : Int), (n : Int) - 1) := by
      unfold outerF; rw [ifn (by omega), ifn (by omega), ifp (by omega)]
    have hD1 : outerD n (t + 1) = 6 := by
      unfold outerD
      rw [ifn (by omega), ifn (by omega), ifn (by omega), ifp (by omega)]
    rw [hF, hD, hF1, hD1]
    have hfs := findStep_eq_of (ringO a m)
      (3 * (n : Int) - 3 - ((t : Nat) : Int), (n : Int) - 1) 6 2 (by omega)
      (by intro i hi
          interval_cases i <;>
            (norm_num [moore]; exact ringO_eq_false a m _ _ (by omega)))
      (by norm_num [moore]; exact ringO_eq_true a m _ _ (by omega))
    rw [hfs]
    norm_num [moore, Prod.mk.injEq]
    all_goals omega
  · subst h0
    have hF : outerF n (3*n - 3) = (3 * (n : Int) - 3 - ((3*n - 3 : Nat) : Int), (n : Int) - 1) := by
      unfold outerF; rw [ifn (by omega), ifn (by omega), ifp (by omega)]
    have hD : outerD n (3*n - 3) = 6 := by
      unfold outerD
      rw [ifn (by omega), ifn (by omega), ifn (by omega), ifp (by omega)]
    have hF1 : outerF n (3*n - 3 + 1) = ((0 : Int), 4 * (n : Int) - 4 - ((3*n - 3 + 1 : Nat) : Int)) := by
      unfold outerF; rw [ifn (by omega), ifn (by omega), ifn (by omega)]
    have hD1 : outerD n (3*n - 3 + 1) = 0 := by
      unfold outerD
      rw [ifn (by omega), ifn (by omega), ifn (by omega), ifn (by omega)]
    rw [hF, hD, hF1, hD1]
    have hfs := findStep_eq_of (ringO a m)
      (3 * (n : Int) - 3 - ((3*n - 3 : Nat) : Int), (n : Int) - 1) 6 4 (by omega)
      (by intro i hi
          interval_cases i <;>
            (norm_num [moore]; exact ringO_eq_false a m _ _ (by omega)))
      (by norm_num [moore]; exact ringO_eq_true a m _ _ (by omega))
    rw [hfs]
    norm_num [moore, Prod.mk.injEq]
    all_goals omega
  · have hF : outerF n t = ((0 : Int), 4 * (n : Int) - 4 - ((t : Nat) : Int)) := by
      unfold outerF; rw [ifn (by omega), ifn (by omega), ifn (by omega)]
    have hD : outerD n t = 0 := by
      unfold outerD
      rw [ifn (by omega), ifn (by omega), ifn (by omega), ifn (by omega)]
    have hF1 : outerF n (t + 1) = ((0 : Int), 4 * (n : Int) - 4 - ((t + 1 : Nat) : Int)) := by
      unfold outerF; rw [ifn (by omega), ifn (by omega), ifn (by omega)]
    have hD1 : outerD n (t + 1) = 0 := by
      unfold outerD
      rw [ifn (by omega), ifn (by omega), ifn (by omega), ifn (by omega)]
    rw [hF, hD, hF1, hD1]
    have hfs := findStep_eq_of (ringO a m)
      ((0 : Int), 4 * (n : Int) - 4 - ((t : Nat) : Int)) 0 2 (by omega)
      (by intro i hi
          interval_cases i <;>
            (norm_num [moore]; exact ringO_eq_false a m _ _ (by omega)))
      (by norm_num [moore]; exact ringO_eq_true a m _ _ (by omega))
    rw [hfs]
    norm_num [moore, Prod.mk.injEq]
    all_goals omega

/-- No later pixel of the perimeter walk returns to the corner early. -/
theorem outer_ne (n : Nat) (hn7 : 7 ≤ n) :
    ∀ t, t < 4 * n - 4 → t ≠ 0 → outerF n t ≠ ((0 : Int), 0) := by
  intro t ht ht0 heq
  unfold outerF at heq
  split_ifs at heq with c1 c2 c3 <;>
    (rw [Prod.mk.injEq] at heq; omega)

/-- The last perimeter pixel steps back to the corner. -/
theorem outer_last (a m n : Nat) (hn : n = m + 2 * a) (ha : 2 ≤ a) (hm : 3 ≤ m) :
    ∃ d2, findStep (ringO a m) (outerF n (4 * n - 4 - 1)) (outerD n (4 * n - 4 - 1)) =
      some (d2, ((0 : Int), 0)) := by
  refine ⟨(0 + 6 + 2) % 8, ?_⟩
  have hF : outerF n (4*n - 4 - 1) = ((0 : Int), 4 * (n : Int) - 4 - ((4*n - 4 - 1 : Nat) : Int)) := by
    unfold outerF; rw [ifn (by omega), ifn (by omega), ifn (by omega)]
  have hD : outerD n (4*n - 4 - 1) = 0 := by
    unfold outerD
    rw [ifn (by omega), ifn (by omega), ifn (by omega), ifn (by omega)]
  rw [hF, hD]
  have hfs := findStep_eq_of (ringO a m)
    ((0 : Int), 4 * (n : Int) - 4 - ((4*n - 4 - 1 : Nat) : Int)) 0 2 (by omega)
    (by intro i hi
        interval_cases i <;>
          (norm_num [moore]; exact ringO_eq_false a m _ _ (by omega)))
    (by norm_num [moore]; exact ringO_eq_true a m _ _ (by omega))
  rw [hfs]
  norm_num [moore, Prod.mk.injEq]
  all_goals omega

/-- The boundary walk from the top-left corner of the ring traces the full
perimeter. -/
theorem outer_walk (a m n : Nat) (hn : n = m + 2 * a) (ha : 2 ≤ a) (hm : 3 ≤ m)
    (fuel : Nat) (hfuel : 4 * n - 4 ≤ fuel) :
    walkFrom (ringO a m) ((0 : Int), 0) fuel ((0 : Int), 0) 0 = outerPathL n := by
  have h := walk_seg (ringO a m) ((0 : Int), 0) (outerF n) (outerD n) (4 * n - 4)
    (outer_step a m n hn ha hm) (outer_ne n (by omega)) (outer_last a m n hn ha hm)
    fuel 0 (by omega) (by omega)
  have hF : outerF n 0 = ((0 : Int), 0) := by
    unfold outerF; rw [ifp (by omega)]; norm_num
  have hD : outerD n 0 = 0 := by unfold outerD; rw [ifp rfl]
  rw [hF, hD] at h
  rw [h]
  unfold outerPathL
  apply List.map_congr_left
  intro j hj
  exact congrArg (outerF n) (by omega)

/-- Each step of the hole-boundary walk follows `innerF`/`innerD`. -/
theorem inner_step (a m n : Nat) (hn : n = m + 2 * a) (ha : 2 ≤ a) (hm : 3 ≤ m) :
    ∀ t, t + 1 < 4 * m + 1 →
      findStep (ringO a m) (innerF a m t) (innerD m t) =
        some (innerD m (t + 1), innerF a m (t + 1)) := by
  intro t ht
  have hreg : t = 0 ∨ t = 1 ∨ (2 ≤ t ∧ t ≤ m) ∨ t = m + 1 ∨ t = m + 2 ∨
      (m + 3 ≤ t ∧ t ≤ 2*m) ∨ t = 2*m + 1 ∨ t = 2*m + 2 ∨
      (2*m + 3 ≤ t ∧ t ≤ 3*m) ∨ t = 3*m + 1 ∨ t = 3*m + 2 ∨
      (3*m + 3 ≤ t ∧ t ≤ 4*m - 1) := by omega
  rcases hreg with h0 | h0 | ⟨h1, h2⟩ | h0 | h0 | ⟨h1, h2⟩ | h0 | h0 | ⟨h1, h2⟩ | h0 | h0 | ⟨h1, h2⟩
  · subst h0
    have hF : innerF a m 0 = ((a : Int), (a : Int) - 1) := by
      unfold innerF; rw [ifp rfl]
    have hD : innerD m 0 = 0 := by unfold innerD; rw [ifp rfl]
    have hF1 : innerF a m 1 = ((a : Int) - 1, (a : Int) - 1) := by
      unfold innerF; rw [ifn (by omega), ifp rfl]
    have hD1 : innerD m 1 = 6 := by
      unfold innerD; rw [ifn (by omega), ifp rfl]
    rw [hF, hD, hF1, hD1]
    have hfs := findStep_eq_of (ringO a m) ((a : Int), (a : Int) - 1) 0 0 (by omega)
      (by intro i hi; exact absurd hi (by omega))
      (by norm_num [moore]; exact ringO_eq_true a m _ _ (by omega))
    rw [hfs]
    norm_num [moore, Prod.mk.injEq]
    all_goals omega
  · subst h0
    have hF : innerF a m 1 = ((a : Int) - 1, (a : Int) - 1) := by
      unfold innerF; rw [ifn (by omega), ifp rfl]
    have hD : innerD m 1 = 6 := by
      unfold innerD; rw [ifn (by omega), ifp rfl]
    have hF1 : innerF a m 2 = ((a : Int) - 1, (a : Int) + ((2 : Nat) : Int) - 2) := by
      unfold innerF; rw [ifn (by omega), ifn (by omega), ifp (by omega)]
    have hD1 : innerD m 2 = 4 := by
      unfold innerD; rw [ifn (by omega), ifn (by omega), ifp (by omega)]
    rw [hF, hD, hF1, hD1]
    have hfs := findStep_eq_of (ringO a m) ((a : Int) - 1, (a : Int) - 1) 6 0 (by omega)
      (by intro i hi; exact absurd hi (by omega))
      (by norm_num [moore]; exact ringO_eq_true a m _ _ (by omega))
    rw [hfs]
    norm_num [moore, Prod.mk.injEq]
    all_goals omega
  ·
    have hF : innerF a m t = ((a : Int) - 1, (a : Int) + ((t : Nat) : Int) - 2) := by
      unfold innerF; rw [ifn (by omega), ifn (by omega), ifp (by omega)]
    have hD : innerD m t = 4 := by
      unfold innerD; rw [ifn (by omega), ifn (by omega), ifp (by omega)]
    have hF1 : innerF a m (t + 1) = ((a : Int) - 1, (a : Int) + ((t + 1 : Nat) : Int) - 2) := by
      unfold innerF; rw [ifn (by omega), ifn (by omega), ifp (by omega)]
    have hD1 : innerD m (t + 1) = 4 := by
      unfold innerD; rw [ifn (by omega), ifn (by omega), ifp (by omega)]
    rw [hF, hD, hF1, hD1]
    have hfs := findStep_eq_of (ringO a m)
      ((a : Int) - 1, (a : Int) + ((t : Nat) : Int) - 2) 4 2 (by omega)
      (by intro i hi
          interval_cases i <;>
            (norm_num [moore]; exact ringO_eq_false a m _ _ (by omega)))
      (by norm_num [moore]; exact ringO_eq_true a m _ _ (by omega))
    rw [hfs]
    norm_num [moore, Prod.mk.injEq]
    all_goals omega
  · subst h0
    have hF : innerF a m (m + 1) = ((a : Int) - 1, (a : Int) + ((m + 1 : Nat) : Int) - 2) := by
      unfold innerF; rw [ifn (by omega), ifn (by omega), ifp (by omega)]
    have hD : innerD m (m + 1) = 4 := by
      unfold innerD; rw [ifn (by omega), ifn (by omega), ifp (by omega)]
    have hF1 : innerF a m (m + 1 + 1) = ((a : Int), (a : Int) + (m : Int)) := by
      unfold innerF
      rw [ifn (by omega), ifn (by omega), ifn (by omega), ifp (by omega)]
    have hD1 : innerD m (m + 1 + 1) = 3 := by
      unfold innerD
      rw [ifn (by omega), ifn (by omega), ifn (by omega), ifp (by omega)]
    rw [hF, hD, hF1, hD1]
    have hfs := findStep_eq_of (ringO a m)
      ((a : Int) - 1, (a : Int) + ((m + 1 : Nat) : Int) - 2) 4 1 (by omega)
      (by intro i hi
          interval_cases i <;>
            (norm_num [moore]; exact ringO_eq_false a m _ _ (by omega)))
      (by norm_num [moore]; exact ringO_eq_true a m _ _ (by omega))
    rw [hfs]
    norm_num [moore, Prod.mk.injEq]
    all_goals omega
  · subst h0
    have hF : innerF a m (m + 2) = ((a : Int), (a : Int) + (m : Int)) := by
      unfold innerF
      rw [ifn (by omega), ifn (by omega), ifn (by omega), ifp (by omega)]
    have hD : innerD m (m + 2) = 3 := by
      unfold innerD
      rw [ifn (by omega), ifn (by omega), ifn (by omega), ifp (by omega)]
    have hF1 : innerF a m (m + 2 + 1) =
        ((a : Int) + ((m + 2 + 1 : Nat) : Int) - (m : Int) - 2, (a : Int) + (m : Int)) := by
      unfold innerF
      rw [ifn (by omega), ifn (by omega), ifn (by omega), ifn (by omega),
        ifp (by omega)]
    have hD1 : innerD m (m + 2 + 1) = 2 := by
      unfold innerD
      rw [ifn (by omega), ifn (by omega), ifn (by omega), ifn (by omega),
        ifp (by omega)]
    rw [hF, hD, hF1, hD1]
    have hfs := findStep_eq_of (ringO a m) ((a : Int), (a : Int) + (m : Int)) 3 1 (by omega)
      (by intro i hi
          interval_cases i <;>
            (norm_num [moore]; exact ringO_eq_false a m _ _ (by omega)))
      (by norm_num [moore]; exact ringO_eq_true a m _ _ (by omega))
    rw [hfs]
    norm_num [moore, Prod.mk.injEq]
    all_goals omega
  ·
    have hF : innerF a m t =
        ((a : Int) + ((t : Nat) : Int) - (m : Int) - 2, (a : Int) + (m : Int)) := by
      unfold innerF
      rw [ifn (by omega), ifn (by omega), ifn (by omega), ifn (by omega),
        ifp (by omega)]
    have hD : innerD m t = 2 := by
      unfold innerD
      rw [ifn (by omega), ifn (by omega), ifn (by omega), ifn (by omega),
        ifp (by omega)]
    have hF1 : innerF a m (t + 1) =
        ((a : Int) + ((t + 1 : Nat) : Int) - (m : Int) - 2, (a : Int) + (m : Int)) := by
      unfold innerF
      rw [ifn (by omega), ifn (by omega), ifn (by omega), ifn (by omega),
        ifp (by omega)]
    have hD1 : innerD m (t + 1) = 2 := by
      unfold innerD
      rw [ifn (by omega), ifn (by omega), ifn (by omega), ifn (by omega),
        ifp (by omega)]
    rw [hF, hD, hF1, hD1]
    have hfs := findStep_eq_of (ringO a m)
      ((a : Int) + ((t : Nat) : Int) - (m : Int) - 2, (a : Int) + (m : Int)) 2 2 (by omega)
      (by intro i hi
          interval_cases i <;>
            (norm_num [moore]; exact ringO_eq_false a m _ _ (by omega)))
      (by norm_num [moore]; exact ringO_eq_true a m _ _ (by omega))
    rw [hfs]
    norm_num [moore, Prod.mk.injEq]
    all_goals omega
  · subst h0
    have hF : innerF a m (2*m + 1) =
        ((a : Int) + ((2*m + 1 : Nat) : Int) - (m : Int) - 2, (a : Int) + (m : Int)) := by
      unfold innerF
      rw [ifn (by omega), ifn (by omega), ifn (by omega), ifn (by omega),
        ifp (by omega)]
    have hD : innerD m (2*m + 1) = 2 := by
      unfold innerD
      rw [ifn (by omega), ifn (by omega), ifn (by omega), ifn (by omega),
        ifp (by omega)]
    have hF1 : innerF a m (2*m + 1 + 1) = ((a : Int) + (m : Int), (a : Int) + (m : Int) - 1) := by
      unfold innerF
      rw [ifn (by omega), ifn (by omega), ifn (by omega), ifn (by omega),
        ifn (by omega), ifp (by omega)]
    have hD1 : innerD m (2*m + 1 + 1) = 1 := by
      unfold innerD
      rw [ifn (by omega), ifn (by omega), ifn (by omega), ifn (by omega),
        ifn (by omega), ifp (by omega)]
    rw [hF, hD, hF1, hD1]
    have hfs := findStep_eq_of (ringO a m)
      ((a : Int) + ((2*m + 1 : Nat) : Int) - (m : Int) - 2, (a : Int) + (m : Int)) 2 1 (by omega)
      (by intro i hi
          interval_cases i <;>
            (norm_num [moore]; exact ringO_eq_false a m _ _ (by omega)))
      (by norm_num [moore]; exact ringO_eq_true a m _ _ (by omega))
    rw [hfs]
    norm_num [moore, Prod.mk.injEq]
    all_goals omega
  · subst h0
    have hF : innerF a m (2*m + 2) = ((a : Int) + (m : Int), (a : Int) + (m : Int) - 1) := by
      unfold innerF
      rw [ifn (by omega), ifn (by omega), ifn (by omega), ifn (by omega),
        ifn (by omega), ifp (by omega)]
    have hD : innerD m (2*m + 2) = 1 := by
      unfold innerD
      rw [ifn (by omega), ifn (by omega), ifn (by omega), ifn (by omega),
        ifn (by omega), ifp (by omega)]
    have hF1 : innerF a m (2*m + 2 + 1) =
        ((a : Int) + (m : Int), (a : Int) + 3 * (m : Int) + 1 - ((2*m + 2 + 1 : Nat) : Int)) := by
      unfold innerF
      rw [ifn (by omega), ifn (by omega), ifn (by omega), ifn (by omega),
        ifn (by omega), ifn (by omega), ifp (by omega)]
    have hD1 : innerD m (2*m + 2 + 1) = 0 := by
      unfold innerD
      rw [ifn (by omega), ifn (by omega), ifn (by omega), ifn (by omega),
        ifn (by omega), ifn (by omega), ifp (by omega)]
    rw [hF, hD, hF1, hD1]
    have hfs := findStep_eq_of (ringO a m)
      ((a : Int) + (m : Int), (a : Int) + (m : Int) - 1) 1 1 (by omega)
      (by intro i hi
          interval_cases i <;>
            (norm_num [moore]; exact ringO_eq_false a m _ _ (by omega)))
      (by norm_num [moore]; exact ringO_eq_true a m _ _ (by omega))
    rw [hfs]
    norm_num [moore, Prod.mk.injEq]
    all_goals omega
  ·
    have hF : innerF a m t =
        ((a : Int) + (m : Int), (a : Int) + 3 * (m : Int) + 1 - ((t : Nat) : Int)) := by
      unfold innerF
      rw [ifn (by omega), ifn (by omega), ifn (by omega), ifn (by omega),
        ifn (by omega), ifn (by omega), ifp (by omega)]
    have hD : innerD m t = 0 := by
      unfold innerD
      rw [ifn (by omega), ifn (by omega), ifn (by omega), ifn (by omega),
        ifn (by omega), ifn (by omega), ifp (by omega)]
    have hF1 : innerF a m (t + 1) =
        ((a : Int) + (m : Int), (a : Int) + 3 * (m : Int) + 1 - ((t + 1 : Nat) : Int)) := by
      unfold innerF
      rw [ifn (by omega), ifn (by omega), ifn (by omega), ifn (by omega),
        ifn (by omega), ifn (by omega), ifp (by omega)]
    have hD1 : innerD m (t + 1) = 0 := by
      unfold innerD
      rw [ifn (by omega), ifn (by omega), ifn (by omega), ifn (by omega),
        ifn (by omega), ifn (by omega), ifp (by omega)]
    rw [hF, hD, hF1, hD1]
    have hfs := findStep_eq_of (ringO a m)
      ((a : Int) + (m : Int), (a : Int) + 3 * (m : Int) + 1 - ((t : Nat) : Int)) 0 2 (by omega)
      (by intro i hi
          interval_cases i <;>
            (norm_num [moore]; exact ringO_eq_false a m _ _ (by omega)))
      (by norm_num [moore]; exact ringO_eq_true a m _ _ (by omega))
    rw [hfs]
    norm_num [moore, Prod.mk.injEq]
    all_goals omega
  · subst h0
    have hF : innerF a m (3*m + 1) =
        ((a : Int) + (m : Int), (a : Int) + 3 * (m : Int) + 1 - ((3*m + 1 : Nat) : Int)) := by
      unfold innerF
      rw [ifn (by omega), ifn (by omega), ifn (by omega), ifn (by omega),
        ifn (by omega), ifn (by omega), ifp (by omega)]
    have hD : innerD m (3*m + 1) = 0 := by
      unfold innerD
      rw [ifn (by omega), ifn (by omega), ifn (by omega), ifn (by omega),
        ifn (by omega), ifn (by omega), ifp (by omega)]
    have hF1 : innerF a m (3*m + 1 + 1) = ((a : Int) + (m : Int) - 1, (a : Int) - 1) := by
      unfold innerF
      rw [ifn (by omega), ifn (by omega), ifn (by omega), ifn (by omega),
        ifn (by omega), ifn (by omega), ifn (by omega), ifp (by omega)]
    have hD1 : innerD m (3*m + 1 + 1) = 7 := by
      unfold innerD
      rw [ifn (by omega), ifn (by omega), ifn (by omega), ifn (by omega),
        ifn (by omega), ifn (by omega), ifn (by omega), ifp (by omega)]
    rw [hF, hD, hF1, hD1]
    have hfs := findStep_eq_of (ringO a m)
      ((a : Int) + (m : Int), (a : Int) + 3 * (m : Int) + 1 - ((3*m + 1 : Nat) : Int)) 0 1 (by omega)
      (by intro i hi
          interval_cases i <;>
            (norm_num [moore]; exact ringO_eq_false a m _ _ (by omega)))
      (by norm_num [moore]; exact ringO_eq_true a m _ _ (by omega))
    rw [hfs]
    norm_num [moore, Prod.mk.injEq]
    all_goals omega
  · subst h0
    have hF : innerF a m (3*m + 2) = ((a : Int) + (m : Int) - 1, (a : Int) - 1) := by
      unfold innerF
      rw [ifn (by omega), ifn (by omega), ifn (by omega), ifn (by omega),
        ifn (by omega), ifn (by omega), ifn (by omega), ifp (by omega)]
    have hD : innerD m (3*m + 2) = 7 := by
      unfold innerD
      rw [ifn (by omega), ifn (by omega), ifn (by omega), ifn (by omega),
        ifn (by omega), ifn (by omega), ifn (by omega), ifp (by omega)]
    have hF1 : innerF a m (3*m + 2 + 1) =
        ((a : Int) + 4 * (m : Int) + 1 - ((3*m + 2 + 1 : Nat) : Int), (a : Int) - 1) := by
      unfold innerF
      rw [ifn (by omega), ifn (by omega), ifn (by omega), ifn (by omega),
        ifn (by omega), ifn (by omega), ifn (by omega), ifn (by omega)]
    have hD1 : innerD m (3*m + 2 + 1) = 6 := by
      unfold innerD
      rw [ifn (by omega), ifn (by omega), ifn (by omega), ifn (by omega),
        ifn (by omega), ifn (by omega), ifn (by omega), ifn (by omega)]
    rw [hF, hD, hF1, hD1]
    have hfs := findStep_eq_of (ringO a m)
      ((a : Int) + (m : Int) - 1, (a : Int) - 1) 7 1 (by omega)
      (by intro i hi
          interval_cases i <;>
            (norm_num [moore]; exact ringO_eq_false a m _ _ (by omega)))
      (by norm_num [moore]; exact ringO_eq_true a m _ _ (by omega))
    rw [hfs]
    norm_num [moore, Prod.mk.injEq]
    all_goals omega
  ·
    have hF : innerF a m t =
        ((a : Int) + 4 * (m : Int) + 1 - ((t : Nat) : Int), (a : Int) - 1) := by
      unfold innerF
      rw [ifn (by omega), ifn (by omega), ifn (by omega), ifn (by omega),
        ifn (by omega), ifn (by omega), ifn (by omega), ifn (by omega)]
    have hD : innerD m t = 6 := by
      unfold innerD
      rw [ifn (by omega), ifn (by omega), ifn (by omega), ifn (by omega),
        ifn (by omega), ifn (by omega), ifn (by omega), ifn (by omega)]
    have hF1 : innerF a m (t + 1) =
        ((a : Int) + 4 * (m : Int) + 1 - ((t + 1 : Nat) : Int), (a : Int) - 1) := by
      unfold innerF
      rw [ifn (by omega), ifn (by omega), ifn (by omega), ifn (by omega),
        ifn (by omega), ifn (by omega), ifn (by omega), ifn (by omega)]
    have hD1 : innerD m (t + 1) = 6 := by
      unfold innerD
      rw [ifn (by omega), ifn (by omega), ifn (by omega), ifn (by omega),
        ifn (by omega), ifn (by omega), ifn (by omega), ifn (by omega)]
    rw [hF, hD, hF1, hD1]
    have hfs := findStep_eq_of (ringO a m)
      ((a : Int) + 4 * (m : Int) + 1 - ((t : Nat) : Int), (a : Int) - 1) 6 2 (by omega)
      (by intro i hi
          interval_cases i <;>
            (norm_num [moore]; exact ringO_eq_false a m _ _ (by omega)))
      (by norm_num [moore]; exact ringO_eq_true a m _ _ (by omega))
    rw [hfs]
    norm_num [moore, Prod.mk.injEq]
    all_goals omega

/-- No later pixel of the hole walk returns to its start early. -/
theorem inner_ne (a m : Nat) (ha : 2 ≤ a) (hm : 3 ≤ m) :
    ∀ t, t < 4 * m + 1 → t ≠ 0 → innerF a m t ≠ ((a : Int), (a : Int) - 1) := by
  intro t ht ht0 heq
  unfold innerF at heq
  split_ifs at heq <;>
    (rw [Prod.mk.injEq] at heq; omega)

/-- The last hole-walk pixel steps back to its start. -/
theorem inner_last (a m n : Nat) (hn : n = m + 2 * a) (ha : 2 ≤ a) (hm : 3 ≤ m) :
    ∃ d2, findStep (ringO a m) (innerF a m (4 * m + 1 - 1)) (innerD m (4 * m + 1 - 1)) =
      some (d2, ((a : Int), (a : Int) - 1)) := by
  refine ⟨(6 + 6 + 2) % 8, ?_⟩
  have hF : innerF a m (4*m + 1 - 1) =
      ((a : Int) + 4 * (m : Int) + 1 - ((4*m + 1 - 1 : Nat) : Int), (a : Int) - 1) := by
    unfold innerF
    rw [ifn (by omega), ifn (by omega), ifn (by omega), ifn (by omega),
      ifn (by omega), ifn (by omega), ifn (by omega), ifn (by omega)]
  have hD : innerD m (4*m + 1 - 1) = 6 := by
    unfold innerD
    rw [ifn (by omega), ifn (by omega), ifn (by omega), ifn (by omega),
      ifn (by omega), ifn (by omega), ifn (by omega), ifn (by omega)]
  rw [hF, hD]
  have hfs := findStep_eq_of (ringO a m)
    ((a : Int) + 4 * (m : Int) + 1 - ((4*m + 1 - 1 : Nat) : Int), (a : Int) - 1) 6 2 (by omega)
    (by intro i hi
        interval_cases i <;>
          (norm_num [moore]; exact ringO_eq_false a m _ _ (by omega)))
    (by norm_num [moore]; exact ringO_eq_true a m _ _ (by omega))
  rw [hfs]
  norm_num [moore, Prod.mk.injEq]
  all_goals omega

/-- The boundary walk from the pixel above the hole's top-left corner
traces the full hole boundary. -/
theorem inner_walk (a m n : Nat) (hn : n = m + 2 * a) (ha : 2 ≤ a) (hm : 3 ≤ m)
    (fuel : Nat) (hfuel : 4 * m + 1 ≤ fuel) :
    walkFrom (ringO a m) ((a : Int), (a : Int) - 1) fuel ((a : Int), (a : Int) - 1) 0 =
      innerPathL a m := by
  have h := walk_seg (ringO a m) ((a : Int), (a : Int) - 1) (innerF a m) (innerD m)
    (4 * m + 1) (inner_step a m n hn ha hm) (inner_ne a m ha hm)
    (inner_last a m n hn ha hm) fuel 0 (by omega) (by omega)
  have hF : innerF a m 0 = ((a : Int), (a : Int) - 1) := by
    unfold innerF; rw [ifp rfl]
  have hD : innerD m 0 = 0 := by unfold innerD; rw [ifp rfl]
  rw [hF, hD] at h
  rw [h]
  unfold innerPathL
  apply List.map_congr_left
  intro j hj
  exact congrArg (innerF a m) (by omega)

/-- The perimeter path consists exactly of the border pixels. -/
theorem mem_outerPathL (n : Nat) (hn : 2 ≤ n) (p : Int × Int) :
    p ∈ outerPathL n ↔ (0 ≤ p.1 ∧ p.1 < (n : Int) ∧ 0 ≤ p.2 ∧ p.2 < (n : Int) ∧
      (p.1 = 0 ∨ p.1 = (n : Int) - 1 ∨ p.2 = 0 ∨ p.2 = (n : Int) - 1)) := by
  constructor
  · intro hp
    obtain ⟨t, ht, rfl⟩ := List.mem_map.mp hp
    have ht2 := List.mem_range.mp ht
    unfold outerF
    split_ifs <;> (dsimp only; omega)
  · intro h
    obtain ⟨x, y⟩ := p
    dsimp only at h
    by_cases hy0 : y = 0
    · refine List.mem_map.mpr ⟨x.toNat, List.mem_range.mpr (by omega), ?_⟩
      unfold outerF
      rw [ifp (by omega), Prod.mk.injEq]
      omega
    · by_cases hx1 : x = (n : Int) - 1
      · refine List.mem_map.mpr ⟨n - 1 + y.toNat, List.mem_range.mpr (by omega), ?_⟩
        unfold outerF
        rw [ifn (by omega), ifp (by omega), Prod.mk.injEq]
        omega
      · by_cases hy1 : y = (n : Int) - 1
        · refine List.mem_map.mpr ⟨3 * n - 3 - x.toNat, List.mem_range.mpr (by omega), ?_⟩
          unfold outerF
          rw [ifn (by omega), ifn (by omega), ifp (by omega), Prod.mk.injEq]
          omega
        · refine List.mem_map.mpr ⟨4 * n - 4 - y.toNat, List.mem_range.mpr (by omega), ?_⟩
          unfold outerF
          rw [ifn (by omega), ifn (by omega), ifn (by omega), Prod.mk.injEq]
          omega

/-- The hole path consists exactly of the pixels orthogonally adjacent to
the hole, plus the top-left diagonal corner pixel. -/
theorem mem_innerPathL (a m : Nat) (ha : 2 ≤ a) (hm : 3 ≤ m) (p : Int × Int) :
    p ∈ innerPathL a m ↔
      ((p.2 = (a : Int) - 1 ∧ (a : Int) - 1 ≤ p.1 ∧ p.1 ≤ (a : Int) + (m : Int) - 1) ∨
       (p.1 = (a : Int) - 1 ∧ (a : Int) ≤ p.2 ∧ p.2 ≤ (a : Int) + (m : Int) - 1) ∨
       (p.2 = (a : Int) + (m : Int) ∧ (a : Int) ≤ p.1 ∧ p.1 ≤ (a : Int) + (m : Int) - 1) ∨
       (p.1 = (a : Int) + (m : Int) ∧ (a : Int) ≤ p.2 ∧ p.2 ≤ (a : Int) + (m : Int) - 1)) := by
  constructor
  · intro hp
    obtain ⟨t, ht, rfl⟩ := List.mem_map.mp hp
    have ht2 := List.mem_range.mp ht
    unfold innerF
    split_ifs <;> (dsimp only; omega)
  · intro h
    obtain ⟨x, y⟩ := p
    dsimp only at h
    rcases h with ⟨hy, hx1, hx2⟩ | ⟨hx, hy1, hy2⟩ | ⟨hy, hx1, hx2⟩ | ⟨hx, hy1, hy2⟩
    · by_cases hxa : x = (a : Int)
      · refine List.mem_map.mpr ⟨0, List.mem_range.mpr (by omega), ?_⟩
        unfold innerF
        rw [ifp rfl, Prod.mk.injEq]
        omega
      · by_cases hxb : x = (a : Int) - 1
        · refine List.mem_map.mpr ⟨1, List.mem_range.mpr (by omega), ?_⟩
          unfold innerF
          rw [ifn (by omega), ifp rfl, Prod.mk.injEq]
          omega
        · by_cases hxc : x = (a : Int) + (m : Int) - 1
          · refine List.mem_map.mpr ⟨3 * m + 2, List.mem_range.mpr (by omega), ?_⟩
            unfold innerF
            rw [ifn (by omega), ifn (by omega), ifn (by omega), ifn (by omega),
              ifn (by omega), ifn (by omega), ifn (by omega), ifp rfl,
              Prod.mk.injEq]
            omega
          · refine List.mem_map.mpr
              ⟨((a : Int) + 4 * (m : Int) + 1 - x).toNat, List.mem_range.mpr (by omega), ?_⟩
            unfold innerF
            rw [ifn (by omega), ifn (by omega), ifn (by omega), ifn (by omega),
              ifn (by omega), ifn (by omega), ifn (by omega), ifn (by omega),
              Prod.mk.injEq]
            omega
    · refine List.mem_map.mpr ⟨(y - (a : Int) + 2).toNat, List.mem_range.mpr (by omega), ?_⟩
      unfold innerF
      rw [ifn (by omega), ifn (by omega), ifp (by omega), Prod.mk.injEq]
      omega
    · by_cases hxa : x = (a : Int)
      · refine List.mem_map.mpr ⟨m + 2, List.mem_range.mpr (by omega), ?_⟩
        unfold innerF
        rw [ifn (by omega), ifn (by omega), ifn (by omega), ifp rfl,
          Prod.mk.injEq]
        omega
      · refine List.mem_map.mpr
          ⟨(x - (a : Int) + (m : Int) + 2).toNat, List.mem_range.mpr (by omega), ?_⟩
        unfold innerF
        rw [ifn (by omega), ifn (by omega), ifn (by omega), ifn (by omega),
          ifp (by omega), Prod.mk.injEq]
        omega
    · by_cases hyb : y = (a : Int) + (m : Int) - 1
      · refine List.mem_map.mpr ⟨2 * m + 2, List.mem_range.mpr (by omega), ?_⟩
        unfold innerF
        rw [ifn (by omega), ifn (by omega), ifn (by omega), ifn (by omega),
          ifn (by omega), ifp rfl, Prod.mk.injEq]
        omega
      · refine List.mem_map.mpr
          ⟨((a : Int) + 3 * (m : Int) + 1 - y).toNat, List.mem_range.mpr (by omega), ?_⟩
        unfold innerF
        rw [ifn (by omega), ifn (by omega), ifn (by omega), ifn (by omega),
          ifn (by omega), ifn (by omega), ifp (by omega), Prod.mk.injEq]
        omega

theorem rowmajor_mod (n x y : Nat) (hx : x < n) : (y * n + x) % n = x := by
  rw [Nat.mul_comm, Nat.mul_add_mod, Nat.mod_eq_of_lt hx]

theorem rowmajor_div (n x y : Nat) (hx : x < n) : (y * n + x) / n = y := by
  rw [Nat.mul_comm, Nat.mul_add_div (by omega), Nat.div_eq_of_lt hx]
  omega

theorem rowmajor_lt (n x y : Nat) (hx : x < n) (hy : y < n) : y * n + x < n * n := by
  calc y * n + x < y * n + n := by omega
    _ = (y + 1) * n := by ring
    _ ≤ n * n := Nat.mul_le_mul_right _ (by omega)

/-- The RGBA quadruple of the ring image at pixel `(x, y)`. -/
theorem ringImg_pixelAt_xy (a m x y : Nat) (hx : x < m + 2 * a) (hy : y < m + 2 * a) :
    pixelAt (ringImg a m) (y * (m + 2 * a) + x) =
      (0, 0, 0, if a ≤ x ∧ x < a + m ∧ a ≤ y ∧ y < a + m then 0 else 255) := by
  have hK := rowmajor_lt (m + 2 * a) x y hx hy
  unfold pixelAt ringImg
  simp only
  rw [getD_map_range _ _ _ (by omega), getD_map_range _ _ _ (by omega),
    getD_map_range _ _ _ (by omega), getD_map_range _ _ _ (by omega)]
  rw [if_neg (by rintro ⟨hc, -⟩; omega), if_neg (by rintro ⟨hc, -⟩; omega),
    if_neg (by rintro ⟨hc, -⟩; omega)]
  have ed : (4 * (y * (m + 2 * a) + x) + 3) / 4 = y * (m + 2 * a) + x := by omega
  rw [ed, rowmajor_mod _ _ _ hx, rowmajor_div _ _ _ hx]
  by_cases hc : a ≤ x ∧ x < a + m ∧ a ≤ y ∧ y < a + m
  · rw [if_neg (by rintro ⟨-, hn⟩; exact hn hc), if_pos hc]
  · rw [if_pos ⟨by omega, hc⟩, if_neg hc]

/-- Folding the quantization step over pixels that all share one bucket
key, starting from a single-entry map, counts the visible pixels. -/
theorem fold_single_aux (k0 : Nat × Nat × Nat × Nat) (c0 : Color) :
    ∀ (l : List (Nat × Nat × Nat × Nat)),
    (∀ px ∈ l, 10 < pxAlpha px → pxKey px = k0 ∧ pxColor px = c0) →
    ∀ cnt, l.foldl quantStep [(k0, ⟨c0, cnt⟩)] =
      [(k0, ⟨c0, cnt + l.countP fun px => decide (10 < pxAlpha px)⟩)] := by
  intro l
  induction l with
  | nil => intro hl cnt; simp
  | cons px rest ih =>
    intro hl cnt
    rw [List.foldl_cons]
    by_cases hv : 10 < pxAlpha px
    · obtain ⟨hk, hc⟩ := hl px (List.mem_cons_self _ _) hv
      have hq : quantStep [(k0, ⟨c0, cnt⟩)] px = [(k0, ⟨c0, cnt + 1⟩)] := by
        unfold quantStep
        rw [if_pos hv, hk, hc]
        unfold bump
        rw [if_pos rfl]
      rw [hq, ih (fun q hq2 hv2 => hl q (List.mem_cons_of_mem _ hq2) hv2) (cnt + 1),
        List.countP_cons_of_pos (fun px => decide (10 < pxAlpha px)) rest
          (decide_eq_true hv)]
      have harith : cnt + 1 + rest.countP (fun px => decide (10 < pxAlpha px)) =
          cnt + (rest.countP (fun px => decide (10 < pxAlpha px)) + 1) := by omega
      rw [harith]
    · have hq : quantStep [(k0, ⟨c0, cnt⟩)] px = [(k0, ⟨c0, cnt⟩)] := by
        unfold quantStep
        rw [if_neg hv]
      rw [hq, ih (fun q hq2 hv2 => hl q (List.mem_cons_of_mem _ hq2) hv2) cnt,
        List.countP_cons_of_neg (fun px => decide (10 < pxAlpha px)) rest
          (by simpa using hv)]

/-- Folding the quantization step over pixels that all share one bucket
key produces at most that one bucket. -/
theorem fold_single (k0 : Nat × Nat × Nat × Nat) (c0 : Color) :
    ∀ (l : List (Nat × Nat × Nat × Nat)),
    (∀ px ∈ l, 10 < pxAlpha px → pxKey px = k0 ∧ pxColor px = c0) →
    (l.foldl quantStep [] = [] ∧ l.countP (fun px => decide (10 < pxAlpha px)) = 0) ∨
    l.foldl quantStep [] =
      [(k0, ⟨c0, l.countP fun px => decide (10 < pxAlpha px)⟩)] := by
  intro l
  induction l with
  | nil => intro hl; left; exact ⟨rfl, rfl⟩
  | cons px rest ih =>
    intro hl
    rw [List.foldl_cons]
    by_cases hv : 10 < pxAlpha px
    · right
      obtain ⟨hk, hc⟩ := hl px (List.mem_cons_self _ _) hv
      have hq : quantStep [] px = [(k0, ⟨c0, 1⟩)] := by
        unfold quantStep
        rw [if_pos hv, hk, hc]
        rfl
      rw [hq, fold_single_aux k0 c0 rest
        (fun q hq2 hv2 => hl q (List.mem_cons_of_mem _ hq2) hv2) 1,
        List.countP_cons_of_pos (fun px => decide (10 < pxAlpha px)) rest
          (decide_eq_true hv)]
      have harith : 1 + rest.countP (fun px => decide (10 < pxAlpha px)) =
          rest.countP (fun px => decide (10 < pxAlpha px)) + 1 := by omega
      rw [harith]
    · have hq : quantStep [] px = [] := by
        unfold quantStep
        rw [if_neg hv]
      rw [hq, List.countP_cons_of_neg (fun px => decide (10 < pxAlpha px)) rest
        (by simpa using hv)]
      exact ih (fun q hq2 hv2 => hl q (List.mem_cons_of_mem _ hq2) hv2)

theorem numPixels_ring (a m : Nat) : numPixels (ringImg a m) = (m + 2 * a) * (m + 2 * a) := by
  unfold numPixels ringImg
  simp only [List.length_map, List.length_range]
  omega

/-- Every visible ring pixel lands in the black near-opaque bucket. -/
theorem ring_px_key (a m : Nat) (ha : 2 ≤ a) (hm : 3 ≤ m) :
    ∀ px ∈ pixels (ringImg a m), 10 < pxAlpha px →
      pxKey px = (0, 0, 0, 224) ∧ pxColor px = ⟨0, 0, 0, 224⟩ := by
  intro px hpx hv
  unfold pixels at hpx
  obtain ⟨i, hi, rfl⟩ := List.mem_map.mp hpx
  have hi' := List.mem_range.mp hi
  rw [numPixels_ring] at hi'
  have hxlt : i % (m + 2 * a) < m + 2 * a := Nat.mod_lt _ (by omega)
  have hylt : i / (m + 2 * a) < m + 2 * a := by
    rw [Nat.div_lt_iff_lt_mul (by omega)]
    exact hi'
  have hieq : i = (i / (m + 2 * a)) * (m + 2 * a) + i % (m + 2 * a) := by
    rw [Nat.mul_comm]
    exact (Nat.div_add_mod i (m + 2 * a)).symm
  rw [hieq, ringImg_pixelAt_xy a m _ _ hxlt hylt] at hv ⊢
  by_cases hc : a ≤ i % (m + 2 * a) ∧ i % (m + 2 * a) < a + m ∧
      a ≤ i / (m + 2 * a) ∧ i / (m + 2 * a) < a + m
  · rw [if_pos hc] at hv
    simp [pxAlpha] at hv
  · rw [if_neg hc]
    exact ⟨rfl, rfl⟩

/-- At least the first four pixels of the ring are visible. -/
theorem ring_count_ge (a m : Nat) (ha : 2 ≤ a) (hm : 3 ≤ m) :
    4 ≤ (pixels (ringImg a m)).countP fun px => decide (10 < pxAlpha px) := by
  have hp : ∀ i, i < 4 → pixelAt (ringImg a m) i = (0, 0, 0, 255) := by
    intro i hi
    have hre : i = 0 * (m + 2 * a) + i := by omega
    rw [hre, ringImg_pixelAt_xy a m i 0 (by omega) (by omega),
      if_neg (by rintro ⟨-, -, h3, -⟩; omega)]
  have hsplit := (List.take_append_drop 4 (pixels (ringImg a m))).symm
  rw [hsplit, List.countP_append]
  have htake : (pixels (ringImg a m)).take 4 =
      [pixelAt (ringImg a m) 0, pixelAt (ringImg a m) 1,
        pixelAt (ringImg a m) 2, pixelAt (ringImg a m) 3] := by
    unfold pixels
    rw [← List.map_take, numPixels_ring, List.take_range]
    have hmin : min 4 ((m + 2 * a) * (m + 2 * a)) = 4 := by
      have h7 : 7 ≤ m + 2 * a := by omega
      have h2 : 49 ≤ (m + 2 * a) * (m + 2 * a) := Nat.mul_le_mul h7 h7
      omega
    rw [hmin]
    rfl
  rw [htake, hp 0 (by omega), hp 1 (by omega), hp 2 (by omega), hp 3 (by omega)]
  have hc4 : ([((0 : Nat), (0 : Nat), (0 : Nat), (255 : Nat)), (0, 0, 0, 255), (0, 0, 0, 255),
      (0, 0, 0, 255)].countP fun px => decide (10 < pxAlpha px)) = 4 := by decide
  rw [hc4]
  omega

/-- The ring quantizes to the single black near-opaque bucket. -/
theorem ring_quantize (a m : Nat) (ha : 2 ≤ a) (hm : 3 ≤ m) :
    ∃ cnt, 4 ≤ cnt ∧
      quantizeAndGetColors (ringImg a m) = [⟨⟨0, 0, 0, 224⟩, cnt⟩] := by
  have hcnt := ring_count_ge a m ha hm
  rcases fold_single (0, 0, 0, 224) ⟨0, 0, 0, 224⟩ (pixels (ringImg a m))
      (ring_px_key a m ha hm) with ⟨-, h0⟩ | hf
  · omega
  · refine ⟨_, hcnt, ?_⟩
    unfold quantizeAndGetColors
    rw [hf]
    simp only [List.map_cons, List.map_nil]
    rw [List.filter_cons_of_pos (by exact decide_eq_true hcnt)]
    rfl

/-- The matcher's verdict on ring pixel `(x, y)`. -/
theorem ring_maskMatchB (a m xn yn : Nat) (ha : 2 ≤ a) (hm : 3 ≤ m)
    (hx : xn < m + 2 * a) (hy : yn < m + 2 * a) :
    maskMatchB (ringImg a m) ⟨0, 0, 0, 224⟩ (yn * (m + 2 * a) + xn) =
      if a ≤ xn ∧ xn < a + m ∧ a ≤ yn ∧ yn < a + m then false else true := by
  by_cases hc : a ≤ xn ∧ xn < a + m ∧ a ≤ yn ∧ yn < a + m
  · rw [if_pos hc]
    rw [← Bool.not_eq_true]
    intro habs
    rw [maskMatchB_iff, ringImg_pixelAt_xy a m xn yn hx hy, if_pos hc] at habs
    have := habs.1
    simp [pxAlpha] at this
  · rw [if_neg hc]
    rw [maskMatchB_iff, ringImg_pixelAt_xy a m xn yn hx hy, if_neg hc]
    refine ⟨by simp [pxAlpha], rfl, rfl, rfl, Or.inr rfl⟩

theorem ringImg_width (a m : Nat) : (ringImg a m).width = m + 2 * a := rfl

theorem ringImg_height (a m : Nat) : (ringImg a m).height = m + 2 * a := rfl

theorem ringImg_data_length (a m : Nat) :
    (ringImg a m).data.length = 4 * ((m + 2 * a) * (m + 2 * a)) := by
  simp [ringImg]

/-- The tracer's opacity test on the ring's color mask is exactly the ring
predicate. -/
theorem ring_mask_isOpaque (a m : Nat) (ha : 2 ≤ a) (hm : 3 ≤ m) :
    isOpaque (createColorMask (ringImg a m) ⟨0, 0, 0, 224⟩) = ringO a m := by
  funext x y
  unfold isOpaque ringO
  simp only [createColorMask, ringImg_data_length, ringImg_width, ringImg_height]
  rw [decide_eq_decide]
  by_cases hb : 0 ≤ x ∧ x < ((m + 2 * a : Nat) : Int) ∧ 0 ≤ y ∧ y < ((m + 2 * a : Nat) : Int)
  · obtain ⟨h1, h2, h3, h4⟩ := hb
    obtain ⟨xn, rfl⟩ : ∃ xn : Nat, x = (xn : Int) := ⟨x.toNat, (Int.toNat_of_nonneg h1).symm⟩
    obtain ⟨yn, rfl⟩ : ∃ yn : Nat, y = (yn : Int) := ⟨y.toNat, (Int.toNat_of_nonneg h3).symm⟩
    have hxn : xn < m + 2 * a := by exact_mod_cast h2
    have hyn : yn < m + 2 * a := by exact_mod_cast h4
    have hidx : (((yn : Int) * ((m + 2 * a : Nat) : Int) + (xn : Int)) * 4 + 3).toNat =
        4 * (yn * (m + 2 * a) + xn) + 3 := by
      have e : ((yn : Int) * ((m + 2 * a : Nat) : Int) + (xn : Int)) * 4 + 3 =
          ((4 * (yn * (m + 2 * a) + xn) + 3 : Nat) : Int) := by
        push_cast
        ring
      rw [e, Int.toNat_natCast]
    rw [hidx]
    have hK := rowmajor_lt (m + 2 * a) xn yn hxn hyn
    rw [getD_map_range _ _ _ (by omega)]
    have hd4 : (4 * (yn * (m + 2 * a) + xn) + 3) / 4 = yn * (m + 2 * a) + xn := by omega
    have hm4 : (4 * (yn * (m + 2 * a) + xn) + 3) % 4 = 3 := by omega
    rw [hd4, hm4, ring_maskMatchB a m xn yn ha hm hxn hyn]
    by_cases hc : a ≤ xn ∧ xn < a + m ∧ a ≤ yn ∧ yn < a + m
    · rw [if_pos hc, if_neg (by rintro ⟨-, hf⟩; exact Bool.false_ne_true hf)]
      constructor
      · rintro ⟨-, -, -, -, hlt⟩
        omega
      · rintro ⟨-, -, -, -, hnh⟩
        exfalso
        apply hnh
        push_cast
        omega
    · rw [if_neg hc, if_pos ⟨rfl, rfl⟩]
      constructor
      · rintro ⟨-, -, -, -, -⟩
        refine ⟨by omega, by omega, by omega, by omega, ?_⟩
        push_cast
        omega
      · rintro ⟨-, -, -, -, -⟩
        exact ⟨by omega, by omega, by omega, by omega, by omega⟩
  · constructor
    · rintro ⟨g1, g2, g3, g4, -⟩
      exact absurd ⟨g1, g2, g3, g4⟩ hb
    · rintro ⟨g1, g2, g3, g4, -⟩
      exact absurd ⟨g1, g2, g3, g4⟩ hb

/-- Row-major enumeration of the raster indices. -/
theorem range_mul_flatten (h w : Nat) :
    List.range (h * w) =
      (List.range h).flatMap (fun y => (List.range w).map (fun x => y * w + x)) := by
  induction h with
  | zero => simp
  | succ h' ih =>
    have he : (h' + 1) * w = h' * w + w := by ring
    rw [he, List.range_add, ih, List.range_succ, List.flatMap_append]
    simp only [List.flatMap_cons, List.flatMap_nil, List.append_nil]

/-- Folding over a flattened list is the nested fold. -/
theorem foldl_flatMap {α β γ : Type} (f : α → γ → α) (g : β → List γ) :
    ∀ (l : List β) (s : α),
      (l.flatMap g).foldl f s = l.foldl (fun s b => (g b).foldl f s) s := by
  intro l
  induction l with
  | nil => intro s; rfl
  | cons b rest ih =>
    intro s
    rw [List.flatMap_cons, List.foldl_append, List.foldl_cons, ih]

/-- Folds of pointwise-equal step functions agree. -/
theorem foldl_congr_fn {α β : Type} (f g : α → β → α) (l : List β)
    (h : ∀ s, ∀ x ∈ l, f s x = g s x) : ∀ s, l.foldl f s = l.foldl g s := by
  induction l with
  | nil => intro s; rfl
  | cons b rest ih =>
    intro s
    rw [List.foldl_cons, List.foldl_cons, h s b (List.mem_cons_self _ _)]
    exact ih (fun s2 x hx => h s2 x (List.mem_cons_of_mem _ hx)) _

/-- Splitting an index range at one element. -/
theorem range_split (n k : Nat) (hk : k < n) :
    List.range n = List.range k ++ [k] ++ (List.range (n - k - 1)).map (fun j => k + 1 + j) := by
  have h1 : n = k + (1 + (n - k - 1)) := by omega
  conv_lhs => rw [h1]
  rw [List.range_add, List.range_add, List.map_append, List.map_map]
  have hr1 : List.range 1 = [0] := rfl
  rw [hr1]
  simp only [List.map_cons, List.map_nil, List.append_assoc, List.cons_append,
    List.nil_append, List.singleton_append, Nat.add_zero]
  congr 1
  congr 1
  apply List.map_congr_left
  intro j hj
  show k + (1 + j) = k + 1 + j
  omega

/-- The raster-scan step at explicit coordinates `(x, y)`. -/
def traceStepXY (w h : Nat) (O : Int → Int → Bool)
    (st : List (Int × Int) × List (List (Int × Int))) (x y : Nat) :
    List (Int × Int) × List (List (Int × Int)) :=
  if ((x : Int), (y : Int)) ∈ st.1 ∨ O (x : Int) (y : Int) = false then st
  else if boundaryB w h O (x : Int) (y : Int) = false then st
  else
    let path := walkFrom O ((x : Int), (y : Int)) (8 * (w * h) + 8) ((x : Int), (y : Int)) 0
    if 2 < path.length then (st.1 ++ path, st.2 ++ [path]) else st

theorem traceStep_eq_XY (w h : Nat) (O : Int → Int → Bool)
    (st : List (Int × Int) × List (List (Int × Int))) (x y : Nat) (hx : x < w) :
    traceStep w h O st (y * w + x) = traceStepXY w h O st x y := by
  unfold traceStep traceStepXY
  rw [rowmajor_mod _ _ _ hx, rowmajor_div _ _ _ hx]

/-- A pixel that is visited, transparent, or non-boundary is skipped. -/
theorem traceStepXY_skip (w h : Nat) (O : Int → Int → Bool)
    (st : List (Int × Int) × List (List (Int × Int))) (x y : Nat)
    (hcond : ((x : Int), (y : Int)) ∈ st.1 ∨ O (x : Int) (y : Int) = false ∨
      boundaryB w h O (x : Int) (y : Int) = false) :
    traceStepXY w h O st x y = st := by
  unfold traceStepXY
  rcases hcond with hc | hc | hc
  · rw [if_pos (Or.inl hc)]
  · rw [if_pos (Or.inr hc)]
  · by_cases hv : ((x : Int), (y : Int)) ∈ st.1 ∨ O (x : Int) (y : Int) = false
    · rw [if_pos hv]
    · rw [if_neg hv, if_pos hc]

theorem boundaryB_eq_true_of_border (w h : Nat) (O : Int → Int → Bool) (x y : Int)
    (hb : x = 0 ∨ y = 0 ∨ x = (w : Int) - 1 ∨ y = (h : Int) - 1) :
    boundaryB w h O x y = true := by
  unfold boundaryB
  rw [decide_eq_true hb]
  simp

theorem boundaryB_eq_true_of_down (w h : Nat) (O : Int → Int → Bool) (x y : Int)
    (hd : O x (y + 1) = false) : boundaryB w h O x y = true := by
  unfold boundaryB
  rw [hd]
  simp

theorem boundaryB_eq_false (w h : Nat) (O : Int → Int → Bool) (x y : Int)
    (hb : ¬(x = 0 ∨ y = 0 ∨ x = (w : Int) - 1 ∨ y = (h : Int) - 1))
    (h1 : O (x + 1) y = true) (h2 : O (x - 1) y = true)
    (h3 : O x (y + 1) = true) (h4 : O x (y - 1) = true) :
    boundaryB w h O x y = false := by
  unfold boundaryB
  rw [decide_eq_false hb, h1, h2, h3, h4]
  rfl

theorem outerPathL_length (n : Nat) : (outerPathL n).length = 4 * n - 4 := by
  simp [outerPathL]

theorem innerPathL_length (a m : Nat) : (innerPathL a m).length = 4 * m + 1 := by
  simp [innerPathL]

/-- Scanning row 0 fires the perimeter walk at the corner and skips the
rest of the row as visited. -/
theorem ring_row0 (a m n : Nat) (hn : n = m + 2 * a) (ha : 2 ≤ a) (hm : 3 ≤ m) :
    (List.range n).foldl (fun s x => traceStepXY n n (ringO a m) s x 0) ([], []) =
      (outerPathL n, [outerPathL n]) := by
  have hnn : n ≤ n * n := Nat.le_mul_of_pos_left n (by omega)
  rw [range_split n 0 (by omega), List.foldl_append, List.foldl_append]
  simp only [List.range_zero, List.foldl_nil, List.foldl_cons]
  have hfire : traceStepXY n n (ringO a m) ([], []) 0 0 = (outerPathL n, [outerPathL n]) := by
    unfold traceStepXY
    have hO : ringO a m ((0 : Nat) : Int) ((0 : Nat) : Int) = true :=
      ringO_eq_true _ _ _ _ (by omega)
    rw [if_neg (by
      rintro (hmem | hfalse)
      · exact List.not_mem_nil _ hmem
      · rw [hO] at hfalse
        exact Bool.true_eq_false_eq_False hfalse)]
    rw [if_neg (by
      rw [boundaryB_eq_true_of_border n n _ _ _ (Or.inl (by norm_num))]
      exact Bool.true_eq_false_eq_False)]
    simp only [Nat.cast_zero]
    rw [outer_walk a m n hn ha hm _ (by omega)]
    rw [if_pos (by rw [outerPathL_length]; omega)]
    simp
  rw [hfire, List.foldl_map]
  apply foldl_fixed
  intro j hj
  have hj' := List.mem_range.mp hj
  apply traceStepXY_skip
  left
  show ((((0 : Nat) + 1 + j : Nat) : Int), ((0 : Nat) : Int)) ∈ outerPathL n
  rw [mem_outerPathL n (by omega)]
  refine ⟨by omega, by omega, by omega, by omega, Or.inr (Or.inr (Or.inl (by norm_num)))⟩

/-- Rows strictly between the perimeter and the hole-adjacent row are
entirely skipped. -/
theorem ring_row_pre (a m n : Nat) (hn : n = m + 2 * a) (ha : 2 ≤ a) (hm : 3 ≤ m)
    (y : Nat) (hy1 : 1 ≤ y) (hy2 : y ≤ a - 2) :
    (List.range n).foldl (fun s x => traceStepXY n n (ringO a m) s x y)
      (outerPathL n, [outerPathL n]) = (outerPathL n, [outerPathL n]) := by
  apply foldl_fixed
  intro x hx
  have hx' := List.mem_range.mp hx
  apply traceStepXY_skip
  by_cases hedge : x = 0 ∨ x = n - 1
  · left
    show (((x : Nat) : Int), ((y : Nat) : Int)) ∈ outerPathL n
    rw [mem_outerPathL n (by omega)]
    refine ⟨by omega, by omega, by omega, by omega, ?_⟩
    rcases hedge with h | h
    · left; omega
    · right; left; omega
  · right; right
    apply boundaryB_eq_false
    · intro hb
      rcases hb with h | h | h | h <;> omega
    · exact ringO_eq_true _ _ _ _ (by omega)
    · exact ringO_eq_true _ _ _ _ (by omega)
    · exact ringO_eq_true _ _ _ _ (by omega)
    · exact ringO_eq_true _ _ _ _ (by omega)

/-- Scanning row `a-1` skips up to the hole, fires the hole walk at
`(a, a-1)`, and skips the rest as visited or non-boundary. -/
theorem ring_row_fire (a m n : Nat) (hn : n = m + 2 * a) (ha : 2 ≤ a) (hm : 3 ≤ m) :
    (List.range n).foldl (fun s x => traceStepXY n n (ringO a m) s x (a - 1))
      (outerPathL n, [outerPathL n]) =
      (outerPathL n ++ innerPathL a m, [outerPathL n, innerPathL a m]) := by
  have hnn : n ≤ n * n := Nat.le_mul_of_pos_left n (by omega)
  rw [range_split n a (by omega), List.foldl_append, List.foldl_append]
  have hpre : (List.range a).foldl (fun s x => traceStepXY n n (ringO a m) s x (a - 1))
      (outerPathL n, [outerPathL n]) = (outerPathL n, [outerPathL n]) := by
    apply foldl_fixed
    intro x hx
    have hx' := List.mem_range.mp hx
    apply traceStepXY_skip
    by_cases hx0 : x = 0
    · left
      show (((x : Nat) : Int), ((a - 1 : Nat) : Int)) ∈ outerPathL n
      rw [mem_outerPathL n (by omega)]
      exact ⟨by omega, by omega, by omega, by omega, Or.inl (by omega)⟩
    · right; right
      apply boundaryB_eq_false
      · intro hb; rcases hb with h | h | h | h <;> omega
      · exact ringO_eq_true _ _ _ _ (by omega)
      · exact ringO_eq_true _ _ _ _ (by omega)
      · exact ringO_eq_true _ _ _ _ (by omega)
      · exact ringO_eq_true _ _ _ _ (by omega)
  rw [hpre]
  simp only [List.foldl_cons, List.foldl_nil]
  have hfire : traceStepXY n n (ringO a m) (outerPathL n, [outerPathL n]) a (a - 1) =
      (outerPathL n ++ innerPathL a m, [outerPathL n, innerPathL a m]) := by
    unfold traceStepXY
    have hO : ringO a m ((a : Nat) : Int) ((a - 1 : Nat) : Int) = true :=
      ringO_eq_true _ _ _ _ (by omega)
    rw [if_neg (by
      rintro (hmem | hfalse)
      · rw [mem_outerPathL n (by omega)] at hmem
        dsimp only at hmem
        obtain ⟨-, -, -, -, hd⟩ := hmem
        rcases hd with h | h | h | h <;> omega
      · rw [hO] at hfalse
        exact Bool.true_eq_false_eq_False hfalse)]
    rw [if_neg (by
      rw [boundaryB_eq_true_of_down n n _ _ _ (ringO_eq_false a m _ _ (by omega))]
      exact Bool.true_eq_false_eq_False)]
    have hcast : ((a - 1 : Nat) : Int) = (a : Int) - 1 := by omega
    rw [hcast]
    rw [inner_walk a m n hn ha hm _ (by omega)]
    rw [if_pos (by rw [innerPathL_length]; omega)]
    simp
  rw [hfire, List.foldl_map]
  apply foldl_fixed
  intro j hj
  have hj' := List.mem_range.mp hj
  apply traceStepXY_skip
  by_cases hxn : a + 1 + j = n - 1
  · left
    show (((a + 1 + j : Nat) : Int), ((a - 1 : Nat) : Int)) ∈ outerPathL n ++ innerPathL a m
    apply List.mem_append.mpr
    left
    rw [mem_outerPathL n (by omega)]
    exact ⟨by omega, by omega, by omega, by omega, Or.inr (Or.inl (by omega))⟩
  · by_cases hband : a + 1 + j ≤ a + m - 1
    · left
      show (((a + 1 + j : Nat) : Int), ((a - 1 : Nat) : Int)) ∈ outerPathL n ++ innerPathL a m
      apply List.mem_append.mpr
      right
      rw [mem_innerPathL a m ha hm]
      left
      exact ⟨by omega, by omega, by omega⟩
    · right; right
      apply boundaryB_eq_false
      · intro hb; rcases hb with h | h | h | h <;> omega
      · exact ringO_eq_true _ _ _ _ (by omega)
      · exact ringO_eq_true _ _ _ _ (by omega)
      · exact ringO_eq_true _ _ _ _ (by omega)
      · exact ringO_eq_true _ _ _ _ (by omega)

/-- Rows from the hole's top edge down are entirely skipped: visited,
transparent, or non-boundary. -/
theorem ring_row_post (a m n : Nat) (hn : n = m + 2 * a) (ha : 2 ≤ a) (hm : 3 ≤ m)
    (y : Nat) (hy1 : a ≤ y) (hy2 : y ≤ n - 1) :
    (List.range n).foldl (fun s x => traceStepXY n n (ringO a m) s x y)
      (outerPathL n ++ innerPathL a m, [outerPathL n, innerPathL a m]) =
      (outerPathL n ++ innerPathL a m, [outerPathL n, innerPathL a m]) := by
  apply foldl_fixed
  intro x hx
  have hx' := List.mem_range.mp hx
  apply traceStepXY_skip
  by_cases hedge : x = 0 ∨ x = n - 1 ∨ y = n - 1
  · left
    show (((x : Nat) : Int), ((y : Nat) : Int)) ∈ outerPathL n ++ innerPathL a m
    apply List.mem_append.mpr
    left
    rw [mem_outerPathL n (by omega)]
    refine ⟨by omega, by omega, by omega, by omega, ?_⟩
    rcases hedge with h | h | h
    · left; omega
    · right; left; omega
    · right; right; right; omega
  · by_cases hhole : a ≤ x ∧ x < a + m ∧ y < a + m
    · right; left
      exact ringO_eq_false a m _ _ (by omega)
    · by_cases hb2 : x = a - 1 ∧ y ≤ a + m - 1
      · left
        show (((x : Nat) : Int), ((y : Nat) : Int)) ∈ outerPathL n ++ innerPathL a m
        apply List.mem_append.mpr
        right
        rw [mem_innerPathL a m ha hm]
        right; left
        exact ⟨by omega, by omega, by omega⟩
      · by_cases hb4 : x = a + m ∧ y ≤ a + m - 1
        · left
          show (((x : Nat) : Int), ((y : Nat) : Int)) ∈ outerPathL n ++ innerPathL a m
          apply List.mem_append.mpr
          right
          rw [mem_innerPathL a m ha hm]
          right; right; right
          exact ⟨by omega, by omega, by omega⟩
        · by_cases hb3 : y = a + m ∧ a ≤ x ∧ x ≤ a + m - 1
          · left
            show (((x : Nat) : Int), ((y : Nat) : Int)) ∈ outerPathL n ++ innerPathL a m
            apply List.mem_append.mpr
            right
            rw [mem_innerPathL a m ha hm]
            right; right; left
            exact ⟨by omega, by omega, by omega⟩
          · right; right
            apply boundaryB_eq_false
            · intro hbr; rcases hbr with h | h | h | h <;> omega
            · exact ringO_eq_true _ _ _ _ (by omega)
            · exact ringO_eq_true _ _ _ _ (by omega)
            · exact ringO_eq_true _ _ _ _ (by omega)
            · exact ringO_eq_true _ _ _ _ (by omega)

/-- The raster scan of the ring mask produces exactly the perimeter
contour followed by the hole contour. -/
theorem ring_traceCore (a m n : Nat) (hn : n = m + 2 * a) (ha : 2 ≤ a) (hm : 3 ≤ m) :
    traceCore n n (ringO a m) = [outerPathL n, innerPathL a m] := by
  unfold traceCore
  rw [range_mul_flatten n n, foldl_flatMap]
  have hrows : (List.range n).foldl
      (fun s y => ((List.range n).map (fun x => y * n + x)).foldl
        (traceStep n n (ringO a m)) s) ([], []) =
      (List.range n).foldl
        (fun s y => (List.range n).foldl
          (fun s2 x => traceStepXY n n (ringO a m) s2 x y) s) ([], []) := by
    apply foldl_congr_fn
    intro s y hy
    rw [List.foldl_map]
    apply foldl_congr_fn
    intro s2 x hx
    exact traceStep_eq_XY n n (ringO a m) s2 x y (List.mem_range.mp hx)
  rw [hrows]
  set rowF := fun (s : List (Int × Int) × List (List (Int × Int))) (y : Nat) =>
    (List.range n).foldl (fun s2 x => traceStepXY n n (ringO a m) s2 x y) s with hrowF
  rw [range_split n (a - 1) (by omega), List.foldl_append, List.foldl_append,
    range_split (a - 1) 0 (by omega), List.foldl_append, List.foldl_append]
  simp only [List.range_zero, List.foldl_nil, List.foldl_cons]
  have h0 : rowF ([], []) 0 = (outerPathL n, [outerPathL n]) := by
    rw [hrowF]
    exact ring_row0 a m n hn ha hm
  rw [h0]
  simp only [List.foldl_map]
  have hmid : (List.range (a - 1 - 0 - 1)).foldl (fun s j => rowF s (0 + 1 + j))
      (outerPathL n, [outerPathL n]) = (outerPathL n, [outerPathL n]) := by
    apply foldl_fixed
    intro j hj
    rw [hrowF]
    exact ring_row_pre a m n hn ha hm (0 + 1 + j) (by omega)
      (by have := List.mem_range.mp hj; omega)
  rw [hmid]
  have hfire : rowF (outerPathL n, [outerPathL n]) (a - 1) =
      (outerPathL n ++ innerPathL a m, [outerPathL n, innerPathL a m]) := by
    rw [hrowF]
    exact ring_row_fire a m n hn ha hm
  rw [hfire]
  have hpost : (List.range (n - (a - 1) - 1)).foldl (fun s j => rowF s (a - 1 + 1 + j))
      (outerPathL n ++ innerPathL a m, [outerPathL n, innerPathL a m]) =
      (outerPathL n ++ innerPathL a m, [outerPathL n, innerPathL a m]) := by
    apply foldl_fixed
    intro j hj
    rw [hrowF]
    exact ring_row_post a m n hn ha hm (a - 1 + 1 + j) (by omega)
      (by have := List.mem_range.mp hj; omega)
  rw [hpost]

/-- C6 (amended): an axis-aligned opaque ring whose transparent inner
square has side at least 3 and margin at least 2 from the outer edge
traces, via `traceImage`, to exactly one shape with exactly two contours:
the first lies on the image border (the outer boundary), the second stays
within one pixel of the hole without entering it (the inner hole
boundary).  With margin exactly 1 this fails: the perimeter walk already
visits the whole ring, so only one contour is produced (see the
counterexample). -/
theorem traceImage_ring (a m : Nat) (ha : 2 ≤ a) (hm : 3 ≤ m) :
    ∃ cnt outer inner,
      traceImage (ringImg a m) = Except.ok
        ⟨m + 2 * a, m + 2 * a,
          [⟨⟨0, 0, 0, 224⟩, [toPointPath outer, toPointPath inner], cnt⟩]⟩ ∧
      (∀ q ∈ outer, q.1 = 0 ∨ q.1 = ((m + 2 * a : Nat) : Int) - 1 ∨
        q.2 = 0 ∨ q.2 = ((m + 2 * a : Nat) : Int) - 1) ∧
      (∀ q ∈ inner,
        ((a : Int) - 1 ≤ q.1 ∧ q.1 ≤ (a : Int) + (m : Int) ∧
          (a : Int) - 1 ≤ q.2 ∧ q.2 ≤ (a : Int) + (m : Int)) ∧
        ¬((a : Int) ≤ q.1 ∧ q.1 < (a : Int) + (m : Int) ∧
          (a : Int) ≤ q.2 ∧ q.2 < (a : Int) + (m : Int))) := by
  obtain ⟨cnt, hcnt, hq⟩ := ring_quantize a m ha hm
  refine ⟨cnt, outerPathL (m + 2 * a), innerPathL a m, ?_, ?_, ?_⟩
  · unfold traceImage
    rw [hq]
    rw [if_neg (by simp)]
    simp only [List.foldl_cons, List.foldl_nil, List.nil_append]
    have hshape : shapeOf (ringImg a m) ⟨⟨0, 0, 0, 224⟩, cnt⟩ =
        [⟨⟨0, 0, 0, 224⟩,
          [toPointPath (outerPathL (m + 2 * a)), toPointPath (innerPathL a m)], cnt⟩] := by
      unfold shapeOf
      simp only
      have hcont : traceContours
          (createColorMask (ringImg a m) (⟨⟨0, 0, 0, 224⟩, cnt⟩ : QuantColor).toColor) =
          [outerPathL (m + 2 * a), innerPathL a m] := by
        unfold traceContours
        rw [show ((⟨⟨0, 0, 0, 224⟩, cnt⟩ : QuantColor).toColor) = (⟨0, 0, 0, 224⟩ : Color)
          from rfl]
        rw [ring_mask_isOpaque a m ha hm]
        exact ring_traceCore a m (m + 2 * a) rfl ha hm
      rw [hcont]
      rw [if_pos (by
        rw [List.any_eq_true]
        exact ⟨outerPathL (m + 2 * a), List.mem_cons_self _ _,
          decide_eq_true (by rw [outerPathL_length]; omega)⟩)]
      simp only [List.map_cons, List.map_nil]
    rw [hshape]
    rw [if_neg (by simp)]
    rfl
  · intro q hq2
    rw [mem_outerPathL (m + 2 * a) (by omega)] at hq2
    exact hq2.2.2.2.2
  · intro q hq2
    rw [mem_innerPathL a m ha hm] at hq2
    constructor
    · rcases hq2 with ⟨h1, h2, h3⟩ | ⟨h1, h2, h3⟩ | ⟨h1, h2, h3⟩ | ⟨h1, h2, h3⟩ <;>
        exact ⟨by omega, by omega, by omega, by omega⟩
    · rcases hq2 with ⟨h1, h2, h3⟩ | ⟨h1, h2, h3⟩ | ⟨h1, h2, h3⟩ | ⟨h1, h2, h3⟩ <;>
        (rintro ⟨g1, g2, g3, g4⟩; omega)

set_option maxRecDepth 1000000 in
/-- Counterexample to C6 as stated: the 5×5 ring with a 3×3 hole has only
1 pixel of margin, and `traceImage` returns one shape with a single
contour — the perimeter walk already visits every ring pixel, so the hole
boundary is never traced as a second contour. -/
theorem traceImage_ring_margin_one :
    ((traceImage (ringImg 1 3)).toOption.map
      (fun td => (td.shapes.length, td.shapes.map fun s => s.contours.length))) =
    some (1, [1]) := by
  with_unfolding_all rfl

/-- The amended C6 theorem at the 7×7 ring with a 3×3 hole and margin 2. -/
theorem traceImage_ring_witness :
    2 ≤ 2 ∧ 3 ≤ 3 ∧
    (∃ cnt outer inner,
      traceImage (ringImg 2 3) = Except.ok
        ⟨3 + 2 * 2, 3 + 2 * 2,
          [⟨⟨0, 0, 0, 224⟩, [toPointPath outer, toPointPath inner], cnt⟩]⟩ ∧
      (∀ q ∈ outer, q.1 = 0 ∨ q.1 = ((3 + 2 * 2 : Nat) : Int) - 1 ∨
        q.2 = 0 ∨ q.2 = ((3 + 2 * 2 : Nat) : Int) - 1) ∧
      (∀ q ∈ inner,
        (((2 : Nat) : Int) - 1 ≤ q.1 ∧ q.1 ≤ ((2 : Nat) : Int) + ((3 : Nat) : Int) ∧
          ((2 : Nat) : Int) - 1 ≤ q.2 ∧ q.2 ≤ ((2 : Nat) : Int) + ((3 : Nat) : Int)) ∧
        ¬(((2 : Nat) : Int) ≤ q.1 ∧ q.1 < ((2 : Nat) : Int) + ((3 : Nat) : Int) ∧
          ((2 : Nat) : Int) ≤ q.2 ∧ q.2 < ((2 : Nat) : Int) + ((3 : Nat) : Int)))) :=
  ⟨by decide, by decide, traceImage_ring 2 3 (by decide) (by decide)⟩

end Vec
